import Mathlib

/-!
Verification of the webpipe-lsp language-intelligence engine.

This file shallowly embeds the TypeScript sources of the repository:
* the recursive-descent parser (`parser.ts`, exporting `parseProgram`,
  `parseProgramWithDiagnostics`, `getPipelineRanges`, `getVariableRanges`),
* the regex-based reference scanner and handlebars symbol collector
  (`symbol-collector.ts`),
* the document model (`document-model.ts`) and symbol-table builder
  (`symbol-table.ts`),
* the duplicate-declaration detector of the validator (`validation.ts`),
* the language provider `getHandlebarsDefinition` (`language-providers.ts`),
* the `DocumentCache` with its eviction policy (`document-cache.ts`).

Texts are embedded as `List Char` with JS string indices becoming list
indices.  The parser's mutable cursor/diagnostic state becomes an explicit
`PState`; JS exceptions used for backtracking become `Except PState`
results whose error value carries the state at the throw (so diagnostics
reported before a failure survive, exactly as the mutable array does in
the source).  Loops and the mutually recursive pipeline productions take a
fuel argument; termination of the source parser corresponds to the proved
fact that fuel `8 * (length + 1) + 7` always suffices.
-/

set_option maxRecDepth 1000000
set_option maxHeartbeats 1000000

namespace WebpipeLSP

abbrev Txt := List Char

/-- Backtick character (written via its code point). -/
def btick : Char := Char.ofNat 96

/-- Double-quote character. -/
def dquote : Char := Char.ofNat 34

/-- Left brace character. -/
def lbrace : Char := Char.ofNat 123

/-- Right brace character. -/
def rbrace : Char := Char.ofNat 125

/-- `/[A-Za-z_]/` — identifier start characters (`Parser.isIdentStart`). -/
def isIdentStart (c : Char) : Bool :=
  ('A' ≤ c && c ≤ 'Z') || ('a' ≤ c && c ≤ 'z') || c = '_'

/-- `/[A-Za-z0-9_\-]/` — identifier continuation characters (`Parser.isIdentCont`). -/
def isIdentCont (c : Char) : Bool :=
  isIdentStart c || ('0' ≤ c && c ≤ '9') || c = '-'

/-- Decimal digit test (`/[0-9]/`). -/
def isDigitC (c : Char) : Bool := '0' ≤ c && c ≤ '9'

/-- Whitespace skipped by `Parser.skipSpaces`. -/
def isSpaceC (c : Char) : Bool := c = ' ' || c = '\t' || c = '\r' || c = '\n'

/-- Whitespace skipped by `Parser.skipInlineSpaces` (no newline). -/
def isInlineSpaceC (c : Char) : Bool := c = ' ' || c = '\t' || c = '\r'

/-- JS regex `\s` (ASCII part: space, tab, CR, LF, VT, FF). -/
def isJsWs (c : Char) : Bool :=
  c = ' ' || c = '\t' || c = '\r' || c = '\n' || c = Char.ofNat 11 || c = Char.ofNat 12

/-- Character at index `p` (`text[p]`), `none` past the end. -/
def charAt (t : Txt) (p : Nat) : Option Char := t[p]?

/-- Length of the maximal run of characters satisfying `pred` starting at `p`. -/
def countWhile (pred : Char → Bool) (t : Txt) (p : Nat) : Nat :=
  ((t.drop p).takeWhile pred).length

/-- `text.slice(a, b)` for `a ≤ b` (JS clamps; our uses always have `a ≤ b`). -/
def sliceT (t : Txt) (a b : Nat) : Txt := (t.drop a).take (b - a)

/-- `text.startsWith(tok, p)`. -/
def startsWithAt (t : Txt) (tok : Txt) (p : Nat) : Bool := tok.isPrefixOf (t.drop p)

/-- `Parser.match(str)` as a pure position transformer: `some` advances past
`str`, `none` means the text does not start with `str` there (the
`Parser.expect` wrapper throws in that case). -/
def matchTok (t : Txt) (tok : Txt) (p : Nat) : Option Nat :=
  if startsWithAt t tok p then some (p + tok.length) else none

/-- `Parser.consumeWhile(pred)`: the consumed slice and the new position. -/
def takeRun (pred : Char → Bool) (t : Txt) (p : Nat) : Txt × Nat :=
  let n := countWhile pred t p
  (sliceT t p (p + n), p + n)

/-- `Parser.skipSpaces` as a position transformer. -/
def skipSpaces (t : Txt) (p : Nat) : Nat := p + countWhile isSpaceC t p

/-- `Parser.skipInlineSpaces` as a position transformer. -/
def skipInlineSpaces (t : Txt) (p : Nat) : Nat := p + countWhile isInlineSpaceC t p

/-- `Parser.skipToEol`: advance to the next newline (or end of text). -/
def skipToEol (t : Txt) (p : Nat) : Nat := p + countWhile (fun c => c ≠ '\n') t p

/-- `Parser.findLineStart` (after clamping `p` into `[0, len]`). -/
def lineStartFrom (t : Txt) : Nat → Nat
  | 0 => 0
  | i + 1 => if charAt t i = some '\n' then i + 1 else lineStartFrom t i

def findLineStart (t : Txt) (p : Nat) : Nat := lineStartFrom t (min p t.length)

/-- `Parser.findLineEnd` (after clamping `p` into `[0, len]`). -/
def findLineEnd (t : Txt) (p : Nat) : Nat := skipToEol t (min p t.length)

/-- Index of the last occurrence of character `c` (JS `lastIndexOf` for a
one-character needle), `none` when absent. -/
def lastIdxOfChar (t : Txt) (c : Char) : Option Nat :=
  (List.range t.length).foldl (fun acc i => if charAt t i = some c then some i else acc) none

-- ==== AST types (mirroring the `parser.ts` interfaces) ====

inductive ConfigValue where
  | str (value : Txt)
  | envVar (var : Txt) (dflt : Option Txt)
  | boolean (value : Bool)
  | number (value : Nat)
deriving Repr, DecidableEq

structure ConfigProperty where
  key : Txt
  value : ConfigValue
deriving Repr, DecidableEq

structure Config where
  name : Txt
  properties : List ConfigProperty
deriving Repr, DecidableEq

structure Variable where
  varType : Txt
  name : Txt
  value : Txt
deriving Repr, DecidableEq

inductive ResultBranchType where
  | okB
  | customB (name : Txt)
  | defaultB
deriving Repr, DecidableEq

mutual
inductive PipelineStep where
  | regular (name : Txt) (config : Txt)
  | result (branches : List ResultBranch)
inductive ResultBranch where
  | mk (branchType : ResultBranchType) (statusCode : Nat) (pipeline : Pipeline)
inductive Pipeline where
  | mk (steps : List PipelineStep)
end

def ResultBranch.branchType : ResultBranch → ResultBranchType
  | .mk bt _ _ => bt

def ResultBranch.statusCode : ResultBranch → Nat
  | .mk _ c _ => c

def ResultBranch.pipeline : ResultBranch → Pipeline
  | .mk _ _ p => p

def Pipeline.steps : Pipeline → List PipelineStep
  | .mk s => s

structure NamedPipeline where
  name : Txt
  pipeline : Pipeline

inductive PipelineRef where
  | inline (pipeline : Pipeline)
  | named (name : Txt)

structure Route where
  method : Txt
  path : Txt
  pipeline : PipelineRef

structure Mock where
  target : Txt
  returnValue : Txt
deriving Repr, DecidableEq

inductive When where
  | callingRoute (method : Txt) (path : Txt)
  | executingPipeline (name : Txt)
  | executingVariable (varType : Txt) (name : Txt)
deriving Repr, DecidableEq

inductive ConditionType where
  | thenC
  | andC
deriving Repr, DecidableEq

structure Condition where
  conditionType : ConditionType
  field : Txt
  jqExpr : Option Txt
  comparison : Txt
  value : Txt
deriving Repr, DecidableEq

structure It where
  name : Txt
  mocks : List Mock
  whenClause : When
  input : Option Txt
  conditions : List Condition
deriving Repr, DecidableEq

structure Describe where
  name : Txt
  mocks : List Mock
  tests : List It
deriving Repr, DecidableEq

structure Program where
  configs : List Config
  pipelines : List NamedPipeline
  -- source field name `variables`; `variables` is a reserved word in Lean 4
  vars : List Variable
  routes : List Route
  describes : List Describe

inductive Severity where
  | error
  | warning
  | info
deriving Repr, DecidableEq

structure ParseDiagnostic where
  message : String
  start : Nat
  stop : Nat
  severity : Severity
deriving Repr, DecidableEq

-- ==== Parser state ====

/-- Association-list update with JS `Map.set` semantics: an existing key keeps
its position in insertion order and gets the new value; a fresh key is
appended. -/
def setA {α : Type} : List (Txt × α) → Txt → α → List (Txt × α)
  | [], k, v => [(k, v)]
  | (k', v') :: rest, k, v =>
    if k' = k then (k, v) :: rest else (k', v') :: setA rest k v

/-- Association-list lookup (JS `Map.get`). -/
def lookupA {α : Type} : List (Txt × α) → Txt → Option α
  | [], _ => none
  | (k', v) :: rest, k => if k' = k then some v else lookupA rest k

/-- The parser's mutable fields: cursor, diagnostics, and the two
declaration-range side tables. -/
structure PState where
  pos : Nat
  diags : List ParseDiagnostic
  pipelineRanges : List (Txt × (Nat × Nat))
  variableRanges : List (Txt × (Nat × Nat))

/-- `Parser.report`: push a diagnostic. -/
def report (s : PState) (message : String) (start stop : Nat) (severity : Severity) : PState :=
  { s with diags := s.diags ++ [⟨message, start, stop, severity⟩] }

-- ==== Position-only productions ====
-- These productions never touch diagnostics or the range tables, so they are
-- embedded as pure functions from a position to `Option (value × position)`;
-- `none` is the thrown `ParseFailure` (the enclosing `tryParse` restores the
-- cursor, and no other component of the state was changed by them).

/-- `Parser.parseIdentifier`. -/
def parseIdentifier (t : Txt) (p : Nat) : Option (Txt × Nat) :=
  match charAt t p with
  | none => none
  | some c =>
    if isIdentStart c then
      let e := p + 1 + countWhile isIdentCont t (p + 1)
      some (sliceT t p e, e)
    else none

/-- Value of a decimal digit string (JS `parseInt(digits, 10)`). -/
def digitsVal (ds : Txt) : Nat := ds.foldl (fun acc c => acc * 10 + (c.toNat - 48)) 0

/-- `Parser.parseNumber`. -/
def parseNumber (t : Txt) (p : Nat) : Option (Nat × Nat) :=
  let n := countWhile isDigitC t p
  if n = 0 then none else some (digitsVal (sliceT t p (p + n)), p + n)

/-- `Parser.parseQuotedString`. -/
def parseQuotedString (t : Txt) (p : Nat) : Option (Txt × Nat) := do
  let p1 ← matchTok t [dquote] p
  let (content, p2) := takeRun (fun c => c ≠ dquote) t p1
  let p3 ← matchTok t [dquote] p2
  pure (content, p3)

/-- `Parser.parseBacktickString`. -/
def parseBacktickString (t : Txt) (p : Nat) : Option (Txt × Nat) := do
  let p1 ← matchTok t [btick] p
  let (content, p2) := takeRun (fun c => c ≠ btick) t p1
  let p3 ← matchTok t [btick] p2
  pure (content, p3)

def httpMethods : List Txt :=
  ["GET".toList, "POST".toList, "PUT".toList, "PATCH".toList, "DELETE".toList]

/-- `Parser.parseMethod`: first of the five method literals that matches. -/
def parseMethodIn (t : Txt) (p : Nat) : List Txt → Option (Txt × Nat)
  | [] => none
  | m :: rest =>
    if startsWithAt t m p then some (m, p + m.length) else parseMethodIn t p rest

def parseMethod (t : Txt) (p : Nat) : Option (Txt × Nat) := parseMethodIn t p httpMethods

/-- `Parser.parseStepConfig`: backtick string, quoted string, or identifier. -/
def parseStepConfig (t : Txt) (p : Nat) : Option (Txt × Nat) :=
  match parseBacktickString t p with
  | some r => some r
  | none =>
    match parseQuotedString t p with
    | some r => some r
    | none => parseIdentifier t p

/-- `Parser.parseConfigValue`, first alternative: `$VAR || "default"`. -/
def parseEnvWithDefault (t : Txt) (p : Nat) : Option (ConfigValue × Nat) := do
  let p1 ← matchTok t ['$'] p
  let (v, p2) ← parseIdentifier t p1
  let p3 := skipInlineSpaces t p2
  let p4 ← matchTok t ['|', '|'] p3
  let p5 := skipInlineSpaces t p4
  let (d, p6) ← parseQuotedString t p5
  pure (ConfigValue.envVar v (some d), p6)

/-- `Parser.parseConfigValue`, second alternative: `$VAR`. -/
def parseEnvNoDefault (t : Txt) (p : Nat) : Option (ConfigValue × Nat) := do
  let p1 ← matchTok t ['$'] p
  let (v, p2) ← parseIdentifier t p1
  pure (ConfigValue.envVar v none, p2)

/-- The boolean alternative inside `Parser.parseConfigValue`. -/
def parseBoolTok (t : Txt) (p : Nat) : Option (Bool × Nat) :=
  match matchTok t "true".toList p with
  | some p' => some (true, p')
  | none =>
    match matchTok t "false".toList p with
    | some p' => some (false, p')
    | none => none

/-- `Parser.parseConfigValue`. -/
def parseConfigValue (t : Txt) (p : Nat) : Option (ConfigValue × Nat) :=
  match parseEnvWithDefault t p with
  | some r => some r
  | none =>
  match parseEnvNoDefault t p with
  | some r => some r
  | none =>
  match parseQuotedString t p with
  | some (sv, p') => some (ConfigValue.str sv, p')
  | none =>
  match parseBoolTok t p with
  | some (b, p') => some (ConfigValue.boolean b, p')
  | none =>
  match parseNumber t p with
  | some (n, p') => some (ConfigValue.number n, p')
  | none => none

/-- `Parser.parseConfigProperty`. -/
def parseConfigProperty (t : Txt) (p : Nat) : Option (ConfigProperty × Nat) := do
  let p1 := skipSpaces t p
  let (key, p2) ← parseIdentifier t p1
  let p3 := skipInlineSpaces t p2
  let p4 ← matchTok t [':'] p3
  let p5 := skipInlineSpaces t p4
  let (value, p6) ← parseConfigValue t p5
  pure (⟨key, value⟩, p6)

/-- `Parser.parseRegularStep`. -/
def parseRegularStep (t : Txt) (p : Nat) : Option (PipelineStep × Nat) := do
  let p1 := skipSpaces t p
  let p2 ← matchTok t ['|', '>'] p1
  let p3 := skipInlineSpaces t p2
  let (name, p4) ← parseIdentifier t p3
  let p5 ← matchTok t [':'] p4
  let p6 := skipInlineSpaces t p5
  let (config, p7) ← parseStepConfig t p6
  let p8 := skipSpaces t p7
  pure (PipelineStep.regular name config, p8)

/-- `Parser.parseWhen`, first alternative: `calling METHOD path`. -/
def parseWhenCalling (t : Txt) (p : Nat) : Option (When × Nat) := do
  let p1 ← matchTok t "calling".toList p
  let p2 := skipInlineSpaces t p1
  let (method, p3) ← parseMethod t p2
  let p4 := skipInlineSpaces t p3
  let (path, p5) := takeRun (fun c => c ≠ '\n') t p4
  pure (When.callingRoute method path, p5)

/-- `Parser.parseWhen`, second alternative: `executing pipeline name`. -/
def parseWhenExecPipeline (t : Txt) (p : Nat) : Option (When × Nat) := do
  let p1 ← matchTok t "executing".toList p
  let p2 := skipInlineSpaces t p1
  let p3 ← matchTok t "pipeline".toList p2
  let p4 := skipInlineSpaces t p3
  let (name, p5) ← parseIdentifier t p4
  pure (When.executingPipeline name, p5)

/-- `Parser.parseWhen`, third alternative: `executing variable type name`. -/
def parseWhenExecVariable (t : Txt) (p : Nat) : Option (When × Nat) := do
  let p1 ← matchTok t "executing".toList p
  let p2 := skipInlineSpaces t p1
  let p3 ← matchTok t "variable".toList p2
  let p4 := skipInlineSpaces t p3
  let (varType, p5) ← parseIdentifier t p4
  let p6 := skipInlineSpaces t p5
  let (name, p7) ← parseIdentifier t p6
  pure (When.executingVariable varType name, p7)

/-- `Parser.parseWhen`. -/
def parseWhen (t : Txt) (p : Nat) : Option (When × Nat) :=
  match parseWhenCalling t p with
  | some r => some r
  | none =>
  match parseWhenExecPipeline t p with
  | some r => some r
  | none => parseWhenExecVariable t p

/-- The infallible tail of `Parser.parseCondition` after the `then`/`and`
keyword: field, optional jq expression, comparison, value. -/
def parseConditionTail (t : Txt) (ct : ConditionType) (p2 : Nat) : Condition × Nat :=
  let p3 := skipInlineSpaces t p2
  let (field, p4) := takeRun (fun c => c ≠ ' ' && c ≠ '\n' && c ≠ btick) t p3
  let p5 := skipInlineSpaces t p4
  let (jqExpr, p6) :=
    match parseBacktickString t p5 with
    | some (v, p') => ((some v : Option Txt), p')
    | none => (none, p5)
  let p7 := skipInlineSpaces t p6
  let (comparison, p8) := takeRun (fun c => c ≠ ' ' && c ≠ '\n') t p7
  let p9 := skipInlineSpaces t p8
  let (value, p10) :=
    match parseBacktickString t p9 with
    | some (v, p') => (v, p')
    | none =>
      match parseQuotedString t p9 with
      | some (v, p') => (v, p')
      | none => takeRun (fun c => c ≠ '\n') t p9
  (⟨ct, field, jqExpr, comparison, value⟩, p10)

/-- The `then`/`and` keyword alternative at the head of `Parser.parseCondition`. -/
def parseConditionKeyword (t : Txt) (p1 : Nat) : Option (ConditionType × Nat) :=
  match matchTok t "then".toList p1 with
  | some p' => some (ConditionType.thenC, p')
  | none =>
    match matchTok t "and".toList p1 with
    | some p' => some (ConditionType.andC, p')
    | none => none

/-- `Parser.parseCondition`. -/
def parseCondition (t : Txt) (p : Nat) : Option (Condition × Nat) :=
  match parseConditionKeyword t (skipSpaces t p) with
  | none => none
  | some (ct, p2) => some (parseConditionTail t ct p2)

/-- `Parser.parseMockHead` (`prefixWord` is `with` or `and`). -/
def parseMockHead (word : Txt) (t : Txt) (p : Nat) : Option (Mock × Nat) := do
  let p1 := skipSpaces t p
  let p2 ← matchTok t word p1
  let p3 := skipInlineSpaces t p2
  let p4 ← matchTok t "mock".toList p3
  let p5 := skipInlineSpaces t p4
  let (target, p6) := takeRun (fun c => c ≠ ' ' && c ≠ '\n') t p5
  let p7 := skipInlineSpaces t p6
  let p8 ← matchTok t "returning".toList p7
  let p9 := skipInlineSpaces t p8
  let (returnValue, p10) ← parseBacktickString t p9
  let p11 := skipSpaces t p10
  pure (⟨target, returnValue⟩, p11)

/-- `Parser.parseMock` (`with mock …`). -/
def parseMock (t : Txt) (p : Nat) : Option (Mock × Nat) := parseMockHead "with".toList t p

/-- `Parser.parseAndMock` (`and mock …`). -/
def parseAndMock (t : Txt) (p : Nat) : Option (Mock × Nat) := parseMockHead "and".toList t p

-- ==== Fueled productions ====
-- Loops (and the mutually recursive pipeline grammar) take a fuel argument;
-- `none` at the outer `Option` means "out of fuel" and is proved unreachable
-- for fuel `8 * (t.length + 1) + 7` below (the termination claim).

/-- Result of a fueled position-only production: `none` = out of fuel,
`some none` = parse failure (exception), `some (some _)` = success. -/
abbrev FRes (α : Type) := Option (Option (α × Nat))

/-- Result of a fueled state-level production: `none` = out of fuel,
`some (.error e)` = exception carrying the state at the throw,
`some (.ok _)` = success. -/
abbrev SRes (α : Type) := Option (Except PState (α × PState))

/-- The property loop inside `Parser.parseConfig` (accumulator style):
`tryParse(parseConfigProperty)` until failure, skipping spaces after each. -/
def parseConfigProps : Nat → Txt → Nat → List ConfigProperty → Option (List ConfigProperty × Nat)
  | 0, _, _, _ => none
  | fuel + 1, t, p, acc =>
    match parseConfigProperty t p with
    | none => some (acc, p)
    | some (prop, p') => parseConfigProps fuel t (skipSpaces t p') (acc ++ [prop])

/-- `Parser.parseConfig`. -/
def parseConfig (fuel : Nat) (t : Txt) (p : Nat) : FRes Config :=
  match matchTok t "config".toList p with
  | none => some none
  | some p1 =>
  let p2 := skipInlineSpaces t p1
  match parseIdentifier t p2 with
  | none => some none
  | some (name, p3) =>
  let p4 := skipInlineSpaces t p3
  match matchTok t [lbrace] p4 with
  | none => some none
  | some p5 =>
  match parseConfigProps fuel t (skipSpaces t p5) [] with
  | none => none
  | some (properties, p6) =>
  let p7 := skipSpaces t p6
  match matchTok t [rbrace] p7 with
  | none => some none
  | some p8 => some (some (⟨name, properties⟩, skipSpaces t p8))

/-- The first mock loop of `Parser.parseIt`: `tryParse(parseMock)` until failure. -/
def parseMocksLoop : Nat → Txt → Nat → List Mock → Option (List Mock × Nat)
  | 0, _, _, _ => none
  | fuel + 1, t, p, acc =>
    match parseMock t p with
    | none => some (acc, p)
    | some (m, p') => parseMocksLoop fuel t p' (acc ++ [m])

/-- The mock loop of `Parser.parseDescribe`: like `parseMocksLoop` but with an
extra `skipSpaces` after each pushed mock. -/
def parseMocksLoopSp : Nat → Txt → Nat → List Mock → Option (List Mock × Nat)
  | 0, _, _, _ => none
  | fuel + 1, t, p, acc =>
    match parseMock t p with
    | none => some (acc, p)
    | some (m, p') => parseMocksLoopSp fuel t (skipSpaces t p') (acc ++ [m])

/-- The `and mock` loop of `Parser.parseIt` (extra `skipSpaces` after each). -/
def parseAndMocksLoop : Nat → Txt → Nat → List Mock → Option (List Mock × Nat)
  | 0, _, _, _ => none
  | fuel + 1, t, p, acc =>
    match parseAndMock t p with
    | none => some (acc, p)
    | some (m, p') => parseAndMocksLoop fuel t (skipSpaces t p') (acc ++ [m])

/-- The condition loop of `Parser.parseIt`. -/
def parseConditionsLoop : Nat → Txt → Nat → List Condition → Option (List Condition × Nat)
  | 0, _, _, _ => none
  | fuel + 1, t, p, acc =>
    match parseCondition t p with
    | none => some (acc, p)
    | some (c, p') => parseConditionsLoop fuel t p' (acc ++ [c])

/-- The optional `with input \`…\`` clause of `Parser.parseIt` (a `tryParse`). -/
def parseInputOpt (t : Txt) (p : Nat) : Option Txt × Nat :=
  match (do
    let p1 ← matchTok t "with".toList p
    let p2 := skipInlineSpaces t p1
    let p3 ← matchTok t "input".toList p2
    let p4 := skipInlineSpaces t p3
    let (v, p5) ← parseBacktickString t p4
    pure (v, skipSpaces t p5) : Option (Txt × Nat)) with
  | some (v, p') => (some v, p')
  | none => (none, p)

/-- `Parser.parseIt`. -/
def parseIt (fuel : Nat) (t : Txt) (p : Nat) : FRes It :=
  let p1 := skipSpaces t p
  match matchTok t "it".toList p1 with
  | none => some none
  | some p2 =>
  let p3 := skipInlineSpaces t p2
  match matchTok t [dquote] p3 with
  | none => some none
  | some p4 =>
  let (name, p5) := takeRun (fun c => c ≠ dquote) t p4
  match matchTok t [dquote] p5 with
  | none => some none
  | some p6 =>
  let p7 := skipSpaces t p6
  match parseMocksLoop fuel t p7 [] with
  | none => none
  | some (mocks, p8) =>
  match matchTok t "when".toList p8 with
  | none => some none
  | some p9 =>
  let p10 := skipInlineSpaces t p9
  match parseWhen t p10 with
  | none => some none
  | some (whenClause, p11) =>
  let p12 := skipSpaces t p11
  let (input, p13) := parseInputOpt t p12
  match parseAndMocksLoop fuel t p13 [] with
  | none => none
  | some (extraMocks, p14) =>
  match parseConditionsLoop fuel t p14 [] with
  | none => none
  | some (conditions, p15) =>
    some (some (⟨name, mocks ++ extraMocks, whenClause, input, conditions⟩, p15))

/-- The test loop of `Parser.parseDescribe`: `tryParse(parseIt)` until failure. -/
def parseIts : Nat → Txt → Nat → List It → Option (List It × Nat)
  | 0, _, _, _ => none
  | fuel + 1, t, p, acc =>
    match parseIt fuel t p with
    | none => none
    | some none => some (acc, p)
    | some (some (it, p')) => parseIts fuel t p' (acc ++ [it])

/-- `Parser.parseDescribe`. -/
def parseDescribe (fuel : Nat) (t : Txt) (p : Nat) : FRes Describe :=
  let p1 := skipSpaces t p
  match matchTok t "describe".toList p1 with
  | none => some none
  | some p2 =>
  let p3 := skipInlineSpaces t p2
  match matchTok t [dquote] p3 with
  | none => some none
  | some p4 =>
  let (name, p5) := takeRun (fun c => c ≠ dquote) t p4
  match matchTok t [dquote] p5 with
  | none => some none
  | some p6 =>
  let p7 := skipSpaces t p6
  match parseMocksLoopSp fuel t p7 [] with
  | none => none
  | some (mocks, p8) =>
  match parseIts fuel t p8 [] with
  | none => none
  | some (tests, p9) => some (some (⟨name, mocks, tests⟩, p9))

/-- `Parser.parseVariable` — records the declaration range side-table entry. -/
def parseVariableS (t : Txt) (s : PState) : Except PState (Variable × PState) :=
  let start := s.pos
  match parseIdentifier t s.pos with
  | none => .error s
  | some (varType, p1) =>
  let p2 := skipInlineSpaces t p1
  match parseIdentifier t p2 with
  | none => .error s
  | some (name, p3) =>
  let p4 := skipInlineSpaces t p3
  match matchTok t ['='] p4 with
  | none => .error s
  | some p5 =>
  let p6 := skipInlineSpaces t p5
  match parseBacktickString t p6 with
  | none => .error s
  | some (value, p7) =>
    let key := varType ++ [':', ':'] ++ name
    .ok (⟨varType, name, value⟩,
      { s with pos := skipSpaces t p7,
               variableRanges := setA s.variableRanges key (start, p7) })

/-- `Parser.parseResultBranch` up to and including the `:` after the status
code — the part that validates the status code and reports the `error`
diagnostic for codes outside `[100, 599]`. -/
def parseResultBranchHead (t : Txt) (s : PState) :
    Except PState ((ResultBranchType × Nat) × PState) :=
  let p0 := skipSpaces t s.pos
  match parseIdentifier t p0 with
  | none => .error s
  | some (branchIdent, p1) =>
  let branchType : ResultBranchType :=
    if branchIdent = "ok".toList then .okB
    else if branchIdent = "default".toList then .defaultB
    else .customB branchIdent
  match matchTok t ['('] p1 with
  | none => .error s
  | some p2 =>
  match parseNumber t p2 with
  | none => .error s
  | some (statusCode, p3) =>
    let s1 : PState :=
      if statusCode < 100 || 599 < statusCode then
        report s ("Invalid HTTP status code: " ++ Nat.repr statusCode)
          (p3 - (Nat.repr statusCode).length) p3 .error
      else s
    match matchTok t [')'] p3 with
    | none => .error { s1 with pos := p3 }
    | some p4 =>
    match matchTok t [':'] p4 with
    | none => .error { s1 with pos := p4 }
    | some p5 => .ok ((branchType, statusCode), { s1 with pos := p5 })

mutual

/-- The step loop of `Parser.parsePipeline`: save the cursor, skip spaces,
stop (restoring the cursor) unless `|>` follows, otherwise parse one step. -/
def parsePipelineStepsF : Nat → Txt → PState → List PipelineStep → SRes (List PipelineStep)
  | 0, _, _, _ => none
  | fuel + 1, t, s, acc =>
    let p1 := skipSpaces t s.pos
    if startsWithAt t ['|', '>'] p1 then
      match parsePipelineStepF fuel t { s with pos := p1 } with
      | none => none
      | some (.error e) => some (.error e)
      | some (.ok (st, s')) => parsePipelineStepsF fuel t s' (acc ++ [st])
    else some (.ok (acc, s))

/-- `Parser.parsePipelineStep`: `tryParse(parseResultStep)` then `parseRegularStep`. -/
def parsePipelineStepF : Nat → Txt → PState → SRes PipelineStep
  | 0, _, _ => none
  | fuel + 1, t, s =>
    match parseResultStepF fuel t s with
    | none => none
    | some (.ok r) => some (.ok r)
    | some (.error e) =>
      let s1 : PState := { e with pos := s.pos }
      match parseRegularStep t s1.pos with
      | some (st, p') => some (.ok (st, { s1 with pos := p' }))
      | none => some (.error s1)

/-- `Parser.parseResultStep`. -/
def parseResultStepF : Nat → Txt → PState → SRes PipelineStep
  | 0, _, _ => none
  | fuel + 1, t, s =>
    let p1 := skipSpaces t s.pos
    match matchTok t ['|', '>'] p1 with
    | none => some (.error s)
    | some p2 =>
    let p3 := skipInlineSpaces t p2
    match matchTok t "result".toList p3 with
    | none => some (.error s)
    | some p4 =>
    match parseResultBranchesF fuel t { s with pos := skipSpaces t p4 } [] with
    | none => none
    | some (.error e) => some (.error e)
    | some (.ok (branches, s')) => some (.ok (PipelineStep.result branches, s'))

/-- The branch loop of `Parser.parseResultStep`: `tryParse(parseResultBranch)`
until failure (cursor restored on the failed attempt). -/
def parseResultBranchesF : Nat → Txt → PState → List ResultBranch → SRes (List ResultBranch)
  | 0, _, _, _ => none
  | fuel + 1, t, s, acc =>
    match parseResultBranchF fuel t s with
    | none => none
    | some (.error e) => some (.ok (acc, { e with pos := s.pos }))
    | some (.ok (br, s')) => parseResultBranchesF fuel t s' (acc ++ [br])

/-- `Parser.parseResultBranch`: head (identifier, status code with validation,
punctuation) then `skipSpaces` and the nested pipeline. -/
def parseResultBranchF : Nat → Txt → PState → SRes ResultBranch
  | 0, _, _ => none
  | fuel + 1, t, s =>
    match parseResultBranchHead t s with
    | .error e => some (.error e)
    | .ok ((bt, code), s1) =>
      match parsePipelineStepsF fuel t { s1 with pos := skipSpaces t s1.pos } [] with
      | none => none
      | some (.error e) => some (.error e)
      | some (.ok (steps, s2)) => some (.ok (⟨bt, code, Pipeline.mk steps⟩, s2))

end

/-- `Parser.parseNamedPipeline` — records the pipeline range side-table entry. -/
def parseNamedPipelineF (fuel : Nat) (t : Txt) (s : PState) : SRes NamedPipeline :=
  let start := s.pos
  match matchTok t "pipeline".toList s.pos with
  | none => some (.error s)
  | some p1 =>
  let p2 := skipInlineSpaces t p1
  match parseIdentifier t p2 with
  | none => some (.error s)
  | some (name, p3) =>
  let p4 := skipInlineSpaces t p3
  match matchTok t ['='] p4 with
  | none => some (.error s)
  | some p5 =>
  let p6 := skipInlineSpaces t p5
  match parsePipelineStepsF fuel t { s with pos := p6 } [] with
  | none => none
  | some (.error e) => some (.error e)
  | some (.ok (steps, s1)) =>
    some (.ok (⟨name, Pipeline.mk steps⟩,
      { s1 with pipelineRanges := setA s1.pipelineRanges name (start, s1.pos),
                pos := skipSpaces t s1.pos }))

/-- The named-reference alternative of `Parser.parsePipelineRef`:
`|> pipeline: name`. -/
def parseNamedRefTail (t : Txt) (p : Nat) : Option (Txt × Nat) := do
  let p1 := skipSpaces t p
  let p2 ← matchTok t ['|', '>'] p1
  let p3 := skipInlineSpaces t p2
  let p4 ← matchTok t "pipeline:".toList p3
  let p5 := skipInlineSpaces t p4
  let (name, p6) ← parseIdentifier t p5
  pure (name, p6)

/-- `Parser.parsePipelineRef`: inline pipeline with at least one step, else a
named reference, else failure. -/
def parsePipelineRefF (fuel : Nat) (t : Txt) (s : PState) : SRes PipelineRef :=
  match parsePipelineStepsF fuel t s [] with
  | none => none
  | some r =>
    let res : Option (List PipelineStep) × PState :=
      match r with
      | .ok (steps, s') => (some steps, s')
      | .error e => (none, { e with pos := s.pos })
    match res with
    | (some steps, s1) =>
      if steps.length > 0 then
        some (.ok (PipelineRef.inline (Pipeline.mk steps), s1))
      else
        match parseNamedRefTail t s1.pos with
        | some (name, p') => some (.ok (PipelineRef.named name, { s1 with pos := p' }))
        | none => some (.error s1)
    | (none, s1) =>
      match parseNamedRefTail t s1.pos with
      | some (name, p') => some (.ok (PipelineRef.named name, { s1 with pos := p' }))
      | none => some (.error s1)

/-- `Parser.parseRoute`. -/
def parseRouteF (fuel : Nat) (t : Txt) (s : PState) : SRes Route :=
  match parseMethod t s.pos with
  | none => some (.error s)
  | some (method, p1) =>
  let p2 := skipInlineSpaces t p1
  let (path, p3) := takeRun (fun c => c ≠ ' ' && c ≠ '\n') t p2
  match parsePipelineRefF fuel t { s with pos := skipSpaces t p3 } with
  | none => none
  | some (.error e) => some (.error e)
  | some (.ok (pref, s1)) =>
    some (.ok (⟨method, path, pref⟩, { s1 with pos := skipSpaces t s1.pos }))

/-- The top-level loop of `Parser.parseProgram`: skip whitespace, try the five
productions in order, and fall back to a warning diagnostic spanning the
current line (then skip past it). -/
def parseTopF : Nat → Txt → PState → Program → Option (Program × PState)
  | 0, _, _, _ => none
  | fuel + 1, t, s, acc =>
    let p1 := skipSpaces t s.pos
    if t.length ≤ p1 then some (acc, { s with pos := p1 })
    else
      let s0 : PState := { s with pos := p1 }
      match parseConfig fuel t p1 with
      | none => none
      | some (some (cfg, p')) =>
        parseTopF fuel t { s0 with pos := p' } { acc with configs := acc.configs ++ [cfg] }
      | some none =>
      match parseNamedPipelineF fuel t s0 with
      | none => none
      | some (.ok (np, s')) =>
        parseTopF fuel t s' { acc with pipelines := acc.pipelines ++ [np] }
      | some (.error e) =>
      let s1 : PState := { e with pos := p1 }
      match parseVariableS t s1 with
      | .ok (v, s') => parseTopF fuel t s' { acc with vars := acc.vars ++ [v] }
      | .error e2 =>
      let s2 : PState := { e2 with pos := p1 }
      match parseRouteF fuel t s2 with
      | none => none
      | some (.ok (r, s')) =>
        parseTopF fuel t s' { acc with routes := acc.routes ++ [r] }
      | some (.error e3) =>
      let s3 : PState := { e3 with pos := p1 }
      match parseDescribe fuel t p1 with
      | none => none
      | some (some (d, p')) =>
        parseTopF fuel t { s3 with pos := p' } { acc with describes := acc.describes ++ [d] }
      | some none =>
        let s4 := report s3 "Unrecognized or unsupported syntax"
          (findLineStart t p1) (findLineEnd t p1) .warning
        let p2 := skipToEol t p1
        parseTopF fuel t { s4 with pos := p2 + countWhile (fun c => c = '\n') t p2 } acc

/-- The unmatched-backtick heuristic at the end of `Parser.parseProgram`. -/
def backtickCheck (t : Txt) (s : PState) : PState :=
  let cnt := (t.filter (fun c => c = btick)).length
  if cnt % 2 = 1 then
    let idx := (lastIdxOfChar t btick).getD 0
    report s "Unclosed backtick-delimited string" idx (idx + 1) .warning
  else s

def emptyPState : PState := ⟨0, [], [], []⟩

def emptyProgram : Program := ⟨[], [], [], [], []⟩

/-- Fuel that provably always suffices for the whole parse. -/
def totalFuel (t : Txt) : Nat := 8 * (t.length + 1) + 7

/-- One full run of `new Parser(text).parseProgram()`: the resulting `Program`
and the final parser state (`none` is unreachable — see the liveness
theorem). -/
def parseProgramRun (t : Txt) : Option (Program × PState) :=
  match parseTopF (totalFuel t) t { emptyPState with pos := skipSpaces t 0 } emptyProgram with
  | none => none
  | some (prog, s) => some (prog, backtickCheck t s)

/-- `parseProgram(text)`. -/
def parseProgramF (t : Txt) : Option Program := (parseProgramRun t).map (·.1)

/-- `parseProgramWithDiagnostics(text)`. -/
def parseProgramWithDiagnosticsF (t : Txt) : Option (Program × List ParseDiagnostic) :=
  (parseProgramRun t).map (fun r => (r.1, r.2.diags))

/-- `getPipelineRanges(text)`. -/
def getPipelineRangesF (t : Txt) : Option (List (Txt × (Nat × Nat))) :=
  (parseProgramRun t).map (·.2.pipelineRanges)

/-- `getVariableRanges(text)`. -/
def getVariableRangesF (t : Txt) : Option (List (Txt × (Nat × Nat))) :=
  (parseProgramRun t).map (·.2.variableRanges)

-- ==== Reference scanner (`symbol-collector.ts`, `collectReferencePositions`) ====
-- Each JS regex used by the scanner is embedded as a deterministic matcher at
-- a candidate start index (the greedy character-class runs of these regexes
-- never benefit from backtracking, because every run's character class is
-- disjoint from the character that must follow it), plus a generic `g`-flag
-- scan loop that advances to the end of each match (JS `lastIndex`).

/-- The `(^|\n)` anchor: a match starting at `i` either is at the start of the
text (`^`, consuming nothing) or consumes a newline at `i`. -/
def anchorAt (t : Txt) (i : Nat) : Option Nat :=
  if i = 0 then some 0
  else if charAt t i = some '\n' then some (i + 1) else none

/-- Regex `\s*`: skip the maximal whitespace run. -/
def wsStar (t : Txt) (j : Nat) : Nat := j + countWhile isJsWs t j

/-- Regex `\s+`: at least one whitespace character. -/
def wsPlus (t : Txt) (j : Nat) : Option Nat :=
  let n := countWhile isJsWs t j
  if n = 0 then none else some (j + n)

/-- Regex `(?:with|and)` (alternatives in source order). -/
def withOrAnd (t : Txt) (j : Nat) : Option Nat :=
  match matchTok t "with".toList j with
  | some j' => some j'
  | none => matchTok t "and".toList j

/-- A scanned occurrence: identifier text and its start index (the JS code
records `{start, length}` with `length = name.length`). -/
structure RefOcc where
  key1 : Txt
  key2 : Txt
  name : Txt
  start : Nat
deriving Repr, DecidableEq

/-- `/(^|\n)(\s*\|>\s*pipeline\s*:\s*)([A-Za-z_][\w-]*)/` — `|> pipeline: name`. -/
def matchPipeRefAt (t : Txt) (i : Nat) : Option (Nat × RefOcc) :=
  match anchorAt t i with
  | none => none
  | some j =>
  match matchTok t ['|', '>'] (wsStar t j) with
  | none => none
  | some j2 =>
  match matchTok t "pipeline".toList (wsStar t j2) with
  | none => none
  | some j4 =>
  match matchTok t [':'] (wsStar t j4) with
  | none => none
  | some j6 =>
  let j7 := wsStar t j6
  match parseIdentifier t j7 with
  | none => none
  | some (name, j8) => some (j8, ⟨[], [], name, j7⟩)

/-- `/(^|\n)(\s*when\s+executing\s+pipeline\s+)([A-Za-z_][\w-]*)/`. -/
def matchWhenPipeAt (t : Txt) (i : Nat) : Option (Nat × RefOcc) :=
  match anchorAt t i with
  | none => none
  | some j =>
  match matchTok t "when".toList (wsStar t j) with
  | none => none
  | some j2 =>
  match wsPlus t j2 with
  | none => none
  | some j3 =>
  match matchTok t "executing".toList j3 with
  | none => none
  | some j4 =>
  match wsPlus t j4 with
  | none => none
  | some j5 =>
  match matchTok t "pipeline".toList j5 with
  | none => none
  | some j6 =>
  match wsPlus t j6 with
  | none => none
  | some j7 =>
  match parseIdentifier t j7 with
  | none => none
  | some (name, j8) => some (j8, ⟨[], [], name, j7⟩)

/-- `/(^|\n)(\s*(?:with|and)\s+mock\s+pipeline\s+)([A-Za-z_][\w-]*)\s+returning\s+`/`. -/
def matchMockPipeAt (t : Txt) (i : Nat) : Option (Nat × RefOcc) :=
  match anchorAt t i with
  | none => none
  | some j =>
  match withOrAnd t (wsStar t j) with
  | none => none
  | some j2 =>
  match wsPlus t j2 with
  | none => none
  | some j3 =>
  match matchTok t "mock".toList j3 with
  | none => none
  | some j4 =>
  match wsPlus t j4 with
  | none => none
  | some j5 =>
  match matchTok t "pipeline".toList j5 with
  | none => none
  | some j6 =>
  match wsPlus t j6 with
  | none => none
  | some j7 =>
  match parseIdentifier t j7 with
  | none => none
  | some (name, j8) =>
  match wsPlus t j8 with
  | none => none
  | some j9 =>
  match matchTok t "returning".toList j9 with
  | none => none
  | some j10 =>
  match wsPlus t j10 with
  | none => none
  | some j11 =>
  match matchTok t [btick] j11 with
  | none => none
  | some j12 => some (j12, ⟨[], [], name, j7⟩)

/-- `/(^|\n)(\s*\|>\s*([A-Za-z_][\w-]*)\s*:\s*)([A-Za-z_][\w-]*)/` — the
`|> step: value` shape; `key1` is the step type. -/
def matchStepVarAt (t : Txt) (i : Nat) : Option (Nat × RefOcc) :=
  match anchorAt t i with
  | none => none
  | some j =>
  match matchTok t ['|', '>'] (wsStar t j) with
  | none => none
  | some j2 =>
  match parseIdentifier t (wsStar t j2) with
  | none => none
  | some (stepType, j4) =>
  match matchTok t [':'] (wsStar t j4) with
  | none => none
  | some j6 =>
  let j7 := wsStar t j6
  match parseIdentifier t j7 with
  | none => none
  | some (varName, j8) => some (j8, ⟨stepType, [], varName, j7⟩)

/-- `/(^|\n)(\s*when\s+executing\s+variable\s+([A-Za-z_][\w-]*)\s+)([A-Za-z_][\w-]*)/`. -/
def matchWhenVarAt (t : Txt) (i : Nat) : Option (Nat × RefOcc) :=
  match anchorAt t i with
  | none => none
  | some j =>
  match matchTok t "when".toList (wsStar t j) with
  | none => none
  | some j2 =>
  match wsPlus t j2 with
  | none => none
  | some j3 =>
  match matchTok t "executing".toList j3 with
  | none => none
  | some j4 =>
  match wsPlus t j4 with
  | none => none
  | some j5 =>
  match matchTok t "variable".toList j5 with
  | none => none
  | some j6 =>
  match wsPlus t j6 with
  | none => none
  | some j7 =>
  match parseIdentifier t j7 with
  | none => none
  | some (varType, j8) =>
  match wsPlus t j8 with
  | none => none
  | some j9 =>
  match parseIdentifier t j9 with
  | none => none
  | some (varName, j10) => some (j10, ⟨varType, [], varName, j9⟩)

/-- `/(^|\n)(\s*(?:with|and)\s+mock\s+([A-Za-z_][\w-]*)\.)([A-Za-z_][\w-]*)\s+returning\s+`/`. -/
def matchMockVarAt (t : Txt) (i : Nat) : Option (Nat × RefOcc) :=
  match anchorAt t i with
  | none => none
  | some j =>
  match withOrAnd t (wsStar t j) with
  | none => none
  | some j2 =>
  match wsPlus t j2 with
  | none => none
  | some j3 =>
  match matchTok t "mock".toList j3 with
  | none => none
  | some j4 =>
  match wsPlus t j4 with
  | none => none
  | some j5 =>
  match parseIdentifier t j5 with
  | none => none
  | some (varType, j6) =>
  match matchTok t ['.'] j6 with
  | none => none
  | some j7 =>
  match parseIdentifier t j7 with
  | none => none
  | some (varName, j8) =>
  match wsPlus t j8 with
  | none => none
  | some j9 =>
  match matchTok t "returning".toList j9 with
  | none => none
  | some j10 =>
  match wsPlus t j10 with
  | none => none
  | some j11 =>
  match matchTok t [btick] j11 with
  | none => none
  | some j12 => some (j12, ⟨varType, [], varName, j7⟩)

/-- A `g`-flag `exec` loop: try each index from `i`; on a match record it and
continue from the match end (all these matchers consume at least one
character, so fuel `t.length + 2` always suffices). -/
def scanMatchesF {β : Type} (matcher : Txt → Nat → Option (Nat × β)) :
    Nat → Txt → Nat → List β → Option (List β)
  | 0, _, _, _ => none
  | fuel + 1, t, i, acc =>
    if t.length < i then some acc
    else
      match matcher t i with
      | some (e, b) => scanMatchesF matcher fuel t e (acc ++ [b])
      | none => scanMatchesF matcher fuel t (i + 1) acc

def scanAll {β : Type} (matcher : Txt → Nat → Option (Nat × β)) (t : Txt) : Option (List β) :=
  scanMatchesF matcher (t.length + 2) t 0 []

structure PositionInfo where
  start : Nat
  length : Nat
deriving Repr, DecidableEq

/-- The `pushVar`/`pushPipe` helpers: append an occurrence to the per-key list
(creating the key at the end of the map in insertion order). -/
def pushRef (m : List (Txt × List PositionInfo)) (k : Txt) (pi : PositionInfo) :
    List (Txt × List PositionInfo) :=
  match lookupA m k with
  | some l => setA m k (l ++ [pi])
  | none => setA m k [pi]

structure ReferencePositions where
  variableRefs : List (Txt × List PositionInfo)
  pipelineRefs : List (Txt × List PositionInfo)
deriving Repr, DecidableEq

/-- Push a scanned pipeline occurrence (`pushPipe(name, start, name.length)`). -/
def foldPipeOccs (m : List (Txt × List PositionInfo)) (ms : List RefOcc) :
    List (Txt × List PositionInfo) :=
  ms.foldl (fun m r => pushRef m r.name ⟨r.start, r.name.length⟩) m

/-- Push scanned `|> step: value` occurrences, skipping `stepType = pipeline`
(the JS loop `continue`s but `lastIndex` has already advanced). -/
def foldStepVarOccs (m : List (Txt × List PositionInfo)) (ms : List RefOcc) :
    List (Txt × List PositionInfo) :=
  ms.foldl (fun m r =>
    if r.key1 = "pipeline".toList then m
    else pushRef m (r.key1 ++ [':', ':'] ++ r.name) ⟨r.start, r.name.length⟩) m

/-- Push scanned typed-variable occurrences (`type::name`). -/
def foldTypedVarOccs (m : List (Txt × List PositionInfo)) (ms : List RefOcc) :
    List (Txt × List PositionInfo) :=
  ms.foldl (fun m r => pushRef m (r.key1 ++ [':', ':'] ++ r.name) ⟨r.start, r.name.length⟩) m

/-- `collectReferencePositions(text)`: the six scans in source order. -/
def collectReferencePositionsF (t : Txt) : Option ReferencePositions := do
  let pipeRefs1 ← scanAll matchPipeRefAt t
  let pipeRefs2 ← scanAll matchWhenPipeAt t
  let pipeRefs3 ← scanAll matchMockPipeAt t
  let stepVars ← scanAll matchStepVarAt t
  let whenVars ← scanAll matchWhenVarAt t
  let mockVars ← scanAll matchMockVarAt t
  let pipelineRefs := foldPipeOccs (foldPipeOccs (foldPipeOccs [] pipeRefs1) pipeRefs2) pipeRefs3
  let variableRefs := foldTypedVarOccs (foldTypedVarOccs (foldStepVarOccs [] stepVars) whenVars) mockVars
  pure ⟨variableRefs, pipelineRefs⟩

-- ==== Substring search (JS `indexOf` / `lastIndexOf` over strings) ====

/-- Leftmost index where `pat` occurs in `hay` (JS `hay.indexOf(pat)`). -/
def firstSubIdx (hay pat : Txt) : Option Nat :=
  (List.range (hay.length + 1)).find? (fun i => startsWithAt hay pat i)

/-- Rightmost index where `pat` occurs in `hay` (JS `hay.lastIndexOf(pat)`). -/
def lastSubIdx (hay pat : Txt) : Option Nat :=
  ((List.range (hay.length + 1)).filter (fun i => startsWithAt hay pat i)).getLast?

-- ==== Document model (`document-model.ts`) ====

/-- `findVariableNamePosition`: last occurrence of the name inside the
declaration range (fallback: the range start). -/
def findVariableNamePosition (t : Txt) (range : Nat × Nat) (varName : Txt) : PositionInfo :=
  let declarationText := sliceT t range.1 range.2
  match lastSubIdx declarationText varName with
  | some i => ⟨range.1 + i, varName.length⟩
  | none => ⟨range.1, varName.length⟩

/-- `findPipelineNamePosition`: first occurrence of the name inside the
declaration range (fallback: the range start). -/
def findPipelineNamePosition (t : Txt) (range : Nat × Nat) (pipelineName : Txt) : PositionInfo :=
  let declarationText := sliceT t range.1 range.2
  match firstSubIdx declarationText pipelineName with
  | some i => ⟨range.1 + i, pipelineName.length⟩
  | none => ⟨range.1, pipelineName.length⟩

/-- `key.split('::')` destructured as `[varType, varName]`. -/
def splitOn2Colons (key : Txt) : Txt × Txt :=
  match firstSubIdx key [':', ':'] with
  | none => (key, [])
  | some i =>
    let rest := key.drop (i + 2)
    match firstSubIdx rest [':', ':'] with
    | none => (key.take i, rest)
    | some j => (key.take i, rest.take j)

/-- JS `Set.add` on an insertion-ordered set. -/
def addSet (l : List Txt) (x : Txt) : List Txt := if l.contains x then l else l ++ [x]

/-- `variablesByType` update: create the per-type set if needed, then add. -/
def addTypeName (m : List (Txt × List Txt)) (ty nm : Txt) : List (Txt × List Txt) :=
  match lookupA m ty with
  | some s => setA m ty (addSet s nm)
  | none => setA m ty (addSet [] nm)

structure DocumentModel where
  variablesByType : List (Txt × List Txt)
  pipelineNames : List Txt
  variablePositions : List (Txt × PositionInfo)
  pipelinePositions : List (Txt × PositionInfo)

/-- `createDocumentModel(text)` (the fields used by the symbol collector;
`program`/`diagnostics`/`routes`/the empty ref maps are omitted). -/
def createDocumentModelF (t : Txt) : Option DocumentModel :=
  (parseProgramRun t).map (fun r =>
    let st := r.2
    let va := st.variableRanges.foldl
      (fun (acc : List (Txt × List Txt) × List (Txt × PositionInfo)) kv =>
        let (varType, varName) := splitOn2Colons kv.1
        (addTypeName acc.1 varType varName,
         setA acc.2 kv.1 (findVariableNamePosition t kv.2 varName)))
      ([], [])
    let pa := st.pipelineRanges.foldl
      (fun (acc : List Txt × List (Txt × PositionInfo)) kv =>
        (addSet acc.1 kv.1, setA acc.2 kv.1 (findPipelineNamePosition t kv.2 kv.1)))
      ([], [])
    ⟨va.1, pa.1, va.2, pa.2⟩)

-- ==== Handlebars symbols (`symbol-collector.ts`) ====

/-- Usage-name continuation class `[\w.-] plus slash`. -/
def isUsageCont (c : Char) : Bool := isIdentCont c || c = '.' || c = '/'

/-- Usage-name token: `[A-Za-z_][\w.-] plus slash*` or the literal `@partial-block`. -/
def parseUsageName (t : Txt) (p : Nat) : Option (Txt × Nat) :=
  match charAt t p with
  | none => none
  | some c =>
    if isIdentStart c then
      let e := p + 1 + countWhile isUsageCont t (p + 1)
      some (sliceT t p e, e)
    else
      match matchTok t "@partial-block".toList p with
      | some e => some ("@partial-block".toList, e)
      | none => none

/-- `/(^|\n)\s*handlebars\s+([A-Za-z_][\w-]*)\s*=\s*`([\s\S]*?)`/` — a global
handlebars variable declaration; yields the content range between the
backticks. -/
def matchHbVarContentAt (t : Txt) (i : Nat) : Option (Nat × (Nat × Nat)) :=
  match anchorAt t i with
  | none => none
  | some j =>
  match matchTok t "handlebars".toList (wsStar t j) with
  | none => none
  | some j2 =>
  match wsPlus t j2 with
  | none => none
  | some j3 =>
  match parseIdentifier t j3 with
  | none => none
  | some (_, j4) =>
  match matchTok t ['='] (wsStar t j4) with
  | none => none
  | some j6 =>
  match matchTok t [btick] (wsStar t j6) with
  | none => none
  | some j8 =>
  let n := countWhile (fun c => c ≠ btick) t j8
  match matchTok t [btick] (j8 + n) with
  | none => none
  | some j9 => some (j9, (j8, j8 + n))

/-- `/(^|\n)\s*\|>\s*handlebars\s*:\s*`([\s\S]*?)`/` — an inline handlebars
step; yields the content range between the backticks. -/
def matchHbStepContentAt (t : Txt) (i : Nat) : Option (Nat × (Nat × Nat)) :=
  match anchorAt t i with
  | none => none
  | some j =>
  match matchTok t ['|', '>'] (wsStar t j) with
  | none => none
  | some j2 =>
  match matchTok t "handlebars".toList (wsStar t j2) with
  | none => none
  | some j4 =>
  match matchTok t [':'] (wsStar t j4) with
  | none => none
  | some j6 =>
  match matchTok t [btick] (wsStar t j6) with
  | none => none
  | some j8 =>
  let n := countWhile (fun c => c ≠ btick) t j8
  match matchTok t [btick] (j8 + n) with
  | none => none
  | some j9 => some (j9, (j8, j8 + n))

/-- `collectHandlebarsContentRanges(text)`: variable-declaration contents then
inline-step contents. -/
def collectHandlebarsContentRangesF (t : Txt) : Option (List (Nat × Nat)) := do
  let varRanges ← scanAll matchHbVarContentAt t
  let stepRanges ← scanAll matchHbStepContentAt t
  pure (varRanges ++ stepRanges)

/-- `/\{\{#\*inline\s+"([^"]+)"\s*\}\}/`; yields the name, its index inside
the whole match (`m[0].indexOf(name)`), and the match bounds. -/
structure InlineDefMatch where
  name : Txt
  matchStart : Nat
  matchEnd : Nat
deriving Repr, DecidableEq

def matchInlineDefAt (t : Txt) (i : Nat) : Option (Nat × InlineDefMatch) :=
  match matchTok t (lbrace :: lbrace :: "#*inline".toList) i with
  | none => none
  | some j1 =>
  match wsPlus t j1 with
  | none => none
  | some j2 =>
  match matchTok t [dquote] j2 with
  | none => none
  | some j3 =>
  let n := countWhile (fun c => c ≠ dquote) t j3
  if n = 0 then none
  else
    match matchTok t [dquote] (j3 + n) with
    | none => none
    | some j4 =>
    match matchTok t [rbrace, rbrace] (wsStar t j4) with
    | none => none
    | some j6 => some (j6, ⟨sliceT t j3 (j3 + n), i, j6⟩)

/-- `/\{\{\/inline\s*\}\}/`. -/
def matchInlineCloseAt (t : Txt) (i : Nat) : Option (Nat × Unit) :=
  match matchTok t (lbrace :: lbrace :: '/' :: "inline".toList) i with
  | none => none
  | some j1 =>
  match matchTok t [rbrace, rbrace] (wsStar t j1) with
  | none => none
  | some j3 => some (j3, ())

/-- `inlineCloseRe.lastIndex = from; inlineCloseRe.exec(slice)`: leftmost
close-tag match starting at or after `from`; returns its end. -/
def findInlineCloseEnd : Nat → Txt → Nat → Option Nat
  | 0, _, _ => none
  | fuel + 1, slice, i =>
    if slice.length < i then none
    else
      match matchInlineCloseAt slice i with
      | some (e, _) => some e
      | none => findInlineCloseEnd fuel slice (i + 1)

/-- `/\{\{>\s*([A-Za-z_][\w.-] plus slash*|@partial-block)/` — a simple include; yields
the name and its start (name start is computed directly: the characters
before it inside the match cannot contain it). -/
def matchIncludeAt (t : Txt) (i : Nat) : Option (Nat × (Txt × Nat)) :=
  match matchTok t [lbrace, lbrace, '>'] i with
  | none => none
  | some j1 =>
  let j2 := wsStar t j1
  match parseUsageName t j2 with
  | none => none
  | some (name, j3) => some (j3, (name, j2))

/-- `/\{\{#>\s*([A-Za-z_][\w.-] plus slash*|@partial-block)/` — a block include. -/
def matchBlockIncludeAt (t : Txt) (i : Nat) : Option (Nat × (Txt × Nat)) :=
  match matchTok t [lbrace, lbrace, '#', '>'] i with
  | none => none
  | some j1 =>
  let j2 := wsStar t j1
  match parseUsageName t j2 with
  | none => none
  | some (name, j3) => some (j3, (name, j2))

structure HbEntry where
  range : Nat × Nat
  inlineByName : List (Txt × (Nat × Nat))
  inlineBlockByName : List (Txt × (Nat × Nat))
deriving Repr, DecidableEq

structure HandlebarsSymbols where
  declByName : List (Txt × (Nat × Nat))
  contentRanges : List (Nat × Nat)
  usagesByName : List (Txt × List (Nat × Nat))
  inlineDefsByContent : List HbEntry
deriving Repr, DecidableEq

/-- Per-key push into `usagesByName`. -/
def pushUsage (m : List (Txt × List (Nat × Nat))) (k : Txt) (u : Nat × Nat) :
    List (Txt × List (Nat × Nat)) :=
  match lookupA m k with
  | some l => setA m k (l ++ [u])
  | none => setA m k [u]

/-- Process one content range: inline definitions (name span and, when a close
tag follows, the block span), then simple and block include usages. -/
def hbProcessRange (t : Txt) (range : Nat × Nat)
    (usages : List (Txt × List (Nat × Nat))) :
    Option (List (Txt × List (Nat × Nat)) × HbEntry) := do
  let slice := sliceT t range.1 range.2
  let defs ← scanAll matchInlineDefAt slice
  let inlineMaps := defs.foldl
    (fun (acc : List (Txt × (Nat × Nat)) × List (Txt × (Nat × Nat))) d =>
      let idx := (firstSubIdx (sliceT slice d.matchStart d.matchEnd) d.name).getD 0
      let nameStart := range.1 + d.matchStart + idx
      let byName := setA acc.1 d.name (nameStart, nameStart + d.name.length)
      let blockByName :=
        match findInlineCloseEnd (slice.length + 2) slice d.matchEnd with
        | some closeEnd =>
          setA acc.2 d.name (range.1 + d.matchStart, range.1 + closeEnd)
        | none => acc.2
      (byName, blockByName))
    ([], [])
  let incs ← scanAll matchIncludeAt slice
  let u1 := incs.foldl
    (fun acc (nm : Txt × Nat) =>
      if nm.1 = "@partial-block".toList then acc
      else pushUsage acc nm.1 (range.1 + nm.2, range.1 + nm.2 + nm.1.length))
    usages
  let bincs ← scanAll matchBlockIncludeAt slice
  let u2 := bincs.foldl
    (fun acc (nm : Txt × Nat) =>
      if nm.1 = "@partial-block".toList then acc
      else pushUsage acc nm.1 (range.1 + nm.2, range.1 + nm.2 + nm.1.length))
    u1
  pure (u2, ⟨range, inlineMaps.1, inlineMaps.2⟩)

def hbProcessRanges (t : Txt) :
    List (Nat × Nat) → List (Txt × List (Nat × Nat)) → List HbEntry →
    Option (List (Txt × List (Nat × Nat)) × List HbEntry)
  | [], usages, entries => some (usages, entries)
  | r :: rest, usages, entries => do
    let (u', e) ← hbProcessRange t r usages
    hbProcessRanges t rest u' (entries ++ [e])

/-- `collectHandlebarsSymbols(text)`. -/
def collectHandlebarsSymbolsF (t : Txt) : Option HandlebarsSymbols := do
  let dm ← createDocumentModelF t
  let declByName := dm.variablePositions.foldl
    (fun (acc : List (Txt × (Nat × Nat))) kv =>
      if "handlebars::".toList.isPrefixOf kv.1 then
        setA acc (kv.1.drop "handlebars::".toList.length)
          (kv.2.start, kv.2.start + kv.2.length)
      else acc)
    []
  let contentRanges ← collectHandlebarsContentRangesF t
  let (usagesByName, inlineDefsByContent) ← hbProcessRanges t contentRanges [] []
  pure ⟨declByName, contentRanges, usagesByName, inlineDefsByContent⟩

-- ==== `LanguageProviders.getHandlebarsDefinition` (`language-providers.ts`) ====

def posInRange (offset : Nat) (r : Nat × Nat) : Bool := r.1 ≤ offset && offset ≤ r.2

/-- The inner entry loop: among content entries containing the offset, the
first one defining `name` inline wins. -/
def hbInlineLookup (entries : List HbEntry) (offset : Nat) (name : Txt) : Option (Nat × Nat) :=
  match entries with
  | [] => none
  | e :: rest =>
    if posInRange offset e.range then
      match lookupA e.inlineByName name with
      | some l => some l
      | none => hbInlineLookup rest offset name
    else hbInlineLookup rest offset name

/-- The usage loop body: for a usage hit, inline definitions in a containing
content entry shadow the global declaration; an unresolvable hit is skipped. -/
def hbResolveUses (hb : HandlebarsSymbols) (offset : Nat) (name : Txt) :
    List (Nat × Nat) → Option (Nat × Nat)
  | [] => none
  | u :: rest =>
    if posInRange offset u then
      match hbInlineLookup hb.inlineDefsByContent offset name with
      | some l => some l
      | none =>
        match lookupA hb.declByName name with
        | some decl => some decl
        | none => hbResolveUses hb offset name rest
    else hbResolveUses hb offset name rest

def hbResolveNames (hb : HandlebarsSymbols) (offset : Nat) :
    List (Txt × List (Nat × Nat)) → Option (Nat × Nat)
  | [] => none
  | (name, uses) :: rest =>
    match hbResolveUses hb offset name uses with
    | some r => some r
    | none => hbResolveNames hb offset rest

/-- `getHandlebarsDefinition(hb, offset)`: `none` outside all content ranges,
otherwise the first resolvable usage hit. -/
def getHandlebarsDefinition (hb : HandlebarsSymbols) (offset : Nat) : Option (Nat × Nat) :=
  if hb.contentRanges.any (posInRange offset) then
    hbResolveNames hb offset hb.usagesByName
  else none

-- ==== Symbol table builder (`symbol-table.ts`, `buildSymbolTable`) ====

structure SymbolTable where
  -- source field name `variables`
  vars : List (Txt × List Txt)
  pipelines : List Txt
  variableRefs : List (Txt × List PositionInfo)
  pipelineRefs : List (Txt × List PositionInfo)
  variablePositions : List (Txt × PositionInfo)
  pipelinePositions : List (Txt × PositionInfo)
  handlebars : HandlebarsSymbols

/-- `buildSymbolTable(program, text)` — note that here `variablePositions` and
`pipelinePositions` take the **whole** declaration range
(`{start, length: end - start}`), unlike the document model. -/
def buildSymbolTableF (program : Program) (t : Txt) : Option SymbolTable := do
  let vars := program.vars.foldl (fun m v => addTypeName m v.varType v.name) []
  let pipelines := program.pipelines.foldl (fun s p => addSet s p.name) []
  let variableRanges ← getVariableRangesF t
  let pipelineRanges ← getPipelineRangesF t
  let variablePositions := variableRanges.foldl
    (fun acc kv => setA acc kv.1 ⟨kv.2.1, kv.2.2 - kv.2.1⟩) []
  let pipelinePositions := pipelineRanges.foldl
    (fun acc kv => setA acc kv.1 ⟨kv.2.1, kv.2.2 - kv.2.1⟩) []
  let refs ← collectReferencePositionsF t
  let handlebars ← collectHandlebarsSymbolsF t
  pure ⟨vars, pipelines, refs.variableRefs, refs.pipelineRefs,
        variablePositions, pipelinePositions, handlebars⟩

-- ==== Validator (`validation.ts`) ====

/-- A match of `REGEX_PATTERNS.VAR_DECL`
`/(^|\n)\s*([A-Za-z_][\w-]*)\s+([A-Za-z_][\w-]*)\s*=\s*`[\s\S]*?`/`. -/
structure VarDeclMatch where
  varType : Txt
  varName : Txt
  matchStart : Nat
  matchEnd : Nat
deriving Repr, DecidableEq

def matchVarDeclAt (t : Txt) (i : Nat) : Option (Nat × VarDeclMatch) :=
  match anchorAt t i with
  | none => none
  | some j =>
  match parseIdentifier t (wsStar t j) with
  | none => none
  | some (varType, j2) =>
  match wsPlus t j2 with
  | none => none
  | some j3 =>
  match parseIdentifier t j3 with
  | none => none
  | some (varName, j4) =>
  match matchTok t ['='] (wsStar t j4) with
  | none => none
  | some j6 =>
  match matchTok t [btick] (wsStar t j6) with
  | none => none
  | some j8 =>
  let n := countWhile (fun c => c ≠ btick) t j8
  match matchTok t [btick] (j8 + n) with
  | none => none
  | some j9 => some (j9, ⟨varType, varName, i, j9⟩)

/-- A match of `REGEX_PATTERNS.PIPE_DECL`
`/(^|\n)\s*pipeline\s+([A-Za-z_][\w-]*)\s*=/`. -/
structure PipeDeclMatch where
  name : Txt
  matchStart : Nat
  matchEnd : Nat
deriving Repr, DecidableEq

def matchPipeDeclAt (t : Txt) (i : Nat) : Option (Nat × PipeDeclMatch) :=
  match anchorAt t i with
  | none => none
  | some j =>
  match matchTok t "pipeline".toList (wsStar t j) with
  | none => none
  | some j2 =>
  match wsPlus t j2 with
  | none => none
  | some j3 =>
  match parseIdentifier t j3 with
  | none => none
  | some (name, j4) =>
  match matchTok t ['='] (wsStar t j4) with
  | none => none
  | some j6 => some (j6, ⟨name, i, j6⟩)

/-- The duplicate-variable warning for one match:
`nameStart = m.index + m[0].lastIndexOf(varName)` (the name always occurs in
the match, so the `lastIndexOf` never fails). -/
def dupVarWarnOf (t : Txt) (m : VarDeclMatch) : ParseDiagnostic :=
  let nameStart := m.matchStart + (lastSubIdx (sliceT t m.matchStart m.matchEnd) m.varName).getD 0
  ⟨"Duplicate " ++ String.mk m.varType ++ " variable: " ++ String.mk m.varName,
   nameStart, nameStart + m.varName.length, .warning⟩

/-- The duplicate-detection fold of `DocumentValidator.collectDeclarations`
over the variable-declaration matches: a warning for every match whose
`varType::varName` key was seen in an earlier match. -/
def dupVarFold (t : Txt) (ms : List VarDeclMatch) : List ParseDiagnostic :=
  (ms.foldl
    (fun (acc : List Txt × List ParseDiagnostic) m =>
      let key := m.varType ++ [':', ':'] ++ m.varName
      if acc.1.contains key then (acc.1, acc.2 ++ [dupVarWarnOf t m])
      else (acc.1 ++ [key], acc.2))
    ([], [])).2

def dupVarWarnings (t : Txt) : Option (List ParseDiagnostic) :=
  (scanAll matchVarDeclAt t).map (dupVarFold t)

/-- The duplicate-pipeline warning for one match. -/
def dupPipeWarnOf (t : Txt) (m : PipeDeclMatch) : ParseDiagnostic :=
  let nameStart := m.matchStart + (lastSubIdx (sliceT t m.matchStart m.matchEnd) m.name).getD 0
  ⟨"Duplicate pipeline: " ++ String.mk m.name, nameStart, nameStart + m.name.length, .warning⟩

def dupPipeFold (t : Txt) (ms : List PipeDeclMatch) : List ParseDiagnostic :=
  (ms.foldl
    (fun (acc : List Txt × List ParseDiagnostic) m =>
      if acc.1.contains m.name then (acc.1, acc.2 ++ [dupPipeWarnOf t m])
      else (acc.1 ++ [m.name], acc.2))
    ([], [])).2

def dupPipeWarnings (t : Txt) : Option (List ParseDiagnostic) :=
  (scanAll matchPipeDeclAt t).map (dupPipeFold t)

/-- `collectDeclarations`: declarations are taken from the AST (`program`),
duplicates from the regex scans. -/
def collectDeclarationsF (program : Program) :
    List (Txt × List Txt) × List Txt :=
  (program.vars.foldl (fun m v => addTypeName m v.varType v.name) [],
   program.pipelines.foldl (fun s p => addSet s p.name) [])

/-- `DocumentValidator.validateTrailingNewline`: a warning when a nonempty
text does not end with a newline. -/
def validateTrailingNewline (t : Txt) : List ParseDiagnostic :=
  if 0 < t.length && t.getLast? ≠ some '\n' then
    [⟨"File does not end with a newline", t.length - 1, t.length, .warning⟩]
  else []

/-- Outcome of the body of the `try` block in
`DocumentValidator.validateReferences`: it either runs to completion or
throws after having pushed some diagnostics into the shared array. -/
inductive TryOutcome (α : Type) where
  | ok (a : α)
  | thrown (acc : α)

/-- `validateReferences(text)` with the steps after the parser-diagnostic
loop abstracted as `rest` (a function from the accumulated diagnostics to a
`TryOutcome`): the surrounding `try`/`catch` swallows a throw, leaving the
diagnostics accumulated up to that point. -/
def validateReferencesF (t : Txt) (rest : List ParseDiagnostic → TryOutcome (List ParseDiagnostic))
    (acc : List ParseDiagnostic) : List ParseDiagnostic :=
  match parseProgramWithDiagnosticsF t with
  | none => acc
  | some (_, parseDiagnostics) =>
    match rest (acc ++ parseDiagnostics) with
    | .ok d => d
    | .thrown d => d

/-- `validateDocument(doc)`: trailing-newline check, then reference
validation; the result is the diagnostic set passed to `sendDiagnostics`. -/
def validateDocumentF (t : Txt)
    (rest : List ParseDiagnostic → TryOutcome (List ParseDiagnostic)) : List ParseDiagnostic :=
  validateReferencesF t rest (validateTrailingNewline t)

-- ==== Document cache (`document-cache.ts`) ====

def maxCacheSize : Nat := 100
def maxCacheAge : Nat := 300000

structure CachedDocument where
  version : Nat
  text : Txt
  parseResult : Option (Program × List ParseDiagnostic)
  timestamp : Nat

abbrev CacheMap := List (Txt × CachedDocument)

/-- JS `Map.delete`. -/
def delA {α : Type} : List (Txt × α) → Txt → List (Txt × α)
  | [], _ => []
  | (k, v) :: rest, key => if k = key then rest else (k, v) :: delA rest key

/-- Stable insertion into a list sorted ascending by timestamp (models the
stable `Array.prototype.sort` by `a.timestamp - b.timestamp`). -/
def insertTs (x : Txt × CachedDocument) : CacheMap → CacheMap
  | [] => [x]
  | y :: rest =>
    if y.2.timestamp ≤ x.2.timestamp then y :: insertTs x rest else x :: y :: rest

def sortByTs : CacheMap → CacheMap
  | [] => []
  | x :: rest => insertTs x (sortByTs rest)

/-- `DocumentCache.cleanup`: nothing below the size bound; otherwise drop
entries older than `maxCacheAge`, then — if still over the bound — delete the
oldest entries of the (pre-deletion) snapshot, sorted by timestamp, until the
computed `toRemove` count is reached. -/
def cleanup (c : CacheMap) (now : Nat) : CacheMap :=
  if c.length ≤ maxCacheSize then c
  else
    let entries := c
    let c1 := entries.foldl
      (fun acc kv => if maxCacheAge < now - kv.2.timestamp then delA acc kv.1 else acc) c
    if maxCacheSize < c1.length then
      let sorted := sortByTs entries
      let toRemove := c1.length - maxCacheSize
      (sorted.take toRemove).foldl (fun acc kv => delA acc kv.1) c1
    else c1

/-- `DocumentCache.get`: version-matching hit refreshes the timestamp;
otherwise parse, store, and clean up. -/
def cacheGet (c : CacheMap) (uri : Txt) (version : Nat) (text : Txt) (now : Nat) :
    Option (Program × List ParseDiagnostic) × CacheMap :=
  match lookupA c uri with
  | some cached =>
    if cached.version = version then
      (cached.parseResult, setA c uri { cached with timestamp := now })
    else
      let pr := parseProgramWithDiagnosticsF text
      (pr, cleanup (setA c uri ⟨version, text, pr, now⟩) now)
  | none =>
    let pr := parseProgramWithDiagnosticsF text
    (pr, cleanup (setA c uri ⟨version, text, pr, now⟩) now)

inductive CacheOp where
  | get (uri : Txt) (version : Nat) (text : Txt) (now : Nat)
  | invalidate (uri : Txt)
  | clear

def applyOp (c : CacheMap) : CacheOp → CacheMap
  | .get uri version text now => (cacheGet c uri version text now).2
  | .invalidate uri => delA c uri
  | .clear => []

/-- A fresh `DocumentCache` driven through a sequence of operations. -/
def runOps (ops : List CacheOp) : CacheMap := ops.foldl applyOp []

-- ==== `Parser.tryParse` as a combinator ====

/-- `Parser.tryParse(fn)`: run `fn`; on an exception restore the saved cursor
but keep every other component of the state from the moment of the throw
(the mutable `diagnostics` array and the range tables are not rolled back). -/
def tryParseS {α : Type} (f : PState → Except PState (α × PState)) (s : PState) :
    Option α × PState :=
  match f s with
  | .ok (a, s') => (some a, s')
  | .error e => (none, { e with pos := s.pos })

-- ==== Verification predicates ====

/-- Every diagnostic's range lies within the text (`0 ≤ start ≤ end ≤ length`). -/
def DiagsOk (t : Txt) (ds : List ParseDiagnostic) : Prop :=
  ∀ d ∈ ds, d.start ≤ d.stop ∧ d.stop ≤ t.length

/-- The range contains an occurrence of `nm` and ends within the text. -/
def RangeHasName (t : Txt) (nm : Txt) (r : Nat × Nat) : Prop :=
  ∃ i, r.1 ≤ i ∧ i + nm.length ≤ r.2 ∧ r.2 ≤ t.length ∧ sliceT t i (i + nm.length) = nm

/-- Every pipeline range contains its pipeline's name. -/
def PipeRangesOk (t : Txt) (m : List (Txt × (Nat × Nat))) : Prop :=
  ∀ kv ∈ m, RangeHasName t kv.1 kv.2

/-- Every variable range contains the name component of its `type::name` key. -/
def VarRangesOk (t : Txt) (m : List (Txt × (Nat × Nat))) : Prop :=
  ∀ kv ∈ m, RangeHasName t (splitOn2Colons kv.1).2 kv.2

/-- The parser-state invariant: valid diagnostic ranges and name-bearing
declaration ranges. -/
def SInv (t : Txt) (s : PState) : Prop :=
  DiagsOk t s.diags ∧ PipeRangesOk t s.pipelineRanges ∧ VarRangesOk t s.variableRanges

-- ==== Concrete example inputs ====

/-- A result branch with an out-of-range status code (`weird(999):`). -/
def tC5 : Txt := "weird(999):".toList

/-- The state after parsing the head of `weird(999):` from the empty state:
cursor after the `:`, one `error` diagnostic on the digits `999`. -/
def s1C5 : PState :=
  ⟨11, [⟨"Invalid HTTP status code: " ++ Nat.repr 999, 6, 9, .error⟩], [], []⟩

/-- A program whose `result` branch reports the 999 diagnostic and then
fails at the missing `:` — the failed attempt is rolled back by the branch
loop's `tryParse`. -/
def tC9 : Txt := "GET /a\n|> result\n weird(999) z\n".toList

/-- The state at the start of the failing branch of `tC9` (position of
`weird`). -/
def sC9 : PState := ⟨18, [], [], []⟩

/-- The state carried by the branch's throw: cursor at the missing `:`, the
status-code diagnostic already recorded. -/
def eC9 : PState :=
  ⟨28, [⟨"Invalid HTTP status code: " ++ Nat.repr 999, 24, 27, .error⟩], [], []⟩

/-- The status-code diagnostic of `tC9`. -/
def dC9 : ParseDiagnostic :=
  ⟨"Invalid HTTP status code: " ++ Nat.repr 999, 24, 27, .error⟩

/-- The fallback warning of `tC9` (the unparsed branch line). -/
def dWarnC9 : ParseDiagnostic :=
  ⟨"Unrecognized or unsupported syntax", 17, 30, .warning⟩

/-- A global `handlebars x` declaration plus a second handlebars variable
whose template both defines `x` inline and uses `\x7b\x7b> x\x7d\x7d`. -/
def tC6 : Txt :=
  "handlebars x = `B`\nhandlebars y = `\x7b\x7b#*inline \"x\"\x7d\x7dA\x7b\x7b/inline\x7d\x7d\x7b\x7b> x\x7d\x7d`\n".toList

/-- Like `tC6` but without the inline definition. -/
def tC6b : Txt := "handlebars x = `B`\nhandlebars y = `\x7b\x7b> x\x7d\x7d`\n".toList

/-- The handlebars symbols of `tC6`. -/
def hbC6 : HandlebarsSymbols :=
  ⟨[("x".toList, 11, 12), ("y".toList, 30, 31)], [(16, 17), (35, 70)],
   [("x".toList, [(67, 68)])],
   [⟨(16, 17), [], []⟩, ⟨(35, 70), [("x".toList, (47, 48))], [("x".toList, (35, 63))]⟩]⟩

/-- The handlebars symbols of `tC6b`. -/
def hbC6b : HandlebarsSymbols :=
  ⟨[("x".toList, 11, 12), ("y".toList, 30, 31)], [(16, 17), (35, 42)],
   [("x".toList, [(39, 40)])],
   [⟨(16, 17), [], []⟩, ⟨(35, 42), [], []⟩]⟩

/-- The same typed variable declared twice. -/
def tC7 : Txt := "pg q = `a`\npg q = `b`\n".toList

/-- The first `VAR_DECL` match of `tC7`. -/
def m1C7 : VarDeclMatch := ⟨"pg".toList, "q".toList, 0, 10⟩

/-- The second `VAR_DECL` match of `tC7`. -/
def m2C7 : VarDeclMatch := ⟨"pg".toList, "q".toList, 10, 21⟩

/-- A validation pass that throws immediately, having pushed nothing beyond
the accumulated diagnostics. -/
def restC8 : List ParseDiagnostic → TryOutcome (List ParseDiagnostic) :=
  fun ds => .thrown ds

/-- A reference shape matched at index `i` reaching an occurrence at `n` is
anchored: `i` is the start of the text or holds a newline, the match's anchor
point `j` (just after that newline, or position 0) is followed by whitespace
only up to the shape start `s` — the first non-whitespace character after the
anchor — and the occurrence lies at or after the shape start. So on the line
where this match's shape begins, everything before the shape is whitespace. -/
def AnchoredShapeAt (t : Txt) (i n : Nat) : Prop :=
  ∃ j s, ((i = 0 ∧ j = 0) ∨ (charAt t i = some '\n' ∧ j = i + 1)) ∧
    j ≤ s ∧ s ≤ n ∧
    (∀ m, j ≤ m → m < s → ∃ c, charAt t m = some c ∧ isJsWs c = true) ∧
    (∃ c, charAt t s = some c ∧ isJsWs c = false)

/-- A whitespace-prefixed step reference line. -/
def tC10 : Txt := "  |> pg: q\n".toList

/-- The reference positions of `tC10`. -/
def rpC10 : ReferencePositions := ⟨[("pg::q".toList, [⟨9, 1⟩])], []⟩

/-- A step whose value is multi-token text starting with an identifier. -/
def tC4 : Txt := "|> pg: users extra\n".toList

/-- A named pipeline declaration. -/
def tC2p : Txt := "pipeline foo = |> jq: x\n".toList

/-- The program parsed from `tC2p`. -/
def progC2p : Program := ((parseProgramRun tC2p).map Prod.fst).getD emptyProgram

/-- A variable declaration whose value contains the variable's name. -/
def tC2v : Txt := "pg q = `x q z`\n".toList

/-- The occurrence `matchStepVarAt` yields on `tC4`. -/
def occC4 : RefOcc := ⟨"pg".toList, [], "users".toList, 7⟩

-- ===================================================================
-- Lemmas
-- ===================================================================

theorem pair_eta {α β : Type} (x : α × β) : x = (x.1, x.2) := rfl

theorem countWhile_bound (pred : Char → Bool) (t : Txt) (p : Nat) :
    countWhile pred t p ≤ t.length - p := by
  unfold countWhile
  exact le_trans (List.takeWhile_prefix pred).length_le (le_of_eq (List.length_drop _ _))

theorem add_countWhile_le {pred : Char → Bool} {t : Txt} {p : Nat} (h : p ≤ t.length) :
    p + countWhile pred t p ≤ t.length := by
  have := countWhile_bound pred t p; omega

theorem skipSpaces_ge (t : Txt) (p : Nat) : p ≤ skipSpaces t p := by
  unfold skipSpaces; omega

theorem skipSpaces_le {t : Txt} {p : Nat} (h : p ≤ t.length) : skipSpaces t p ≤ t.length :=
  add_countWhile_le h

theorem skipInlineSpaces_ge (t : Txt) (p : Nat) : p ≤ skipInlineSpaces t p := by
  unfold skipInlineSpaces; omega

theorem skipInlineSpaces_le {t : Txt} {p : Nat} (h : p ≤ t.length) :
    skipInlineSpaces t p ≤ t.length := add_countWhile_le h

theorem skipToEol_ge (t : Txt) (p : Nat) : p ≤ skipToEol t p := by
  unfold skipToEol; omega

theorem skipToEol_le {t : Txt} {p : Nat} (h : p ≤ t.length) : skipToEol t p ≤ t.length :=
  add_countWhile_le h

theorem wsStar_ge (t : Txt) (p : Nat) : p ≤ wsStar t p := by
  unfold wsStar; omega

theorem wsStar_le {t : Txt} {p : Nat} (h : p ≤ t.length) : wsStar t p ≤ t.length :=
  add_countWhile_le h

theorem charAt_some_lt {t : Txt} {p : Nat} {c : Char} (h : charAt t p = some c) :
    p < t.length := by
  unfold charAt at h
  by_contra hlt
  rw [List.getElem?_eq_none (by omega)] at h
  exact Option.noConfusion h

theorem matchTok_some {t tok : Txt} {p p' : Nat} (h : matchTok t tok p = some p') :
    p' = p + tok.length ∧ tok <+: t.drop p := by
  unfold matchTok startsWithAt at h
  split at h
  · next hpre =>
    cases h
    exact ⟨rfl, List.isPrefixOf_iff_prefix.mp hpre⟩
  · exact Option.noConfusion h

theorem matchTok_bound {t tok : Txt} {p p' : Nat} (h : matchTok t tok p = some p')
    (hne : tok ≠ []) : p < t.length ∧ p' ≤ t.length := by
  obtain ⟨heq, hpre⟩ := matchTok_some h
  have hlen : tok.length ≤ t.length - p := by
    have := hpre.length_le
    simpa [List.length_drop] using this
  have h1 : 1 ≤ tok.length := by
    cases tok with
    | nil => exact absurd rfl hne
    | cons a l => simp
  constructor <;> omega

theorem matchTok_ge {t tok : Txt} {p p' : Nat} (h : matchTok t tok p = some p') :
    p ≤ p' := by
  obtain ⟨heq, _⟩ := matchTok_some h; omega

theorem matchTok_lt {t tok : Txt} {p p' : Nat} (h : matchTok t tok p = some p')
    (hne : tok ≠ []) : p < p' := by
  obtain ⟨heq, _⟩ := matchTok_some h
  have h1 : 1 ≤ tok.length := by
    cases tok with
    | nil => exact absurd rfl hne
    | cons a l => simp
  omega

theorem wsPlus_some {t : Txt} {p p' : Nat} (h : wsPlus t p = some p') :
    p < p' ∧ (p ≤ t.length → p' ≤ t.length) := by
  simp only [wsPlus] at h
  by_cases hn : countWhile isJsWs t p = 0
  · simp [hn] at h
  · rw [if_neg hn] at h
    have hc := countWhile_bound isJsWs t p
    cases h
    constructor
    · omega
    · intro hp; omega

theorem parseIdentifier_some {t : Txt} {p p' : Nat} {nm : Txt}
    (h : parseIdentifier t p = some (nm, p')) :
    p < p' ∧ p' ≤ t.length ∧ nm = sliceT t p p' := by
  unfold parseIdentifier at h
  cases hc : charAt t p with
  | none => rw [hc] at h; exact Option.noConfusion h
  | some c =>
    rw [hc] at h
    dsimp only at h
    by_cases hs : isIdentStart c
    · rw [if_pos hs] at h
      have hlt := charAt_some_lt hc
      have hcw := countWhile_bound isIdentCont t (p + 1)
      cases h
      exact ⟨by omega, by omega, rfl⟩
    · rw [if_neg hs] at h
      exact Option.noConfusion h

theorem parseNumber_some {t : Txt} {p p' : Nat} {v : Nat}
    (h : parseNumber t p = some (v, p')) : p < p' ∧ p' ≤ t.length := by
  simp only [parseNumber] at h
  by_cases hn : countWhile isDigitC t p = 0
  · simp [hn] at h
  · rw [if_neg hn] at h
    have hcw := countWhile_bound isDigitC t p
    cases h
    have hpos : 0 < countWhile isDigitC t p := Nat.pos_of_ne_zero hn
    have hplen : p < t.length := by
      by_contra hge
      have hdrop : t.drop p = [] := List.drop_eq_nil_of_le (by omega)
      unfold countWhile at hpos
      rw [hdrop] at hpos
      simp at hpos
    constructor <;> omega

theorem takeRun_eq (pred : Char → Bool) (t : Txt) (p : Nat) :
    (takeRun pred t p).2 = p + countWhile pred t p := rfl

theorem takeRun_ge (pred : Char → Bool) (t : Txt) (p : Nat) : p ≤ (takeRun pred t p).2 := by
  rw [takeRun_eq]; omega

theorem takeRun_le (pred : Char → Bool) {t : Txt} {p : Nat} (h : p ≤ t.length) :
    (takeRun pred t p).2 ≤ t.length := by
  rw [takeRun_eq]; exact add_countWhile_le h

theorem parseQuotedString_some {t : Txt} {p p' : Nat} {v : Txt}
    (h : parseQuotedString t p = some (v, p')) : p < p' ∧ p' ≤ t.length := by
  simp only [parseQuotedString, bind, Option.bind_eq_some, Option.pure_def,
    Option.some.injEq, Prod.mk.injEq] at h
  obtain ⟨p1, h1, p3, h3, hv, hp'⟩ := h
  have f1 := matchTok_bound h1 (by simp)
  have g1 := matchTok_lt h1 (by simp)
  have hrun : (takeRun (fun c => c ≠ dquote) t p1).2 = p1 + countWhile (fun c => c ≠ dquote) t p1 := rfl
  have hcw := countWhile_bound (fun c => c ≠ dquote) t p1
  have f3 := matchTok_bound h3 (by simp)
  have f3' := matchTok_ge h3
  subst hp'
  omega

theorem parseBacktickString_some {t : Txt} {p p' : Nat} {v : Txt}
    (h : parseBacktickString t p = some (v, p')) : p < p' ∧ p' ≤ t.length := by
  simp only [parseBacktickString, bind, Option.bind_eq_some, Option.pure_def,
    Option.some.injEq, Prod.mk.injEq] at h
  obtain ⟨p1, h1, p3, h3, hv, hp'⟩ := h
  have f1 := matchTok_bound h1 (by simp)
  have g1 := matchTok_lt h1 (by simp)
  have hrun : (takeRun (fun c => c ≠ btick) t p1).2 = p1 + countWhile (fun c => c ≠ btick) t p1 := rfl
  have hcw := countWhile_bound (fun c => c ≠ btick) t p1
  have f3 := matchTok_bound h3 (by simp)
  have f3' := matchTok_ge h3
  subst hp'
  omega

theorem parseMethodIn_some {t : Txt} {p p' : Nat} {m : Txt} :
    ∀ {ms : List Txt}, parseMethodIn t p ms = some (m, p') → (∀ x ∈ ms, x ≠ []) →
      p < p' ∧ p' ≤ t.length
  | [], h, _ => Option.noConfusion h
  | x :: rest, h, hne => by
    unfold parseMethodIn at h
    split at h
    · next hpre =>
      cases h
      have hp : m <+: t.drop p := List.isPrefixOf_iff_prefix.mp hpre
      have hlen : m.length ≤ t.length - p := by
        have := hp.length_le; simpa [List.length_drop] using this
      have h1 : 1 ≤ m.length := by
        have hxne : m ≠ [] := hne m (by simp)
        cases m with
        | nil => exact absurd rfl hxne
        | cons a l => simp
      constructor <;> omega
    · exact parseMethodIn_some h (fun y hy => hne y (by simp [hy]))

theorem parseMethod_some {t : Txt} {p p' : Nat} {m : Txt}
    (h : parseMethod t p = some (m, p')) : p < p' ∧ p' ≤ t.length := by
  refine parseMethodIn_some h ?_
  intro x hx
  simp [httpMethods] at hx
  rcases hx with h | h | h | h | h <;> (subst h; simp [String.toList])

theorem parseStepConfig_some {t : Txt} {p p' : Nat} {v : Txt}
    (h : parseStepConfig t p = some (v, p')) : p < p' ∧ p' ≤ t.length := by
  unfold parseStepConfig at h
  split at h
  · next r heq =>
    cases h; exact parseBacktickString_some heq
  · split at h
    · next r heq =>
      cases h; exact parseQuotedString_some heq
    · exact parseIdentifier_some h |>.imp id (fun x => x.1)

theorem parseEnvWithDefault_some {t : Txt} {p p' : Nat} {v : ConfigValue}
    (h : parseEnvWithDefault t p = some (v, p')) : p < p' ∧ p' ≤ t.length := by
  simp only [parseEnvWithDefault, bind, Option.bind_eq_some, Option.pure_def,
    Option.some.injEq, Prod.mk.injEq] at h
  obtain ⟨p1, h1, ⟨v2, p2⟩, h2, p4, h4, ⟨d, p6⟩, h6, hv, hp'⟩ := h
  dsimp only at *
  have f1 := matchTok_lt h1 (by simp)
  have f2 := parseIdentifier_some h2
  have f3 := skipInlineSpaces_ge t p2
  have f3' := skipInlineSpaces_le f2.2.1
  have f4 := matchTok_lt h4 (by simp)
  have f4' := (matchTok_bound h4 (by simp)).2
  have f5 := skipInlineSpaces_ge t p4
  have f5' := skipInlineSpaces_le f4'
  have f6 := parseQuotedString_some h6
  subst hp'
  omega

theorem parseEnvNoDefault_some {t : Txt} {p p' : Nat} {v : ConfigValue}
    (h : parseEnvNoDefault t p = some (v, p')) : p < p' ∧ p' ≤ t.length := by
  simp only [parseEnvNoDefault, bind, Option.bind_eq_some, Option.pure_def,
    Option.some.injEq, Prod.mk.injEq] at h
  obtain ⟨p1, h1, ⟨v2, p2⟩, h2, hv, hp'⟩ := h
  dsimp only at *
  have f1 := matchTok_lt h1 (by simp)
  have f2 := parseIdentifier_some h2
  subst hp'
  omega

theorem parseBoolTok_some {t : Txt} {p p' : Nat} {b : Bool}
    (h : parseBoolTok t p = some (b, p')) : p < p' ∧ p' ≤ t.length := by
  unfold parseBoolTok at h
  cases h1 : matchTok t "true".toList p with
  | some q => rw [h1] at h; cases h
              exact ⟨matchTok_lt h1 (by simp [String.toList]),
                     (matchTok_bound h1 (by simp [String.toList])).2⟩
  | none =>
    rw [h1] at h
    cases h2 : matchTok t "false".toList p with
    | some q => rw [h2] at h; cases h
                exact ⟨matchTok_lt h2 (by simp [String.toList]),
                       (matchTok_bound h2 (by simp [String.toList])).2⟩
    | none => rw [h2] at h; exact Option.noConfusion h

theorem parseConfigValue_some {t : Txt} {p p' : Nat} {v : ConfigValue}
    (h : parseConfigValue t p = some (v, p')) : p < p' ∧ p' ≤ t.length := by
  unfold parseConfigValue at h
  split at h
  · next r heq => cases h; exact parseEnvWithDefault_some heq
  · split at h
    · next r heq => cases h; exact parseEnvNoDefault_some heq
    · split at h
      · next sv q heq => cases h; exact parseQuotedString_some heq
      · split at h
        · next b q heq => cases h; exact parseBoolTok_some heq
        · split at h
          · next n q heq => cases h; exact parseNumber_some heq
          · exact Option.noConfusion h

theorem parseConfigProperty_some {t : Txt} {p p' : Nat} {cp : ConfigProperty}
    (h : parseConfigProperty t p = some (cp, p')) : p < p' ∧ p' ≤ t.length := by
  simp only [parseConfigProperty, bind, Option.bind_eq_some, Option.pure_def,
    Option.some.injEq, Prod.mk.injEq] at h
  obtain ⟨⟨key, p2⟩, h2, p4, h4, ⟨val, p6⟩, h6, hv, hp'⟩ := h
  dsimp only at *
  have f1 := skipSpaces_ge t p
  have f2 := parseIdentifier_some h2
  have f3 := skipInlineSpaces_ge t p2
  have f3' := skipInlineSpaces_le f2.2.1
  have f4 := matchTok_ge h4
  have f4' := (matchTok_bound h4 (by simp)).2
  have f5 := skipInlineSpaces_ge t p4
  have f5' := skipInlineSpaces_le f4'
  have f6 := parseConfigValue_some h6
  subst hp'
  omega

theorem parseRegularStep_some {t : Txt} {p p' : Nat} {st : PipelineStep}
    (h : parseRegularStep t p = some (st, p')) : p < p' ∧ p' ≤ t.length := by
  simp only [parseRegularStep, bind, Option.bind_eq_some, Option.pure_def,
    Option.some.injEq, Prod.mk.injEq] at h
  obtain ⟨p2, h2, ⟨nm, p4⟩, h4, p5, h5, ⟨cfg, p7⟩, h7, hv, hp'⟩ := h
  dsimp only at *
  have f1 := skipSpaces_ge t p
  have f2 := matchTok_lt h2 (by simp)
  have f2' := (matchTok_bound h2 (by simp)).2
  have f3 := skipInlineSpaces_ge t p2
  have f3' := skipInlineSpaces_le f2'
  have f4 := parseIdentifier_some h4
  have f5 := matchTok_ge h5
  have f5' := (matchTok_bound h5 (by simp)).2
  have f6 := skipInlineSpaces_ge t p5
  have f6' := skipInlineSpaces_le f5'
  have f7 := parseStepConfig_some h7
  have f8 := skipSpaces_ge t p7
  have f8' := skipSpaces_le f7.2
  subst hp'
  omega

theorem parseWhenCalling_some {t : Txt} {p p' : Nat} {w : When}
    (h : parseWhenCalling t p = some (w, p')) : p < p' ∧ p' ≤ t.length := by
  simp only [parseWhenCalling, bind, Option.bind_eq_some, Option.pure_def,
    Option.some.injEq, Prod.mk.injEq] at h
  obtain ⟨p1, h1, ⟨mth, p3⟩, h3, hv, hp'⟩ := h
  dsimp only at *
  have f1 := matchTok_lt h1 (by simp [String.toList])
  have f1' := (matchTok_bound h1 (by simp [String.toList])).2
  have f2 := skipInlineSpaces_ge t p1
  have f2' := skipInlineSpaces_le f1'
  have f3 := parseMethod_some h3
  have f4 := skipInlineSpaces_ge t p3
  have f4' := skipInlineSpaces_le f3.2
  have f5 := takeRun_ge (fun c => c ≠ '\n') t (skipInlineSpaces t p3)
  have f5' := takeRun_le (fun c => c ≠ '\n') f4'
  subst hp'
  omega

theorem parseWhenExecPipeline_some {t : Txt} {p p' : Nat} {w : When}
    (h : parseWhenExecPipeline t p = some (w, p')) : p < p' ∧ p' ≤ t.length := by
  simp only [parseWhenExecPipeline, bind, Option.bind_eq_some, Option.pure_def,
    Option.some.injEq, Prod.mk.injEq] at h
  obtain ⟨p1, h1, p3, h3, ⟨nm, p5⟩, h5, hv, hp'⟩ := h
  dsimp only at *
  have f1 := matchTok_lt h1 (by simp [String.toList])
  have f1' := (matchTok_bound h1 (by simp [String.toList])).2
  have f2 := skipInlineSpaces_ge t p1
  have f2' := skipInlineSpaces_le f1'
  have f3 := matchTok_ge h3
  have f3' := (matchTok_bound h3 (by simp [String.toList])).2
  have f4 := skipInlineSpaces_ge t p3
  have f4' := skipInlineSpaces_le f3'
  have f5 := parseIdentifier_some h5
  subst hp'
  omega

theorem parseWhenExecVariable_some {t : Txt} {p p' : Nat} {w : When}
    (h : parseWhenExecVariable t p = some (w, p')) : p < p' ∧ p' ≤ t.length := by
  simp only [parseWhenExecVariable, bind, Option.bind_eq_some, Option.pure_def,
    Option.some.injEq, Prod.mk.injEq] at h
  obtain ⟨p1, h1, p3, h3, ⟨ty, p5⟩, h5, ⟨nm, p7⟩, h7, hv, hp'⟩ := h
  dsimp only at *
  have f1 := matchTok_lt h1 (by simp [String.toList])
  have f1' := (matchTok_bound h1 (by simp [String.toList])).2
  have f2 := skipInlineSpaces_ge t p1
  have f2' := skipInlineSpaces_le f1'
  have f3 := matchTok_ge h3
  have f3' := (matchTok_bound h3 (by simp [String.toList])).2
  have f4 := skipInlineSpaces_ge t p3
  have f4' := skipInlineSpaces_le f3'
  have f5 := parseIdentifier_some h5
  have f6 := skipInlineSpaces_ge t p5
  have f6' := skipInlineSpaces_le f5.2.1
  have f7 := parseIdentifier_some h7
  subst hp'
  omega

theorem parseWhen_some {t : Txt} {p p' : Nat} {w : When}
    (h : parseWhen t p = some (w, p')) : p < p' ∧ p' ≤ t.length := by
  unfold parseWhen at h
  split at h
  · next r heq => cases h; exact parseWhenCalling_some heq
  · split at h
    · next r heq => cases h; exact parseWhenExecPipeline_some heq
    · exact parseWhenExecVariable_some h

theorem parseConditionTail_facts (t : Txt) (ct : ConditionType) (p2 : Nat)
    (hp2 : p2 ≤ t.length) :
    p2 ≤ (parseConditionTail t ct p2).2 ∧ (parseConditionTail t ct p2).2 ≤ t.length := by
  unfold parseConditionTail
  set p3 := skipInlineSpaces t p2 with hp3
  have g3 : p3 ≤ t.length := skipInlineSpaces_le hp2
  have g3' := skipInlineSpaces_ge t p2
  set p4 := (takeRun (fun c => c ≠ ' ' && c ≠ '\n' && c ≠ btick) t p3).2 with hp4
  have g4 : p4 ≤ t.length := takeRun_le (fun c => c ≠ ' ' && c ≠ '\n' && c ≠ btick) g3
  have g4' := takeRun_ge (fun c => c ≠ ' ' && c ≠ '\n' && c ≠ btick) t p3
  set p5 := skipInlineSpaces t p4 with hp5
  have g5 : p5 ≤ t.length := skipInlineSpaces_le g4
  have g5' := skipInlineSpaces_ge t p4
  cases hbt : parseBacktickString t p5 with
  | some vq =>
    obtain ⟨v, q⟩ := vq
    have hb := parseBacktickString_some hbt
    simp only [hbt]
    set p7 := skipInlineSpaces t q with hp7
    have g7 : p7 ≤ t.length := skipInlineSpaces_le hb.2
    have g7' := skipInlineSpaces_ge t q
    set p8 := (takeRun (fun c => c ≠ ' ' && c ≠ '\n') t p7).2 with hp8
    have g8 : p8 ≤ t.length := takeRun_le (fun c => c ≠ ' ' && c ≠ '\n') g7
    have g8' := takeRun_ge (fun c => c ≠ ' ' && c ≠ '\n') t p7
    set p9 := skipInlineSpaces t p8 with hp9
    have g9 : p9 ≤ t.length := skipInlineSpaces_le g8
    have g9' := skipInlineSpaces_ge t p8
    cases hbt2 : parseBacktickString t p9 with
    | some vq2 =>
      obtain ⟨v2, q2⟩ := vq2
      have hb2 := parseBacktickString_some hbt2
      simp only [hbt2]
      omega
    | none =>
      cases hq2 : parseQuotedString t p9 with
      | some vq2 =>
        obtain ⟨v2, q2⟩ := vq2
        have hq2' := parseQuotedString_some hq2
        simp only [hbt2, hq2]
        omega
      | none =>
        simp only [hbt2, hq2]
        have := takeRun_le (fun c => c ≠ '\n') g9
        have := takeRun_ge (fun c => c ≠ '\n') t p9
        omega
  | none =>
    simp only [hbt]
    set p7 := skipInlineSpaces t p5 with hp7
    have g7 : p7 ≤ t.length := skipInlineSpaces_le g5
    have g7' := skipInlineSpaces_ge t p5
    set p8 := (takeRun (fun c => c ≠ ' ' && c ≠ '\n') t p7).2 with hp8
    have g8 : p8 ≤ t.length := takeRun_le (fun c => c ≠ ' ' && c ≠ '\n') g7
    have g8' := takeRun_ge (fun c => c ≠ ' ' && c ≠ '\n') t p7
    set p9 := skipInlineSpaces t p8 with hp9
    have g9 : p9 ≤ t.length := skipInlineSpaces_le g8
    have g9' := skipInlineSpaces_ge t p8
    cases hbt2 : parseBacktickString t p9 with
    | some vq2 =>
      obtain ⟨v2, q2⟩ := vq2
      have hb2 := parseBacktickString_some hbt2
      simp only [hbt2]
      omega
    | none =>
      cases hq2 : parseQuotedString t p9 with
      | some vq2 =>
        obtain ⟨v2, q2⟩ := vq2
        have hq2' := parseQuotedString_some hq2
        simp only [hbt2, hq2]
        omega
      | none =>
        simp only [hbt2, hq2]
        have := takeRun_le (fun c => c ≠ '\n') g9
        have := takeRun_ge (fun c => c ≠ '\n') t p9
        omega

theorem parseConditionKeyword_some {t : Txt} {p1 p2 : Nat} {ct : ConditionType}
    (h : parseConditionKeyword t p1 = some (ct, p2)) : p1 < p2 ∧ p2 ≤ t.length := by
  unfold parseConditionKeyword at h
  cases h1 : matchTok t "then".toList p1 with
  | some q =>
    rw [h1] at h
    cases h
    exact ⟨matchTok_lt h1 (by simp [String.toList]),
           (matchTok_bound h1 (by simp [String.toList])).2⟩
  | none =>
    rw [h1] at h
    cases h2 : matchTok t "and".toList p1 with
    | some q =>
      rw [h2] at h
      cases h
      exact ⟨matchTok_lt h2 (by simp [String.toList]),
             (matchTok_bound h2 (by simp [String.toList])).2⟩
    | none =>
      rw [h2] at h
      exact Option.noConfusion h

theorem parseCondition_some {t : Txt} {p p' : Nat} {c : Condition}
    (h : parseCondition t p = some (c, p')) : p < p' ∧ p' ≤ t.length := by
  unfold parseCondition at h
  have f0 := skipSpaces_ge t p
  cases hk : parseConditionKeyword t (skipSpaces t p) with
  | none => rw [hk] at h; exact Option.noConfusion h
  | some ctp =>
    obtain ⟨ct, p2⟩ := ctp
    rw [hk] at h
    have h2 := Option.some.inj h
    have hkf := parseConditionKeyword_some hk
    have htail := parseConditionTail_facts t ct p2 hkf.2
    have hsnd : (parseConditionTail t ct p2).2 = p' := by rw [h2]
    omega

theorem parseMockHead_some {word t : Txt} {p p' : Nat} {m : Mock}
    (hw : word ≠ []) (h : parseMockHead word t p = some (m, p')) :
    p < p' ∧ p' ≤ t.length := by
  simp only [parseMockHead, bind, Option.bind_eq_some, Option.pure_def,
    Option.some.injEq, Prod.mk.injEq] at h
  obtain ⟨p2, h2, p4, h4, p8, h8, ⟨rv, p10⟩, h10, hv, hp'⟩ := h
  dsimp only at *
  have f0 := skipSpaces_ge t p
  have f2 := matchTok_lt h2 hw
  have f2' := (matchTok_bound h2 hw).2
  have f3 := skipInlineSpaces_ge t p2
  have f3' := skipInlineSpaces_le f2'
  have f4 := matchTok_ge h4
  have f4' := (matchTok_bound h4 (by simp [String.toList])).2
  have f5 := skipInlineSpaces_ge t p4
  have f5' := skipInlineSpaces_le f4'
  have f6 := takeRun_ge (fun c => c ≠ ' ' && c ≠ '\n') t (skipInlineSpaces t p4)
  have f6' := takeRun_le (fun c => c ≠ ' ' && c ≠ '\n') f5'
  have f7 := skipInlineSpaces_ge t ((takeRun (fun c => c ≠ ' ' && c ≠ '\n') t (skipInlineSpaces t p4)).2)
  have f7' := skipInlineSpaces_le f6'
  have f8 := matchTok_ge h8
  have f8' := (matchTok_bound h8 (by simp [String.toList])).2
  have f9 := skipInlineSpaces_ge t p8
  have f9' := skipInlineSpaces_le f8'
  have f10 := parseBacktickString_some h10
  have f11 := skipSpaces_ge t p10
  have f11' := skipSpaces_le f10.2
  subst hp'
  omega

theorem parseMock_some {t : Txt} {p p' : Nat} {m : Mock}
    (h : parseMock t p = some (m, p')) : p < p' ∧ p' ≤ t.length :=
  parseMockHead_some (by simp [String.toList]) h

theorem parseAndMock_some {t : Txt} {p p' : Nat} {m : Mock}
    (h : parseAndMock t p = some (m, p')) : p < p' ∧ p' ≤ t.length :=
  parseMockHead_some (by simp [String.toList]) h

theorem parseNamedRefTail_some {t : Txt} {p p' : Nat} {nm : Txt}
    (h : parseNamedRefTail t p = some (nm, p')) : p < p' ∧ p' ≤ t.length := by
  simp only [parseNamedRefTail, bind, Option.bind_eq_some, Option.pure_def,
    Option.some.injEq, Prod.mk.injEq] at h
  obtain ⟨p2, h2, p4, h4, ⟨n, p6⟩, h6, hv, hp'⟩ := h
  dsimp only at *
  have f0 := skipSpaces_ge t p
  have f2 := matchTok_lt h2 (by simp)
  have f2' := (matchTok_bound h2 (by simp)).2
  have f3 := skipInlineSpaces_ge t p2
  have f3' := skipInlineSpaces_le f2'
  have f4 := matchTok_ge h4
  have f4' := (matchTok_bound h4 (by simp [String.toList])).2
  have f5 := skipInlineSpaces_ge t p4
  have f5' := skipInlineSpaces_le f4'
  have f6 := parseIdentifier_some h6
  subst hp'
  omega

-- ==== Facts about the fueled position-only productions ====

theorem parseConfigProps_facts :
    ∀ (fuel : Nat) (t : Txt) (p : Nat) (acc : List ConfigProperty) {r : List ConfigProperty × Nat},
      parseConfigProps fuel t p acc = some r →
      p ≤ r.2 ∧ (p ≤ t.length → r.2 ≤ t.length)
  | 0, _, _, _, _, h => Option.noConfusion h
  | fuel + 1, t, p, acc, r, h => by
    unfold parseConfigProps at h
    cases hcp : parseConfigProperty t p with
    | none =>
      rw [hcp] at h
      cases h
      exact ⟨le_refl _, fun hp => hp⟩
    | some propp =>
      obtain ⟨prop, p'⟩ := propp
      rw [hcp] at h
      have hf := parseConfigProperty_some hcp
      have hrec := parseConfigProps_facts fuel t (skipSpaces t p') (acc ++ [prop]) h
      have hsk := skipSpaces_ge t p'
      have hsk' := skipSpaces_le hf.2
      exact ⟨by omega, fun _ => by omega⟩

theorem parseConfigProps_suff :
    ∀ (fuel : Nat) (t : Txt) (p : Nat) (acc : List ConfigProperty),
      t.length + 1 - p + 1 ≤ fuel → parseConfigProps fuel t p acc ≠ none
  | 0, t, p, _, hfuel => by omega
  | fuel + 1, t, p, acc, hfuel => by
    unfold parseConfigProps
    cases hcp : parseConfigProperty t p with
    | none => simp
    | some propp =>
      obtain ⟨prop, p'⟩ := propp
      have hf := parseConfigProperty_some hcp
      have hsk := skipSpaces_ge t p'
      have hsk' := skipSpaces_le hf.2
      exact parseConfigProps_suff fuel t (skipSpaces t p') (acc ++ [prop]) (by omega)

theorem parseConfig_facts {fuel : Nat} {t : Txt} {p : Nat} {r : Config × Nat}
    (h : parseConfig fuel t p = some (some r)) :
    p < r.2 ∧ r.2 ≤ t.length := by
  unfold parseConfig at h
  cases h1 : matchTok t "config".toList p with
  | none => rw [h1] at h; exact Option.noConfusion (Option.some.inj h)
  | some p1 =>
    rw [h1] at h
    dsimp only at h
    cases h2 : parseIdentifier t (skipInlineSpaces t p1) with
    | none => rw [h2] at h; exact Option.noConfusion (Option.some.inj h)
    | some np3 =>
      obtain ⟨nm, p3⟩ := np3
      rw [h2] at h
      dsimp only at h
      cases h4 : matchTok t [lbrace] (skipInlineSpaces t p3) with
      | none => rw [h4] at h; exact Option.noConfusion (Option.some.inj h)
      | some p5 =>
        rw [h4] at h
        dsimp only at h
        cases h5 : parseConfigProps fuel t (skipSpaces t p5) [] with
        | none => rw [h5] at h; exact Option.noConfusion h
        | some pr =>
          obtain ⟨props, p6⟩ := pr
          rw [h5] at h
          dsimp only at h
          cases h7 : matchTok t [rbrace] (skipSpaces t p6) with
          | none => rw [h7] at h; exact Option.noConfusion (Option.some.inj h)
          | some p8 =>
            rw [h7] at h
            dsimp only at h
            have hr := Option.some.inj (Option.some.inj h)
            have hr2 : r.2 = skipSpaces t p8 := by rw [← hr]
            have f1 := matchTok_lt h1 (by simp [String.toList])
            have f1' := (matchTok_bound h1 (by simp [String.toList])).2
            have f2a := skipInlineSpaces_ge t p1
            have f2b := skipInlineSpaces_le f1'
            have f2 := parseIdentifier_some h2
            have f3a := skipInlineSpaces_ge t p3
            have f3b := skipInlineSpaces_le f2.2.1
            have f4 := matchTok_ge h4
            have f4' := (matchTok_bound h4 (by simp)).2
            have f5a := skipSpaces_ge t p5
            have f5b := skipSpaces_le f4'
            have f5 := parseConfigProps_facts fuel t (skipSpaces t p5) [] h5
            have f6a := skipSpaces_ge t p6
            have f6b := skipSpaces_le (f5.2 (by omega))
            have f7 := matchTok_ge h7
            have f7' := (matchTok_bound h7 (by simp)).2
            have f8a := skipSpaces_ge t p8
            have f8b := skipSpaces_le f7'
            omega

theorem parseConfig_suff {fuel : Nat} {t : Txt} {p : Nat}
    (hfuel : t.length + 1 - p + 1 ≤ fuel) : parseConfig fuel t p ≠ none := by
  unfold parseConfig
  cases h1 : matchTok t "config".toList p with
  | none => simp
  | some p1 =>
    dsimp only
    cases h2 : parseIdentifier t (skipInlineSpaces t p1) with
    | none => simp
    | some np3 =>
      obtain ⟨nm, p3⟩ := np3
      dsimp only
      cases h4 : matchTok t [lbrace] (skipInlineSpaces t p3) with
      | none => simp
      | some p5 =>
        dsimp only
        have f1 := matchTok_lt h1 (by simp [String.toList])
        have f1' := (matchTok_bound h1 (by simp [String.toList])).2
        have f2a := skipInlineSpaces_ge t p1
        have f2b := skipInlineSpaces_le f1'
        have f2 := parseIdentifier_some h2
        have f3a := skipInlineSpaces_ge t p3
        have f3b := skipInlineSpaces_le f2.2.1
        have f4 := matchTok_lt h4 (by simp)
        have f4' := (matchTok_bound h4 (by simp)).2
        have f5a := skipSpaces_ge t p5
        have f5b := skipSpaces_le f4'
        have hsuff := parseConfigProps_suff fuel t (skipSpaces t p5) [] (by omega)
        cases h5 : parseConfigProps fuel t (skipSpaces t p5) [] with
        | none => exact absurd h5 hsuff
        | some pr =>
          obtain ⟨props, p6⟩ := pr
          dsimp only
          cases h7 : matchTok t [rbrace] (skipSpaces t p6) <;> simp

theorem parseMocksLoop_facts :
    ∀ (fuel : Nat) (t : Txt) (p : Nat) (acc : List Mock) {r : List Mock × Nat},
      parseMocksLoop fuel t p acc = some r →
      p ≤ r.2 ∧ (p ≤ t.length → r.2 ≤ t.length)
  | 0, _, _, _, _, h => Option.noConfusion h
  | fuel + 1, t, p, acc, r, h => by
    unfold parseMocksLoop at h
    cases hm : parseMock t p with
    | none => rw [hm] at h; cases h; exact ⟨le_refl _, fun hp => hp⟩
    | some mp =>
      obtain ⟨m, p'⟩ := mp
      rw [hm] at h
      have hf := parseMock_some hm
      have hrec := parseMocksLoop_facts fuel t p' (acc ++ [m]) h
      exact ⟨by omega, fun _ => by omega⟩

theorem parseMocksLoop_suff :
    ∀ (fuel : Nat) (t : Txt) (p : Nat) (acc : List Mock),
      t.length + 1 - p + 1 ≤ fuel → parseMocksLoop fuel t p acc ≠ none
  | 0, t, p, _, hfuel => by omega
  | fuel + 1, t, p, acc, hfuel => by
    unfold parseMocksLoop
    cases hm : parseMock t p with
    | none => simp
    | some mp =>
      obtain ⟨m, p'⟩ := mp
      have hf := parseMock_some hm
      exact parseMocksLoop_suff fuel t p' (acc ++ [m]) (by omega)

theorem parseMocksLoopSp_facts :
    ∀ (fuel : Nat) (t : Txt) (p : Nat) (acc : List Mock) {r : List Mock × Nat},
      parseMocksLoopSp fuel t p acc = some r →
      p ≤ r.2 ∧ (p ≤ t.length → r.2 ≤ t.length)
  | 0, _, _, _, _, h => Option.noConfusion h
  | fuel + 1, t, p, acc, r, h => by
    unfold parseMocksLoopSp at h
    cases hm : parseMock t p with
    | none => rw [hm] at h; cases h; exact ⟨le_refl _, fun hp => hp⟩
    | some mp =>
      obtain ⟨m, p'⟩ := mp
      rw [hm] at h
      have hf := parseMock_some hm
      have hsk := skipSpaces_ge t p'
      have hsk' := skipSpaces_le hf.2
      have hrec := parseMocksLoopSp_facts fuel t (skipSpaces t p') (acc ++ [m]) h
      exact ⟨by omega, fun _ => by omega⟩

theorem parseMocksLoopSp_suff :
    ∀ (fuel : Nat) (t : Txt) (p : Nat) (acc : List Mock),
      t.length + 1 - p + 1 ≤ fuel → parseMocksLoopSp fuel t p acc ≠ none
  | 0, t, p, _, hfuel => by omega
  | fuel + 1, t, p, acc, hfuel => by
    unfold parseMocksLoopSp
    cases hm : parseMock t p with
    | none => simp
    | some mp =>
      obtain ⟨m, p'⟩ := mp
      have hf := parseMock_some hm
      have hsk := skipSpaces_ge t p'
      have hsk' := skipSpaces_le hf.2
      exact parseMocksLoopSp_suff fuel t (skipSpaces t p') (acc ++ [m]) (by omega)

theorem parseAndMocksLoop_facts :
    ∀ (fuel : Nat) (t : Txt) (p : Nat) (acc : List Mock) {r : List Mock × Nat},
      parseAndMocksLoop fuel t p acc = some r →
      p ≤ r.2 ∧ (p ≤ t.length → r.2 ≤ t.length)
  | 0, _, _, _, _, h => Option.noConfusion h
  | fuel + 1, t, p, acc, r, h => by
    unfold parseAndMocksLoop at h
    cases hm : parseAndMock t p with
    | none => rw [hm] at h; cases h; exact ⟨le_refl _, fun hp => hp⟩
    | some mp =>
      obtain ⟨m, p'⟩ := mp
      rw [hm] at h
      have hf := parseAndMock_some hm
      have hsk := skipSpaces_ge t p'
      have hsk' := skipSpaces_le hf.2
      have hrec := parseAndMocksLoop_facts fuel t (skipSpaces t p') (acc ++ [m]) h
      exact ⟨by omega, fun _ => by omega⟩

theorem parseAndMocksLoop_suff :
    ∀ (fuel : Nat) (t : Txt) (p : Nat) (acc : List Mock),
      t.length + 1 - p + 1 ≤ fuel → parseAndMocksLoop fuel t p acc ≠ none
  | 0, t, p, _, hfuel => by omega
  | fuel + 1, t, p, acc, hfuel => by
    unfold parseAndMocksLoop
    cases hm : parseAndMock t p with
    | none => simp
    | some mp =>
      obtain ⟨m, p'⟩ := mp
      have hf := parseAndMock_some hm
      have hsk := skipSpaces_ge t p'
      have hsk' := skipSpaces_le hf.2
      exact parseAndMocksLoop_suff fuel t (skipSpaces t p') (acc ++ [m]) (by omega)

theorem parseConditionsLoop_facts :
    ∀ (fuel : Nat) (t : Txt) (p : Nat) (acc : List Condition) {r : List Condition × Nat},
      parseConditionsLoop fuel t p acc = some r →
      p ≤ r.2 ∧ (p ≤ t.length → r.2 ≤ t.length)
  | 0, _, _, _, _, h => Option.noConfusion h
  | fuel + 1, t, p, acc, r, h => by
    unfold parseConditionsLoop at h
    cases hm : parseCondition t p with
    | none => rw [hm] at h; cases h; exact ⟨le_refl _, fun hp => hp⟩
    | some cp =>
      obtain ⟨cnd, p'⟩ := cp
      rw [hm] at h
      have hf := parseCondition_some hm
      have hrec := parseConditionsLoop_facts fuel t p' (acc ++ [cnd]) h
      exact ⟨by omega, fun _ => by omega⟩

theorem parseConditionsLoop_suff :
    ∀ (fuel : Nat) (t : Txt) (p : Nat) (acc : List Condition),
      t.length + 1 - p + 1 ≤ fuel → parseConditionsLoop fuel t p acc ≠ none
  | 0, t, p, _, hfuel => by omega
  | fuel + 1, t, p, acc, hfuel => by
    unfold parseConditionsLoop
    cases hm : parseCondition t p with
    | none => simp
    | some cp =>
      obtain ⟨cnd, p'⟩ := cp
      have hf := parseCondition_some hm
      exact parseConditionsLoop_suff fuel t p' (acc ++ [cnd]) (by omega)

theorem parseInputOpt_facts (t : Txt) (p : Nat) :
    p ≤ (parseInputOpt t p).2 ∧ (p ≤ t.length → (parseInputOpt t p).2 ≤ t.length) := by
  unfold parseInputOpt
  cases hio : (do
      let p1 ← matchTok t "with".toList p
      let p2 := skipInlineSpaces t p1
      let p3 ← matchTok t "input".toList p2
      let p4 := skipInlineSpaces t p3
      let (v, p5) ← parseBacktickString t p4
      pure (v, skipSpaces t p5) : Option (Txt × Nat)) with
  | none => exact ⟨le_refl _, fun hp => hp⟩
  | some vp =>
    obtain ⟨v, q⟩ := vp
    simp only [bind, Option.bind_eq_some, Option.pure_def, Option.some.injEq,
      Prod.mk.injEq] at hio
    obtain ⟨p1, h1, p3, h3, ⟨bv, p5⟩, h5, hv, hq⟩ := hio
    dsimp only at *
    have f1 := matchTok_lt h1 (by simp [String.toList])
    have f1' := (matchTok_bound h1 (by simp [String.toList])).2
    have f2a := skipInlineSpaces_ge t p1
    have f2b := skipInlineSpaces_le f1'
    have f3 := matchTok_ge h3
    have f3' := (matchTok_bound h3 (by simp [String.toList])).2
    have f4a := skipInlineSpaces_ge t p3
    have f4b := skipInlineSpaces_le f3'
    have f5 := parseBacktickString_some h5
    have f6a := skipSpaces_ge t p5
    have f6b := skipSpaces_le f5.2
    subst hq
    exact ⟨by omega, fun _ => by omega⟩

theorem parseIt_facts {fuel : Nat} {t : Txt} {p : Nat} {r : It × Nat}
    (h : parseIt fuel t p = some (some r)) : p < r.2 ∧ r.2 ≤ t.length := by
  unfold parseIt at h
  dsimp only at h
  cases h1 : matchTok t "it".toList (skipSpaces t p) with
  | none => rw [h1] at h; exact Option.noConfusion (Option.some.inj h)
  | some p2 =>
    rw [h1] at h
    dsimp only at h
    cases h2 : matchTok t [dquote] (skipInlineSpaces t p2) with
    | none => rw [h2] at h; exact Option.noConfusion (Option.some.inj h)
    | some p4 =>
      rw [h2] at h
      dsimp only at h
      rw [pair_eta (takeRun (fun c => c ≠ dquote) t p4)] at h
      dsimp only at h
      cases h3 : matchTok t [dquote] ((takeRun (fun c => c ≠ dquote) t p4).2) with
      | none => rw [h3] at h; exact Option.noConfusion (Option.some.inj h)
      | some p6 =>
        rw [h3] at h
        dsimp only at h
        cases h4 : parseMocksLoop fuel t (skipSpaces t p6) [] with
        | none => rw [h4] at h; exact Option.noConfusion h
        | some mp =>
          obtain ⟨mocks, p8⟩ := mp
          rw [h4] at h
          dsimp only at h
          cases h5 : matchTok t "when".toList p8 with
          | none => rw [h5] at h; exact Option.noConfusion (Option.some.inj h)
          | some p9 =>
            rw [h5] at h
            dsimp only at h
            cases h6 : parseWhen t (skipInlineSpaces t p9) with
            | none => rw [h6] at h; exact Option.noConfusion (Option.some.inj h)
            | some wp =>
              obtain ⟨w, p11⟩ := wp
              rw [h6] at h
              dsimp only at h
              rw [pair_eta (parseInputOpt t (skipSpaces t p11))] at h
              dsimp only at h
              cases h7 : parseAndMocksLoop fuel t
                  ((parseInputOpt t (skipSpaces t p11)).2) [] with
              | none => rw [h7] at h; exact Option.noConfusion h
              | some ap =>
                obtain ⟨extraMocks, p14⟩ := ap
                rw [h7] at h
                dsimp only at h
                cases h8 : parseConditionsLoop fuel t p14 [] with
                | none => rw [h8] at h; exact Option.noConfusion h
                | some cp =>
                  obtain ⟨conds, p15⟩ := cp
                  rw [h8] at h
                  dsimp only at h
                  have hr := Option.some.inj (Option.some.inj h)
                  have hr2 : r.2 = p15 := by rw [← hr]
                  have f0 := skipSpaces_ge t p
                  have f1 := matchTok_lt h1 (by simp [String.toList])
                  have f1' := (matchTok_bound h1 (by simp [String.toList])).2
                  have f2a := skipInlineSpaces_ge t p2
                  have f2b := skipInlineSpaces_le f1'
                  have f2 := matchTok_ge h2
                  have f2' := (matchTok_bound h2 (by simp)).2
                  have f3a := takeRun_ge (fun c => c ≠ dquote) t p4
                  have f3b := takeRun_le (fun c => c ≠ dquote) f2'
                  have f3 := matchTok_ge h3
                  have f3' := (matchTok_bound h3 (by simp)).2
                  have f4a := skipSpaces_ge t p6
                  have f4b := skipSpaces_le f3'
                  have f4 := parseMocksLoop_facts fuel t (skipSpaces t p6) [] h4
                  have f5 := matchTok_ge h5
                  have f5' := (matchTok_bound h5 (by simp [String.toList])).2
                  have f6a := skipInlineSpaces_ge t p9
                  have f6b := skipInlineSpaces_le f5'
                  have f6 := parseWhen_some h6
                  have f7a := skipSpaces_ge t p11
                  have f7b := skipSpaces_le f6.2
                  have f7c := parseInputOpt_facts t (skipSpaces t p11)
                  have f7 := parseAndMocksLoop_facts fuel t
                    ((parseInputOpt t (skipSpaces t p11)).2) [] h7
                  have f8 := parseConditionsLoop_facts fuel t p14 [] h8
                  have hb : (parseInputOpt t (skipSpaces t p11)).2 ≤ t.length :=
                    f7c.2 (by omega)
                  omega

theorem parseIt_suff {fuel : Nat} {t : Txt} {p : Nat}
    (hfuel : t.length + 1 - p + 2 ≤ fuel) : parseIt fuel t p ≠ none := by
  unfold parseIt
  dsimp only
  cases h1 : matchTok t "it".toList (skipSpaces t p) with
  | none => simp
  | some p2 =>
    dsimp only
    cases h2 : matchTok t [dquote] (skipInlineSpaces t p2) with
    | none => simp
    | some p4 =>
      dsimp only
      rw [pair_eta (takeRun (fun c => c ≠ dquote) t p4)]
      dsimp only
      cases h3 : matchTok t [dquote] ((takeRun (fun c => c ≠ dquote) t p4).2) with
      | none => simp
      | some p6 =>
        dsimp only
        have f0 := skipSpaces_ge t p
        have f1 := matchTok_lt h1 (by simp [String.toList])
        have f1' := (matchTok_bound h1 (by simp [String.toList])).2
        have f2a := skipInlineSpaces_ge t p2
        have f2b := skipInlineSpaces_le f1'
        have f2 := matchTok_ge h2
        have f2' := (matchTok_bound h2 (by simp)).2
        have f3a := takeRun_ge (fun c => c ≠ dquote) t p4
        have f3b := takeRun_le (fun c => c ≠ dquote) f2'
        have f3 := matchTok_ge h3
        have f3' := (matchTok_bound h3 (by simp)).2
        have f4a := skipSpaces_ge t p6
        have f4b := skipSpaces_le f3'
        have hm := parseMocksLoop_suff fuel t (skipSpaces t p6) [] (by omega)
        cases h4 : parseMocksLoop fuel t (skipSpaces t p6) [] with
        | none => exact absurd h4 hm
        | some mp =>
          obtain ⟨mocks, p8⟩ := mp
          dsimp only
          have f4 := parseMocksLoop_facts fuel t (skipSpaces t p6) [] h4
          cases h5 : matchTok t "when".toList p8 with
          | none => simp
          | some p9 =>
            dsimp only
            cases h6 : parseWhen t (skipInlineSpaces t p9) with
            | none => simp
            | some wp =>
              obtain ⟨w, p11⟩ := wp
              dsimp only
              rw [pair_eta (parseInputOpt t (skipSpaces t p11))]
              dsimp only
              have f5 := matchTok_ge h5
              have f5' := (matchTok_bound h5 (by simp [String.toList])).2
              have f6a := skipInlineSpaces_ge t p9
              have f6b := skipInlineSpaces_le f5'
              have f6 := parseWhen_some h6
              have f7a := skipSpaces_ge t p11
              have f7b := skipSpaces_le f6.2
              have f7c := parseInputOpt_facts t (skipSpaces t p11)
              have hb : (parseInputOpt t (skipSpaces t p11)).2 ≤ t.length :=
                f7c.2 (by omega)
              have ha := parseAndMocksLoop_suff fuel t
                ((parseInputOpt t (skipSpaces t p11)).2) [] (by omega)
              cases h7 : parseAndMocksLoop fuel t
                  ((parseInputOpt t (skipSpaces t p11)).2) [] with
              | none => exact absurd h7 ha
              | some ap =>
                obtain ⟨extraMocks, p14⟩ := ap
                dsimp only
                have f7 := parseAndMocksLoop_facts fuel t
                  ((parseInputOpt t (skipSpaces t p11)).2) [] h7
                have hc := parseConditionsLoop_suff fuel t p14 [] (by omega)
                cases h8 : parseConditionsLoop fuel t p14 [] with
                | none => exact absurd h8 hc
                | some cp => simp

theorem parseIts_facts :
    ∀ (fuel : Nat) (t : Txt) (p : Nat) (acc : List It) {r : List It × Nat},
      parseIts fuel t p acc = some r →
      p ≤ r.2 ∧ (p ≤ t.length → r.2 ≤ t.length)
  | 0, _, _, _, _, h => Option.noConfusion h
  | fuel + 1, t, p, acc, r, h => by
    unfold parseIts at h
    cases hit : parseIt fuel t p with
    | none => rw [hit] at h; exact Option.noConfusion h
    | some o =>
      cases o with
      | none => rw [hit] at h; cases h; exact ⟨le_refl _, fun hp => hp⟩
      | some itp =>
        obtain ⟨it, p'⟩ := itp
        rw [hit] at h
        have hf := parseIt_facts hit
        have hrec := parseIts_facts fuel t p' (acc ++ [it]) h
        exact ⟨by omega, fun _ => by omega⟩

theorem parseIts_suff :
    ∀ (fuel : Nat) (t : Txt) (p : Nat) (acc : List It),
      t.length + 1 - p + 3 ≤ fuel → parseIts fuel t p acc ≠ none
  | 0, t, p, _, hfuel => by omega
  | fuel + 1, t, p, acc, hfuel => by
    unfold parseIts
    have hit0 := @parseIt_suff fuel t p (by omega)
    cases hit : parseIt fuel t p with
    | none => exact absurd hit hit0
    | some o =>
      cases o with
      | none => simp
      | some itp =>
        obtain ⟨it, p'⟩ := itp
        have hf := parseIt_facts hit
        exact parseIts_suff fuel t p' (acc ++ [it]) (by omega)

theorem parseDescribe_facts {fuel : Nat} {t : Txt} {p : Nat} {r : Describe × Nat}
    (h : parseDescribe fuel t p = some (some r)) : p < r.2 ∧ r.2 ≤ t.length := by
  unfold parseDescribe at h
  dsimp only at h
  cases h1 : matchTok t "describe".toList (skipSpaces t p) with
  | none => rw [h1] at h; exact Option.noConfusion (Option.some.inj h)
  | some p2 =>
    rw [h1] at h
    dsimp only at h
    cases h2 : matchTok t [dquote] (skipInlineSpaces t p2) with
    | none => rw [h2] at h; exact Option.noConfusion (Option.some.inj h)
    | some p4 =>
      rw [h2] at h
      dsimp only at h
      rw [pair_eta (takeRun (fun c => c ≠ dquote) t p4)] at h
      dsimp only at h
      cases h3 : matchTok t [dquote] ((takeRun (fun c => c ≠ dquote) t p4).2) with
      | none => rw [h3] at h; exact Option.noConfusion (Option.some.inj h)
      | some p6 =>
        rw [h3] at h
        dsimp only at h
        cases h4 : parseMocksLoopSp fuel t (skipSpaces t p6) [] with
        | none => rw [h4] at h; exact Option.noConfusion h
        | some mp =>
          obtain ⟨mocks, p8⟩ := mp
          rw [h4] at h
          dsimp only at h
          cases h5 : parseIts fuel t p8 [] with
          | none => rw [h5] at h; exact Option.noConfusion h
          | some ip =>
            obtain ⟨tests, p9⟩ := ip
            rw [h5] at h
            dsimp only at h
            have hr := Option.some.inj (Option.some.inj h)
            have hr2 : r.2 = p9 := by rw [← hr]
            have f0 := skipSpaces_ge t p
            have f1 := matchTok_lt h1 (by simp [String.toList])
            have f1' := (matchTok_bound h1 (by simp [String.toList])).2
            have f2a := skipInlineSpaces_ge t p2
            have f2b := skipInlineSpaces_le f1'
            have f2 := matchTok_ge h2
            have f2' := (matchTok_bound h2 (by simp)).2
            have f3a := takeRun_ge (fun c => c ≠ dquote) t p4
            have f3b := takeRun_le (fun c => c ≠ dquote) f2'
            have f3 := matchTok_ge h3
            have f3' := (matchTok_bound h3 (by simp)).2
            have f4a := skipSpaces_ge t p6
            have f4b := skipSpaces_le f3'
            have f4 := parseMocksLoopSp_facts fuel t (skipSpaces t p6) [] h4
            have f5 := parseIts_facts fuel t p8 [] h5
            omega

theorem parseDescribe_suff {fuel : Nat} {t : Txt} {p : Nat}
    (hfuel : t.length + 1 - p + 4 ≤ fuel) : parseDescribe fuel t p ≠ none := by
  unfold parseDescribe
  dsimp only
  cases h1 : matchTok t "describe".toList (skipSpaces t p) with
  | none => simp
  | some p2 =>
    dsimp only
    cases h2 : matchTok t [dquote] (skipInlineSpaces t p2) with
    | none => simp
    | some p4 =>
      dsimp only
      rw [pair_eta (takeRun (fun c => c ≠ dquote) t p4)]
      dsimp only
      cases h3 : matchTok t [dquote] ((takeRun (fun c => c ≠ dquote) t p4).2) with
      | none => simp
      | some p6 =>
        dsimp only
        have f0 := skipSpaces_ge t p
        have f1 := matchTok_lt h1 (by simp [String.toList])
        have f1' := (matchTok_bound h1 (by simp [String.toList])).2
        have f2a := skipInlineSpaces_ge t p2
        have f2b := skipInlineSpaces_le f1'
        have f2 := matchTok_ge h2
        have f2' := (matchTok_bound h2 (by simp)).2
        have f3a := takeRun_ge (fun c => c ≠ dquote) t p4
        have f3b := takeRun_le (fun c => c ≠ dquote) f2'
        have f3 := matchTok_ge h3
        have f3' := (matchTok_bound h3 (by simp)).2
        have f4a := skipSpaces_ge t p6
        have f4b := skipSpaces_le f3'
        have hm := parseMocksLoopSp_suff fuel t (skipSpaces t p6) [] (by omega)
        cases h4 : parseMocksLoopSp fuel t (skipSpaces t p6) [] with
        | none => exact absurd h4 hm
        | some mp =>
          obtain ⟨mocks, p8⟩ := mp
          dsimp only
          have f4 := parseMocksLoopSp_facts fuel t (skipSpaces t p6) [] h4
          have hi := parseIts_suff fuel t p8 [] (by omega)
          cases h5 : parseIts fuel t p8 [] with
          | none => exact absurd h5 hi
          | some ip => simp

-- ==== Auxiliary list facts ====

theorem takeWhile_maximal (pred : Char → Bool) :
    ∀ (l : List Char) {c : Char}, l[(l.takeWhile pred).length]? = some c → pred c = false
  | [], c, h => by simp at h
  | x :: xs, c, h => by
    by_cases hp : pred x
    · rw [List.takeWhile_cons, if_pos hp] at h
      simp only [List.length_cons, List.getElem?_cons_succ] at h
      exact takeWhile_maximal pred xs h
    · rw [List.takeWhile_cons, if_neg hp] at h
      simp only [List.length_nil, List.getElem?_cons_zero, Option.some.injEq] at h
      subst h
      exact Bool.not_eq_true _ ▸ hp

theorem charAt_after_countWhile {pred : Char → Bool} {t : Txt} {p : Nat} {c : Char}
    (h : charAt t (p + countWhile pred t p) = some c) : pred c = false := by
  unfold charAt at h
  unfold countWhile at h
  rw [← List.getElem?_drop] at h
  exact takeWhile_maximal pred (t.drop p) h

theorem countWhile_pos {pred : Char → Bool} {t : Txt} {p : Nat} {c : Char}
    (h : charAt t p = some c) (hc : pred c = true) : 1 ≤ countWhile pred t p := by
  unfold charAt at h
  have h0 : (t.drop p)[0]? = some c := by
    rw [List.getElem?_drop]; simpa using h
  cases hd : t.drop p with
  | nil => rw [hd] at h0; simp at h0
  | cons x xs =>
    rw [hd] at h0
    simp only [List.getElem?_cons_zero, Option.some.injEq] at h0
    subst h0
    unfold countWhile
    rw [hd, List.takeWhile_cons, if_pos hc]
    simp

theorem lineStartFrom_le (t : Txt) : ∀ i, lineStartFrom t i ≤ i
  | 0 => le_refl 0
  | i + 1 => by
    unfold lineStartFrom
    split
    · exact le_refl _
    · exact le_trans (lineStartFrom_le t i) (by omega)

theorem findLineStart_le (t : Txt) (p : Nat) : findLineStart t p ≤ min p t.length :=
  lineStartFrom_le t _

theorem findLineEnd_ge (t : Txt) (p : Nat) : min p t.length ≤ findLineEnd t p :=
  skipToEol_ge t _

theorem findLineEnd_le (t : Txt) (p : Nat) : findLineEnd t p ≤ t.length :=
  skipToEol_le (min_le_right p t.length)

theorem idxFold_some {t : Txt} {c : Char} :
    ∀ (l : List Nat) (acc : Option Nat),
      (∀ j, acc = some j → charAt t j = some c) →
      ∀ {i}, l.foldl (fun acc i => if charAt t i = some c then some i else acc) acc = some i →
      charAt t i = some c
  | [], acc, hacc, i, h => hacc i h
  | x :: xs, acc, hacc, i, h => by
    simp only [List.foldl_cons] at h
    by_cases hx : charAt t x = some c
    · rw [if_pos hx] at h
      exact idxFold_some xs (some x) (fun j hj => by cases hj; exact hx) h
    · rw [if_neg hx] at h
      exact idxFold_some xs acc hacc h

theorem idxFold_some_ne_none {t : Txt} {c : Char} :
    ∀ (l : List Nat) (k : Nat),
      l.foldl (fun acc i => if charAt t i = some c then some i else acc) (some k) ≠ none
  | [], k => by simp
  | x :: xs, k => by
    simp only [List.foldl_cons]
    by_cases hx : charAt t x = some c
    · rw [if_pos hx]; exact idxFold_some_ne_none xs x
    · rw [if_neg hx]; exact idxFold_some_ne_none xs k

theorem idxFold_hit {t : Txt} {c : Char} :
    ∀ (l : List Nat) (acc : Option Nat) {j}, j ∈ l → charAt t j = some c →
      l.foldl (fun acc i => if charAt t i = some c then some i else acc) acc ≠ none
  | [], _, j, hj, _ => absurd hj (List.not_mem_nil j)
  | x :: xs, acc, j, hj, hc => by
    simp only [List.foldl_cons]
    rcases List.mem_cons.mp hj with hj | hj
    · subst hj
      rw [if_pos hc]
      exact idxFold_some_ne_none xs j
    · by_cases hx : charAt t x = some c
      · rw [if_pos hx]; exact idxFold_hit xs (some x) hj hc
      · rw [if_neg hx]; exact idxFold_hit xs acc hj hc

theorem lastIdxOfChar_spec {t : Txt} {c : Char} {i : Nat}
    (h : lastIdxOfChar t c = some i) : i < t.length ∧ charAt t i = some c := by
  unfold lastIdxOfChar at h
  have := @idxFold_some t c (List.range t.length) none
    (fun j hj => Option.noConfusion hj) i h
  exact ⟨charAt_some_lt this, this⟩

theorem lastIdxOfChar_of_mem {t : Txt} {c : Char} (h : c ∈ t) :
    lastIdxOfChar t c ≠ none := by
  obtain ⟨n, hn, he⟩ := List.mem_iff_getElem.mp h
  unfold lastIdxOfChar
  refine idxFold_hit (List.range t.length) none (List.mem_range.mpr hn) ?_
  unfold charAt
  rw [List.getElem?_eq_getElem hn, he]

theorem sliceT_length (t : Txt) (a b : Nat) :
    (sliceT t a b).length = min (b - a) (t.length - a) := by
  simp [sliceT, List.length_take, List.length_drop]

-- ==== Identifier slices and `type::name` keys ====

theorem take_takeWhile_length (pred : Char → Bool) :
    ∀ l : List Char, l.take (l.takeWhile pred).length = l.takeWhile pred
  | [] => rfl
  | x :: xs => by
    by_cases hp : pred x
    · rw [List.takeWhile_cons, if_pos hp]
      simp [List.take_succ_cons, take_takeWhile_length pred xs]
    · rw [List.takeWhile_cons, if_neg hp]
      simp

theorem isIdentCont_of_start {c : Char} (h : isIdentStart c = true) : isIdentCont c = true := by
  unfold isIdentCont
  rw [h]
  rfl

theorem parseIdentifier_chars {t : Txt} {p p' : Nat} {nm : Txt}
    (h : parseIdentifier t p = some (nm, p')) : ∀ c ∈ nm, isIdentCont c = true := by
  unfold parseIdentifier at h
  cases hc : charAt t p with
  | none => rw [hc] at h; exact Option.noConfusion h
  | some c0 =>
    rw [hc] at h
    dsimp only at h
    by_cases hs : isIdentStart c0
    · rw [if_pos hs] at h
      cases h
      intro c hcmem
      have hdrop : t.drop p = c0 :: t.drop (p + 1) := by
        have hlt := charAt_some_lt hc
        rw [List.drop_eq_getElem_cons hlt]
        unfold charAt at hc
        rw [List.getElem?_eq_getElem hlt] at hc
        simp only [Option.some.injEq] at hc
        rw [hc]
      unfold sliceT at hcmem
      rw [hdrop] at hcmem
      have harith : p + 1 + countWhile isIdentCont t (p + 1) - p
          = (countWhile isIdentCont t (p + 1)) + 1 := by omega
      rw [harith] at hcmem
      simp only [List.take_succ_cons, List.mem_cons] at hcmem
      rcases hcmem with hcmem | hcmem
      · subst hcmem; exact isIdentCont_of_start hs
      · unfold countWhile at hcmem
        rw [take_takeWhile_length] at hcmem
        exact List.mem_takeWhile_imp hcmem
    · rw [if_neg hs] at h
      exact Option.noConfusion h

theorem no_colon_of_identCont {c : Char} (h : isIdentCont c = true) : c ≠ ':' := by
  intro he
  subst he
  simp [isIdentCont, isIdentStart] at h

theorem startsWithAt_colon {key : Txt} {i : Nat}
    (h : startsWithAt key [':', ':'] i = true) : key[i]? = some ':' := by
  unfold startsWithAt at h
  have hp : [':', ':'] <+: key.drop i := List.isPrefixOf_iff_prefix.mp h
  obtain ⟨rest, hrest⟩ := hp
  have h0 : (key.drop i)[0]? = some ':' := by rw [← hrest]; rfl
  rw [List.getElem?_drop] at h0
  simpa using h0

theorem find?_range' {p : Nat → Bool} :
    ∀ (n s m : Nat), s ≤ m → m < s + n → p m = true → (∀ k, s ≤ k → k < m → p k = false) →
      (List.range' s n).find? p = some m
  | 0, s, m, h1, h2, _, _ => by omega
  | n + 1, s, m, h1, h2, hp, hmin => by
    rw [List.range'_succ, List.find?_cons]
    by_cases hs : p s
    · have : s = m := by
        rcases Nat.eq_or_lt_of_le h1 with he | hlt
        · exact he
        · exact absurd hs (by rw [hmin s (le_refl s) hlt]; simp)
      rw [hs, this]
    · have hs' : p s = false := by
        revert hs; cases p s <;> simp
      rw [hs']
      have hne : s ≠ m := fun he => hs (he ▸ hp)
      exact find?_range' n (s + 1) m (by omega) (by omega) hp
        (fun k hk1 hk2 => hmin k (by omega) hk2)

theorem find?_range_eq_some {p : Nat → Bool} {n m : Nat} (hm : m < n) (hp : p m = true)
    (hmin : ∀ k < m, p k = false) : (List.range n).find? p = some m := by
  rw [List.range_eq_range']
  exact find?_range' n 0 m (Nat.zero_le m) (by omega) hp (fun k _ hk => hmin k hk)

theorem splitOn2Colons_mk (ty nm : Txt) (hty : ∀ c ∈ ty, c ≠ ':') (hnm : ∀ c ∈ nm, c ≠ ':') :
    splitOn2Colons (ty ++ [':', ':'] ++ nm) = (ty, nm) := by
  have hkey : ty ++ [':', ':'] ++ nm = ty ++ ([':', ':'] ++ nm) := by
    rw [List.append_assoc]
  have hfirst : firstSubIdx (ty ++ [':', ':'] ++ nm) [':', ':'] = some ty.length := by
    unfold firstSubIdx
    refine find?_range_eq_some ?_ ?_ ?_
    · rw [List.length_append, List.length_append]; simp; omega
    · unfold startsWithAt
      rw [hkey, List.drop_append_of_le_length (le_refl _), List.drop_length,
        List.nil_append]
      exact List.isPrefixOf_iff_prefix.mpr ⟨nm, rfl⟩
    · intro k hk
      by_contra hcon
      have hcon' : startsWithAt (ty ++ [':', ':'] ++ nm) [':', ':'] k = true := by
        revert hcon
        cases startsWithAt (ty ++ [':', ':'] ++ nm) [':', ':'] k <;> simp
      have hcolon := startsWithAt_colon hcon'
      have hkk : (ty ++ [':', ':'] ++ nm)[k]? = some (ty.get ⟨k, hk⟩) := by
        rw [hkey]
        rw [List.getElem?_append, if_pos hk]
        exact List.getElem?_eq_getElem hk
      rw [hkk] at hcolon
      simp only [Option.some.injEq] at hcolon
      exact hty _ (List.getElem_mem hk) hcolon
  unfold splitOn2Colons
  rw [hfirst]
  dsimp only
  have hdrop : (ty ++ [':', ':'] ++ nm).drop (ty.length + 2) = nm := by
    rw [hkey]
    rw [show ty.length + 2 = ty.length + 2 from rfl]
    rw [List.drop_append_eq_append_drop]
    simp
  rw [hdrop]
  have hnone : firstSubIdx nm [':', ':'] = none := by
    unfold firstSubIdx
    rw [List.find?_eq_none]
    intro i _
    by_contra hcon
    have hcon' : startsWithAt nm [':', ':'] i = true := by
      revert hcon
      cases startsWithAt nm [':', ':'] i <;> simp
    have hcolon := startsWithAt_colon hcon'
    have : (':' : Char) ∈ nm := by
      have hi : i < nm.length := by
        by_contra hge
        rw [List.getElem?_eq_none (by omega)] at hcolon
        exact Option.noConfusion hcolon
      rw [List.getElem?_eq_getElem hi] at hcolon
      simp only [Option.some.injEq] at hcolon
      exact hcolon ▸ List.getElem_mem hi
    exact hnm ':' this rfl
  rw [hnone]
  have htake : (ty ++ [':', ':'] ++ nm).take ty.length = ty := by
    rw [hkey, List.take_append_of_le_length (le_refl _), List.take_length]
  rw [htake]

-- ==== Association-list facts ====

theorem setA_forall {α : Type} {P : Txt × α → Prop} :
    ∀ {m : List (Txt × α)} {k : Txt} {v : α},
      (∀ kv ∈ m, P kv) → P (k, v) → ∀ kv ∈ setA m k v, P kv
  | [], k, v, _, hnew, kv, hkv => by
    unfold setA at hkv
    simp only [List.mem_singleton] at hkv
    exact hkv ▸ hnew
  | (k', v') :: rest, k, v, hall, hnew, kv, hkv => by
    unfold setA at hkv
    split at hkv
    · rcases List.mem_cons.mp hkv with h | h
      · exact h ▸ hnew
      · exact hall kv (List.mem_cons_of_mem _ h)
    · rcases List.mem_cons.mp hkv with h | h
      · exact hall kv (h ▸ List.mem_cons_self _ _)
      · exact setA_forall (fun x hx => hall x (List.mem_cons_of_mem _ hx)) hnew kv h

theorem lookupA_setA_self {α : Type} :
    ∀ (m : List (Txt × α)) (k : Txt) (v : α), lookupA (setA m k v) k = some v
  | [], k, v => by simp [setA, lookupA]
  | (k', v') :: rest, k, v => by
    unfold setA
    split
    · simp [lookupA]
    · next hne =>
      unfold lookupA
      rw [if_neg hne]
      exact lookupA_setA_self rest k v

theorem lookupA_forall {α : Type} {P : Txt × α → Prop} :
    ∀ {m : List (Txt × α)} {k : Txt} {v : α},
      (∀ kv ∈ m, P kv) → lookupA m k = some v → P (k, v)
  | [], k, v, _, hl => by simp [lookupA] at hl
  | (k', v') :: rest, k, v, hall, hl => by
    unfold lookupA at hl
    split at hl
    · next he =>
      cases hl
      exact he ▸ hall (k', v') (List.mem_cons_self _ _)
    · exact lookupA_forall (fun x hx => hall x (List.mem_cons_of_mem _ hx)) hl

-- ==== `parseVariable` state facts ====

theorem parseVariableS_err {t : Txt} {s e : PState}
    (h : parseVariableS t s = .error e) : e = s := by
  unfold parseVariableS at h
  cases h1 : parseIdentifier t s.pos with
  | none => rw [h1] at h; cases h; rfl
  | some typ =>
    obtain ⟨varType, p1⟩ := typ
    rw [h1] at h
    dsimp only at h
    cases h2 : parseIdentifier t (skipInlineSpaces t p1) with
    | none => rw [h2] at h; cases h; rfl
    | some nmp =>
      obtain ⟨name, p3⟩ := nmp
      rw [h2] at h
      dsimp only at h
      cases h3 : matchTok t ['='] (skipInlineSpaces t p3) with
      | none => rw [h3] at h; cases h; rfl
      | some p5 =>
        rw [h3] at h
        dsimp only at h
        cases h4 : parseBacktickString t (skipInlineSpaces t p5) with
        | none => rw [h4] at h; cases h; rfl
        | some vp =>
          obtain ⟨value, p7⟩ := vp
          rw [h4] at h
          dsimp only at h
          exact Except.noConfusion h

theorem parseVariableS_ok {t : Txt} {s s' : PState} {v : Variable}
    (h : parseVariableS t s = .ok (v, s')) :
    s.pos < s'.pos ∧ s'.pos ≤ t.length ∧ s'.diags = s.diags ∧
    s'.pipelineRanges = s.pipelineRanges ∧
    (∃ e, s'.variableRanges =
        setA s.variableRanges (v.varType ++ [':', ':'] ++ v.name) (s.pos, e) ∧
      RangeHasName t v.name (s.pos, e) ∧
      (∀ c ∈ v.varType, c ≠ ':') ∧ (∀ c ∈ v.name, c ≠ ':')) := by
  unfold parseVariableS at h
  cases h1 : parseIdentifier t s.pos with
  | none => rw [h1] at h; exact Except.noConfusion h
  | some typ =>
    obtain ⟨varType, p1⟩ := typ
    rw [h1] at h
    dsimp only at h
    cases h2 : parseIdentifier t (skipInlineSpaces t p1) with
    | none => rw [h2] at h; exact Except.noConfusion h
    | some nmp =>
      obtain ⟨name, p3⟩ := nmp
      rw [h2] at h
      dsimp only at h
      cases h3 : matchTok t ['='] (skipInlineSpaces t p3) with
      | none => rw [h3] at h; exact Except.noConfusion h
      | some p5 =>
        rw [h3] at h
        dsimp only at h
        cases h4 : parseBacktickString t (skipInlineSpaces t p5) with
        | none => rw [h4] at h; exact Except.noConfusion h
        | some vp =>
          obtain ⟨value, p7⟩ := vp
          rw [h4] at h
          dsimp only at h
          have hv : v = ⟨varType, name, value⟩ ∧
              s' = { s with
                  pos := skipSpaces t p7
                  variableRanges := setA s.variableRanges
                    (varType ++ [':', ':'] ++ name) (s.pos, p7) } := by
            have := Except.ok.inj h
            exact ⟨(congrArg Prod.fst this).symm, (congrArg Prod.snd this).symm⟩
          obtain ⟨hv1, hv2⟩ := hv
          have f1 := parseIdentifier_some h1
          have f2a := skipInlineSpaces_ge t p1
          have f2b := skipInlineSpaces_le f1.2.1
          have f2 := parseIdentifier_some h2
          have f3a := skipInlineSpaces_ge t p3
          have f3b := skipInlineSpaces_le f2.2.1
          have f3 := matchTok_ge h3
          have f3' := (matchTok_bound h3 (by simp)).2
          have f4a := skipInlineSpaces_ge t p5
          have f4b := skipInlineSpaces_le f3'
          have f4 := parseBacktickString_some h4
          have f5a := skipSpaces_ge t p7
          have f5b := skipSpaces_le f4.2
          subst hv1 hv2
          refine ⟨by simp; omega, by simp; omega, rfl, rfl, p7, rfl, ?_, ?_, ?_⟩
          · -- the name occurs at its identifier position inside the range
            have hlen : name.length = p3 - skipInlineSpaces t p1 := by
              rw [f2.2.2, sliceT_length]
              omega
            refine ⟨skipInlineSpaces t p1, by dsimp only; omega,
              by dsimp only; omega, by dsimp only; omega, ?_⟩
            dsimp only
            have harg : skipInlineSpaces t p1 + name.length = p3 := by omega
            rw [harg, f2.2.2]
          · exact fun c hc => no_colon_of_identCont (parseIdentifier_chars h1 c hc)
          · exact fun c hc => no_colon_of_identCont (parseIdentifier_chars h2 c hc)

/-- Preservation of the variable-range invariant by `parseVariable`. -/
theorem parseVariableS_rangesOk {t : Txt} {s s' : PState} {v : Variable}
    (h : parseVariableS t s = .ok (v, s'))
    (hs : VarRangesOk t s.variableRanges) : VarRangesOk t s'.variableRanges := by
  obtain ⟨-, -, -, -, e, hset, hrn, hty, hnm⟩ := parseVariableS_ok h
  rw [hset]
  refine setA_forall hs ?_
  unfold RangeHasName at hrn ⊢
  rw [splitOn2Colons_mk v.varType v.name hty hnm]
  exact hrn

-- ==== Result-branch head facts ====

theorem parseResultBranchHead_err {t : Txt} {s e : PState}
    (h : parseResultBranchHead t s = .error e) :
    e.pipelineRanges = s.pipelineRanges ∧ e.variableRanges = s.variableRanges ∧
    (DiagsOk t s.diags → DiagsOk t e.diags) := by
  unfold parseResultBranchHead at h
  dsimp only at h
  cases h1 : parseIdentifier t (skipSpaces t s.pos) with
  | none => rw [h1] at h; cases h; exact ⟨rfl, rfl, id⟩
  | some bi =>
    obtain ⟨branchIdent, p1⟩ := bi
    rw [h1] at h
    dsimp only at h
    cases h2 : matchTok t ['('] p1 with
    | none => rw [h2] at h; cases h; exact ⟨rfl, rfl, id⟩
    | some p2 =>
      rw [h2] at h
      dsimp only at h
      cases h3 : parseNumber t p2 with
      | none => rw [h3] at h; cases h; exact ⟨rfl, rfl, id⟩
      | some scp =>
        obtain ⟨statusCode, p3⟩ := scp
        rw [h3] at h
        dsimp only at h
        have hnum := parseNumber_some h3
        -- the post-validation state: diagnostics possibly extended by one
        -- valid entry, ranges unchanged
        have hpr : (if statusCode < 100 || 599 < statusCode then
            report s ("Invalid HTTP status code: " ++ Nat.repr statusCode)
              (p3 - (Nat.repr statusCode).length) p3 .error
          else s).pipelineRanges = s.pipelineRanges := by split <;> rfl
        have hvr : (if statusCode < 100 || 599 < statusCode then
            report s ("Invalid HTTP status code: " ++ Nat.repr statusCode)
              (p3 - (Nat.repr statusCode).length) p3 .error
          else s).variableRanges = s.variableRanges := by split <;> rfl
        have hdg : DiagsOk t s.diags → DiagsOk t
            (if statusCode < 100 || 599 < statusCode then
              report s ("Invalid HTTP status code: " ++ Nat.repr statusCode)
                (p3 - (Nat.repr statusCode).length) p3 .error
            else s).diags := by
          split
          · intro hd d hd'
            unfold report at hd'
            simp only [List.mem_append, List.mem_singleton] at hd'
            rcases hd' with hd' | hd'
            · exact hd d hd'
            · subst hd'
              exact ⟨Nat.sub_le _ _, hnum.2⟩
          · exact id
        cases h4 : matchTok t [')'] p3 with
        | none =>
          rw [h4] at h
          dsimp only at h
          cases h
          exact ⟨hpr, hvr, hdg⟩
        | some p4 =>
          rw [h4] at h
          dsimp only at h
          cases h5 : matchTok t [':'] p4 with
          | none =>
            rw [h5] at h
            dsimp only at h
            cases h
            exact ⟨hpr, hvr, hdg⟩
          | some p5 =>
            rw [h5] at h
            dsimp only at h
            exact Except.noConfusion h

theorem parseResultBranchHead_ok {t : Txt} {s s1 : PState} {bt : ResultBranchType}
    {code : Nat} (h : parseResultBranchHead t s = .ok ((bt, code), s1)) :
    s.pos < s1.pos ∧ s1.pos ≤ t.length ∧
    s1.pipelineRanges = s.pipelineRanges ∧ s1.variableRanges = s.variableRanges ∧
    (∃ p3, s1.pos = p3 + 2 ∧ p3 ≤ t.length ∧
      ((code < 100 ∨ 599 < code) →
        s1.diags = s.diags ++
          [⟨"Invalid HTTP status code: " ++ Nat.repr code,
            p3 - (Nat.repr code).length, p3, Severity.error⟩]) ∧
      (100 ≤ code ∧ code ≤ 599 → s1.diags = s.diags)) := by
  unfold parseResultBranchHead at h
  dsimp only at h
  cases h1 : parseIdentifier t (skipSpaces t s.pos) with
  | none => rw [h1] at h; exact Except.noConfusion h
  | some bi =>
    obtain ⟨branchIdent, p1⟩ := bi
    rw [h1] at h
    dsimp only at h
    cases h2 : matchTok t ['('] p1 with
    | none => rw [h2] at h; exact Except.noConfusion h
    | some p2 =>
      rw [h2] at h
      dsimp only at h
      cases h3 : parseNumber t p2 with
      | none => rw [h3] at h; exact Except.noConfusion h
      | some scp =>
        obtain ⟨statusCode, p3⟩ := scp
        rw [h3] at h
        dsimp only at h
        cases h4 : matchTok t [')'] p3 with
        | none => rw [h4] at h; exact Except.noConfusion h
        | some p4 =>
          rw [h4] at h
          dsimp only at h
          cases h5 : matchTok t [':'] p4 with
          | none => rw [h5] at h; exact Except.noConfusion h
          | some p5 =>
            rw [h5] at h
            dsimp only at h
            have hinj := Except.ok.inj h
            have hbt : bt = (if branchIdent = "ok".toList then ResultBranchType.okB
                else if branchIdent = "default".toList then ResultBranchType.defaultB
                else ResultBranchType.customB branchIdent) := by
              have := congrArg (fun x => x.1.1) hinj
              simpa using this.symm
            have hcode : code = statusCode := by
              have := congrArg (fun x => x.1.2) hinj
              simpa using this.symm
            have hs1 : s1 = { (if statusCode < 100 || 599 < statusCode then
                report s ("Invalid HTTP status code: " ++ Nat.repr statusCode)
                  (p3 - (Nat.repr statusCode).length) p3 .error
              else s) with pos := p5 } := by
              have := congrArg (fun x => x.2) hinj
              simpa using this.symm
            have f0 := skipSpaces_ge t s.pos
            have f1 := parseIdentifier_some h1
            have f2 := matchTok_some h2
            have f2' := (matchTok_bound h2 (by simp)).2
            have f3 := parseNumber_some h3
            have f4' := (matchTok_bound h4 (by simp)).2
            have f5' := (matchTok_bound h5 (by simp)).2
            have he2 : p2 = p1 + 1 := by
              have := (matchTok_some h2).1; simp at this; omega
            have he4 : p4 = p3 + 1 := by
              have := (matchTok_some h4).1; simp at this; omega
            have he5 : p5 = p4 + 1 := by
              have := (matchTok_some h5).1; simp at this; omega
            have hpos : s1.pos = p5 := by rw [hs1]
            subst hcode
            refine ⟨by omega, by omega, ?_, ?_, p3, by omega, f3.2, ?_, ?_⟩
            · rw [hs1]; split <;> rfl
            · rw [hs1]; split <;> rfl
            · intro hout
              rw [hs1]
              rw [if_pos (by rcases hout with h | h <;> simp [h])]
              rfl
            · intro hin
              rw [hs1]
              rw [if_neg (by simp; omega)]

/-- The status-code head preserves the parser-state invariant. -/
theorem parseResultBranchHead_SInv {t : Txt} {s s1 : PState} {bt : ResultBranchType}
    {code : Nat} (h : parseResultBranchHead t s = .ok ((bt, code), s1)) :
    SInv t s → SInv t s1 := by
  obtain ⟨-, -, hpr, hvr, p3, -, hp3, hout, hin⟩ := parseResultBranchHead_ok h
  intro ⟨hd, hp, hv⟩
  refine ⟨?_, hpr ▸ hp, hvr ▸ hv⟩
  by_cases hc : code < 100 ∨ 599 < code
  · rw [hout hc]
    intro d hd'
    simp only [List.mem_append, List.mem_singleton] at hd'
    rcases hd' with hd' | hd'
    · exact hd d hd'
    · subst hd'
      exact ⟨Nat.sub_le _ _, hp3⟩
  · rw [hin (by omega)]
    exact hd

/-- Invariants of the mutually recursive pipeline-step and result-branch
productions: successful runs advance the cursor within the text, and both
success and in-band failure preserve the parser-state invariant. -/
theorem pipelineClusterFacts : ∀ (fuel : Nat) (t : Txt),
    (∀ s acc l s', parsePipelineStepsF fuel t s acc = some (.ok (l, s')) →
      s.pos ≤ s'.pos ∧ (s.pos ≤ t.length → s'.pos ≤ t.length) ∧
      (SInv t s → SInv t s')) ∧
    (∀ s acc e, parsePipelineStepsF fuel t s acc = some (.error e) →
      (SInv t s → SInv t e)) ∧
    (∀ s st s', parsePipelineStepF fuel t s = some (.ok (st, s')) →
      s.pos < s'.pos ∧ s'.pos ≤ t.length ∧ (SInv t s → SInv t s')) ∧
    (∀ s e, parsePipelineStepF fuel t s = some (.error e) →
      (SInv t s → SInv t e)) ∧
    (∀ s st s', parseResultStepF fuel t s = some (.ok (st, s')) →
      s.pos < s'.pos ∧ s'.pos ≤ t.length ∧ (SInv t s → SInv t s')) ∧
    (∀ s e, parseResultStepF fuel t s = some (.error e) →
      (SInv t s → SInv t e)) ∧
    (∀ s acc l s', parseResultBranchesF fuel t s acc = some (.ok (l, s')) →
      s.pos ≤ s'.pos ∧ (s.pos ≤ t.length → s'.pos ≤ t.length) ∧
      (SInv t s → SInv t s')) ∧
    (∀ s acc e, parseResultBranchesF fuel t s acc = some (.error e) →
      (SInv t s → SInv t e)) ∧
    (∀ s br s', parseResultBranchF fuel t s = some (.ok (br, s')) →
      s.pos < s'.pos ∧ s'.pos ≤ t.length ∧ (SInv t s → SInv t s')) ∧
    (∀ s e, parseResultBranchF fuel t s = some (.error e) →
      (SInv t s → SInv t e)) := by
  intro fuel
  induction fuel with
  | zero =>
    intro t
    refine ⟨?_, ?_, ?_, ?_, ?_, ?_, ?_, ?_, ?_, ?_⟩ <;> intro _ <;> intros <;>
      simp_all [parsePipelineStepsF, parsePipelineStepF, parseResultStepF,
        parseResultBranchesF, parseResultBranchF]
  | succ fuel ih =>
    intro t
    obtain ⟨ihStepsOk, ihStepsErr, ihStepOk, ihStepErr, ihRsOk, ihRsErr,
      ihBrsOk, ihBrsErr, ihBrOk, ihBrErr⟩ := ih t
    refine ⟨?_, ?_, ?_, ?_, ?_, ?_, ?_, ?_, ?_, ?_⟩
    · -- parsePipelineStepsF, ok
      intro s acc l s' h
      rw [parsePipelineStepsF] at h
      by_cases hsw : startsWithAt t ['|', '>'] (skipSpaces t s.pos)
      · rw [if_pos hsw] at h
        cases hstep : parsePipelineStepF fuel t { s with pos := skipSpaces t s.pos } with
        | none => rw [hstep] at h; exact Option.noConfusion h
        | some r =>
          rw [hstep] at h
          cases r with
          | error e =>
            dsimp only at h
            exact Except.noConfusion (Option.some.inj h)
          | ok p =>
            obtain ⟨st, s1⟩ := p
            dsimp only at h
            obtain ⟨ha, hb, hc⟩ := ihStepOk _ _ _ hstep
            obtain ⟨ha', hb', hc'⟩ := ihStepsOk _ _ _ _ h
            have hsp := skipSpaces_ge t s.pos
            dsimp only at ha hb
            refine ⟨by omega, fun _ => hb' hb, fun hi => hc' (hc ?_)⟩
            exact ⟨hi.1, hi.2.1, hi.2.2⟩
      · rw [if_neg hsw] at h
        have hinj := Except.ok.inj (Option.some.inj h)
        have hs' : s = s' := congrArg Prod.snd hinj
        subst hs'
        exact ⟨le_refl _, fun hi => hi, fun hi => hi⟩
    · -- parsePipelineStepsF, error
      intro s acc e h
      rw [parsePipelineStepsF] at h
      by_cases hsw : startsWithAt t ['|', '>'] (skipSpaces t s.pos)
      · rw [if_pos hsw] at h
        cases hstep : parsePipelineStepF fuel t { s with pos := skipSpaces t s.pos } with
        | none => rw [hstep] at h; exact Option.noConfusion h
        | some r =>
          rw [hstep] at h
          cases r with
          | error e' =>
            dsimp only at h
            have he : e' = e := Except.error.inj (Option.some.inj h)
            subst he
            intro hi
            exact ihStepErr _ _ hstep ⟨hi.1, hi.2.1, hi.2.2⟩
          | ok p =>
            obtain ⟨st, s1⟩ := p
            dsimp only at h
            intro hi
            exact ihStepsErr _ _ _ h ((ihStepOk _ _ _ hstep).2.2 ⟨hi.1, hi.2.1, hi.2.2⟩)
      · rw [if_neg hsw] at h
        exact Except.noConfusion (Option.some.inj h)
    · -- parsePipelineStepF, ok
      intro s st s' h
      rw [parsePipelineStepF] at h
      cases hrs : parseResultStepF fuel t s with
      | none => rw [hrs] at h; exact Option.noConfusion h
      | some r =>
        rw [hrs] at h
        cases r with
        | ok p =>
          dsimp only at h
          have hp : p = (st, s') := Except.ok.inj (Option.some.inj h)
          subst hp
          exact ihRsOk _ _ _ hrs
        | error e =>
          dsimp only at h
          cases hreg : parseRegularStep t s.pos with
          | some q =>
            obtain ⟨st0, p'⟩ := q
            rw [hreg] at h
            dsimp only at h
            have hinj := Except.ok.inj (Option.some.inj h)
            have hst : st0 = st := congrArg Prod.fst hinj
            have hs' : ({ e with pos := p' } : PState) = s' := congrArg Prod.snd hinj
            obtain ⟨ha, hb⟩ := parseRegularStep_some hreg
            refine ⟨?_, ?_, ?_⟩
            · rw [← hs']; dsimp only; omega
            · rw [← hs']; dsimp only; exact hb
            · intro hi
              have he := ihRsErr _ _ hrs hi
              rw [← hs']
              exact ⟨he.1, he.2.1, he.2.2⟩
          | none =>
            rw [hreg] at h
            dsimp only at h
            exact Except.noConfusion (Option.some.inj h)
    · -- parsePipelineStepF, error
      intro s e h
      rw [parsePipelineStepF] at h
      cases hrs : parseResultStepF fuel t s with
      | none => rw [hrs] at h; exact Option.noConfusion h
      | some r =>
        rw [hrs] at h
        cases r with
        | ok p =>
          dsimp only at h
          exact Except.noConfusion (Option.some.inj h)
        | error e' =>
          dsimp only at h
          cases hreg : parseRegularStep t s.pos with
          | some q =>
            obtain ⟨st0, p'⟩ := q
            rw [hreg] at h
            dsimp only at h
            exact Except.noConfusion (Option.some.inj h)
          | none =>
            rw [hreg] at h
            dsimp only at h
            have he : ({ e' with pos := s.pos } : PState) = e :=
              Except.error.inj (Option.some.inj h)
            intro hi
            have h2 := ihRsErr _ _ hrs hi
            rw [← he]
            exact ⟨h2.1, h2.2.1, h2.2.2⟩
    · -- parseResultStepF, ok
      intro s st s' h
      rw [parseResultStepF] at h
      dsimp only at h
      cases h1 : matchTok t ['|', '>'] (skipSpaces t s.pos) with
      | none =>
        rw [h1] at h
        dsimp only at h
        exact Except.noConfusion (Option.some.inj h)
      | some p2 =>
        rw [h1] at h
        dsimp only at h
        cases h2 : matchTok t "result".toList (skipInlineSpaces t p2) with
        | none =>
          rw [h2] at h
          dsimp only at h
          exact Except.noConfusion (Option.some.inj h)
        | some p4 =>
          rw [h2] at h
          dsimp only at h
          cases h3 : parseResultBranchesF fuel t
              { s with pos := skipSpaces t p4 } [] with
          | none => rw [h3] at h; exact Option.noConfusion h
          | some r =>
            rw [h3] at h
            cases r with
            | error e =>
              dsimp only at h
              exact Except.noConfusion (Option.some.inj h)
            | ok p =>
              obtain ⟨branches, s1⟩ := p
              dsimp only at h
              have hinj := Except.ok.inj (Option.some.inj h)
              have hs' : s1 = s' := congrArg Prod.snd hinj
              subst hs'
              obtain ⟨ha, hb, hc⟩ := ihBrsOk _ _ _ _ h3
              dsimp only at ha hb
              have g0 := skipSpaces_ge t s.pos
              have g1 := matchTok_ge h1
              have g1' := (matchTok_bound h1 (by simp)).1
              have g2 := skipInlineSpaces_ge t p2
              have g3 := (matchTok_bound h2 (by simp)).2
              have g4 := skipSpaces_le g3
              have g5 := skipSpaces_ge t p4
              have g6 := matchTok_ge h2
              have he1 := (matchTok_some h1).1
              simp only [List.length_cons, List.length_nil] at he1
              refine ⟨by omega, hb (by omega), fun hi => hc ⟨hi.1, hi.2.1, hi.2.2⟩⟩
    · -- parseResultStepF, error
      intro s e h
      rw [parseResultStepF] at h
      dsimp only at h
      cases h1 : matchTok t ['|', '>'] (skipSpaces t s.pos) with
      | none =>
        rw [h1] at h
        dsimp only at h
        have he : s = e := Except.error.inj (Option.some.inj h)
        exact he ▸ id
      | some p2 =>
        rw [h1] at h
        dsimp only at h
        cases h2 : matchTok t "result".toList (skipInlineSpaces t p2) with
        | none =>
          rw [h2] at h
          dsimp only at h
          have he : s = e := Except.error.inj (Option.some.inj h)
          exact he ▸ id
        | some p4 =>
          rw [h2] at h
          dsimp only at h
          cases h3 : parseResultBranchesF fuel t
              { s with pos := skipSpaces t p4 } [] with
          | none => rw [h3] at h; exact Option.noConfusion h
          | some r =>
            rw [h3] at h
            cases r with
            | error e' =>
              dsimp only at h
              have he : e' = e := Except.error.inj (Option.some.inj h)
              subst he
              intro hi
              exact ihBrsErr _ _ _ h3 ⟨hi.1, hi.2.1, hi.2.2⟩
            | ok p =>
              obtain ⟨branches, s1⟩ := p
              dsimp only at h
              exact Except.noConfusion (Option.some.inj h)
    · -- parseResultBranchesF, ok
      intro s acc l s' h
      rw [parseResultBranchesF] at h
      cases hbr : parseResultBranchF fuel t s with
      | none => rw [hbr] at h; exact Option.noConfusion h
      | some r =>
        rw [hbr] at h
        cases r with
        | error e =>
          dsimp only at h
          have hinj := Except.ok.inj (Option.some.inj h)
          have hs' : ({ e with pos := s.pos } : PState) = s' := congrArg Prod.snd hinj
          refine ⟨?_, ?_, ?_⟩
          · rw [← hs']
          · rw [← hs']; exact fun hp => hp
          · intro hi
            have he := ihBrErr _ _ hbr hi
            rw [← hs']
            exact ⟨he.1, he.2.1, he.2.2⟩
        | ok p =>
          obtain ⟨br, s1⟩ := p
          dsimp only at h
          obtain ⟨ha, hb, hc⟩ := ihBrOk _ _ _ hbr
          obtain ⟨ha', hb', hc'⟩ := ihBrsOk _ _ _ _ h
          exact ⟨by omega, fun _ => hb' hb, fun hi => hc' (hc hi)⟩
    · -- parseResultBranchesF, error
      intro s acc e h
      rw [parseResultBranchesF] at h
      cases hbr : parseResultBranchF fuel t s with
      | none => rw [hbr] at h; exact Option.noConfusion h
      | some r =>
        rw [hbr] at h
        cases r with
        | error e' =>
          dsimp only at h
          exact Except.noConfusion (Option.some.inj h)
        | ok p =>
          obtain ⟨br, s1⟩ := p
          dsimp only at h
          intro hi
          exact ihBrsErr _ _ _ h ((ihBrOk _ _ _ hbr).2.2 hi)
    · -- parseResultBranchF, ok
      intro s br s' h
      rw [parseResultBranchF] at h
      cases hhd : parseResultBranchHead t s with
      | error e =>
        rw [hhd] at h
        dsimp only at h
        exact Except.noConfusion (Option.some.inj h)
      | ok q =>
        obtain ⟨⟨bt, code⟩, s1⟩ := q
        rw [hhd] at h
        dsimp only at h
        cases hst : parsePipelineStepsF fuel t
            { s1 with pos := skipSpaces t s1.pos } [] with
        | none => rw [hst] at h; exact Option.noConfusion h
        | some r =>
          rw [hst] at h
          cases r with
          | error e =>
            dsimp only at h
            exact Except.noConfusion (Option.some.inj h)
          | ok p =>
            obtain ⟨steps, s2⟩ := p
            dsimp only at h
            have hinj := Except.ok.inj (Option.some.inj h)
            have hs' : s2 = s' := congrArg Prod.snd hinj
            subst hs'
            obtain ⟨ha, hb, hc⟩ := ihStepsOk _ _ _ _ hst
            dsimp only at ha hb
            obtain ⟨g1, g2, -, -, -⟩ := parseResultBranchHead_ok hhd
            have g3 := skipSpaces_ge t s1.pos
            have g4 := skipSpaces_le g2
            refine ⟨by omega, hb (by omega), ?_⟩
            intro hi
            have hi1 := parseResultBranchHead_SInv hhd hi
            exact hc ⟨hi1.1, hi1.2.1, hi1.2.2⟩
    · -- parseResultBranchF, error
      intro s e h
      rw [parseResultBranchF] at h
      cases hhd : parseResultBranchHead t s with
      | error e' =>
        rw [hhd] at h
        dsimp only at h
        have he : e' = e := Except.error.inj (Option.some.inj h)
        subst he
        intro hi
        obtain ⟨ha, hb, hc⟩ := parseResultBranchHead_err hhd
        exact ⟨hc hi.1, ha ▸ hi.2.1, hb ▸ hi.2.2⟩
      | ok q =>
        obtain ⟨⟨bt, code⟩, s1⟩ := q
        rw [hhd] at h
        dsimp only at h
        cases hst : parsePipelineStepsF fuel t
            { s1 with pos := skipSpaces t s1.pos } [] with
        | none => rw [hst] at h; exact Option.noConfusion h
        | some r =>
          rw [hst] at h
          cases r with
          | error e' =>
            dsimp only at h
            have he : e' = e := Except.error.inj (Option.some.inj h)
            subst he
            intro hi
            have hi1 := parseResultBranchHead_SInv hhd hi
            exact ihStepsErr _ _ _ hst ⟨hi1.1, hi1.2.1, hi1.2.2⟩
          | ok p =>
            obtain ⟨steps, s2⟩ := p
            dsimp only at h
            exact Except.noConfusion (Option.some.inj h)

/-- Fuel sufficiency for the mutually recursive pipeline-step and
result-branch productions: with fuel at least `8*(|t|+1-pos) + D` (a
per-production constant `D`), the fueled run never reports fuel
exhaustion. -/
theorem pipelineClusterSuff : ∀ (fuel : Nat) (t : Txt),
    (∀ s acc, s.pos ≤ t.length → 8 * (t.length + 1 - s.pos) + 3 ≤ fuel →
      parsePipelineStepsF fuel t s acc ≠ none) ∧
    (∀ s, s.pos ≤ t.length → 8 * (t.length + 1 - s.pos) + 2 ≤ fuel →
      parsePipelineStepF fuel t s ≠ none) ∧
    (∀ s, s.pos ≤ t.length → 8 * (t.length + 1 - s.pos) + 1 ≤ fuel →
      parseResultStepF fuel t s ≠ none) ∧
    (∀ s acc, s.pos ≤ t.length → 8 * (t.length + 1 - s.pos) + 2 ≤ fuel →
      parseResultBranchesF fuel t s acc ≠ none) ∧
    (∀ s, s.pos ≤ t.length → 8 * (t.length + 1 - s.pos) + 1 ≤ fuel →
      parseResultBranchF fuel t s ≠ none) := by
  intro fuel
  induction fuel with
  | zero =>
    intro t
    refine ⟨?_, ?_, ?_, ?_, ?_⟩ <;> intros <;> omega
  | succ fuel ih =>
    intro t
    obtain ⟨ihSteps, ihStep, ihRs, ihBrs, ihBr⟩ := ih t
    obtain ⟨fStepsOk, -, fStepOk, -, -, -, fBrsOk, -, fBrOk, -⟩ :=
      pipelineClusterFacts fuel t
    refine ⟨?_, ?_, ?_, ?_, ?_⟩
    · -- parsePipelineStepsF
      intro s acc hs hfuel
      rw [parsePipelineStepsF]
      by_cases hsw : startsWithAt t ['|', '>'] (skipSpaces t s.pos)
      · rw [if_pos hsw]
        have hp1a := skipSpaces_ge t s.pos
        have hp1b := skipSpaces_le hs
        cases hstep : parsePipelineStepF fuel t { s with pos := skipSpaces t s.pos } with
        | none =>
          exact absurd hstep (ihStep _ (by dsimp only; omega) (by dsimp only; omega))
        | some r =>
          cases r with
          | error e => exact fun hc => Option.noConfusion hc
          | ok p =>
            obtain ⟨st, s1⟩ := p
            dsimp only
            obtain ⟨ha, hb, -⟩ := fStepOk _ _ _ hstep
            dsimp only at ha hb
            exact ihSteps _ _ hb (by omega)
      · rw [if_neg hsw]
        exact fun hc => Option.noConfusion hc
    · -- parsePipelineStepF
      intro s hs hfuel
      rw [parsePipelineStepF]
      cases hrs : parseResultStepF fuel t s with
      | none => exact absurd hrs (ihRs _ hs (by omega))
      | some r =>
        cases r with
        | ok p => exact fun hc => Option.noConfusion hc
        | error e =>
          dsimp only
          cases hreg : parseRegularStep t s.pos with
          | some q => exact fun hc => Option.noConfusion hc
          | none => exact fun hc => Option.noConfusion hc
    · -- parseResultStepF
      intro s hs hfuel
      rw [parseResultStepF]
      cases h1 : matchTok t ['|', '>'] (skipSpaces t s.pos) with
      | none => exact fun hc => Option.noConfusion hc
      | some p2 =>
        dsimp only
        cases h2 : matchTok t "result".toList (skipInlineSpaces t p2) with
        | none => exact fun hc => Option.noConfusion hc
        | some p4 =>
          dsimp only
          have g0 := skipSpaces_ge t s.pos
          have he1 := (matchTok_some h1).1
          simp only [List.length_cons, List.length_nil] at he1
          have g2 := skipInlineSpaces_ge t p2
          have he2 := (matchTok_some h2).1
          have hres : ("result".toList).length = 6 := by decide
          rw [hres] at he2
          have g3 := (matchTok_bound h2 (by decide)).2
          have g4 := skipSpaces_le g3
          have g5 := skipSpaces_ge t p4
          cases hbrs : parseResultBranchesF fuel t
              { s with pos := skipSpaces t p4 } [] with
          | none =>
            exact absurd hbrs (ihBrs _ _ (by dsimp only; omega) (by dsimp only; omega))
          | some r =>
            cases r with
            | error e => exact fun hc => Option.noConfusion hc
            | ok p =>
              obtain ⟨branches, s1⟩ := p
              exact fun hc => Option.noConfusion hc
    · -- parseResultBranchesF
      intro s acc hs hfuel
      rw [parseResultBranchesF]
      cases hbr : parseResultBranchF fuel t s with
      | none => exact absurd hbr (ihBr _ hs (by omega))
      | some r =>
        cases r with
        | error e => exact fun hc => Option.noConfusion hc
        | ok p =>
          obtain ⟨br, s1⟩ := p
          dsimp only
          obtain ⟨ha, hb, -⟩ := fBrOk _ _ _ hbr
          exact ihBrs _ _ hb (by omega)
    · -- parseResultBranchF
      intro s hs hfuel
      rw [parseResultBranchF]
      cases hhd : parseResultBranchHead t s with
      | error e => exact fun hc => Option.noConfusion hc
      | ok q =>
        obtain ⟨⟨bt, code⟩, s1⟩ := q
        dsimp only
        obtain ⟨g1, g2, -, -, -⟩ := parseResultBranchHead_ok hhd
        have g3 := skipSpaces_ge t s1.pos
        have g4 := skipSpaces_le g2
        cases hst : parsePipelineStepsF fuel t
            { s1 with pos := skipSpaces t s1.pos } [] with
        | none =>
          exact absurd hst (ihSteps _ _ (by dsimp only; omega) (by dsimp only; omega))
        | some r =>
          cases r with
          | error e => exact fun hc => Option.noConfusion hc
          | ok p =>
            obtain ⟨steps, s2⟩ := p
            exact fun hc => Option.noConfusion hc

-- ==== `parseNamedPipeline`, `parsePipelineRef`, `parseRoute` facts ====

theorem parseNamedPipelineF_ok {fuel : Nat} {t : Txt} {s s' : PState}
    {np : NamedPipeline} (h : parseNamedPipelineF fuel t s = some (.ok (np, s'))) :
    s.pos < s'.pos ∧ (s.pos ≤ t.length → s'.pos ≤ t.length) ∧
    (SInv t s → SInv t s') := by
  unfold parseNamedPipelineF at h
  cases h1 : matchTok t "pipeline".toList s.pos with
  | none => rw [h1] at h; exact Except.noConfusion (Option.some.inj h)
  | some p1 =>
    rw [h1] at h
    dsimp only at h
    cases h2 : parseIdentifier t (skipInlineSpaces t p1) with
    | none => rw [h2] at h; exact Except.noConfusion (Option.some.inj h)
    | some nmp =>
      obtain ⟨name, p3⟩ := nmp
      rw [h2] at h
      dsimp only at h
      cases h3 : matchTok t ['='] (skipInlineSpaces t p3) with
      | none => rw [h3] at h; exact Except.noConfusion (Option.some.inj h)
      | some p5 =>
        rw [h3] at h
        dsimp only at h
        cases h4 : parsePipelineStepsF fuel t { s with pos := skipInlineSpaces t p5 } [] with
        | none => rw [h4] at h; exact Option.noConfusion h
        | some r =>
          rw [h4] at h
          cases r with
          | error e =>
            dsimp only at h
            exact Except.noConfusion (Option.some.inj h)
          | ok q =>
            obtain ⟨steps, s1⟩ := q
            dsimp only at h
            have hinj := Except.ok.inj (Option.some.inj h)
            have hs' : ({ s1 with
                pipelineRanges := setA s1.pipelineRanges name (s.pos, s1.pos),
                pos := skipSpaces t s1.pos } : PState) = s' := congrArg Prod.snd hinj
            obtain ⟨ha, hb, hc⟩ := (pipelineClusterFacts fuel t).1 _ _ _ _ h4
            dsimp only at ha hb
            have f1 := matchTok_lt h1 (by simp [String.toList])
            have f1' := (matchTok_bound h1 (by simp [String.toList])).2
            have f2a := skipInlineSpaces_ge t p1
            have f2b := skipInlineSpaces_le f1'
            have f2 := parseIdentifier_some h2
            have f3a := skipInlineSpaces_ge t p3
            have f3b := skipInlineSpaces_le f2.2.1
            have f3 := matchTok_ge h3
            have f3' := (matchTok_bound h3 (by simp)).2
            have f4a := skipInlineSpaces_ge t p5
            have f4b := skipInlineSpaces_le f3'
            have hs1len : s1.pos ≤ t.length := hb f4b
            have f5a := skipSpaces_ge t s1.pos
            have f5b := skipSpaces_le hs1len
            refine ⟨?_, ?_, ?_⟩
            · rw [← hs']; dsimp only; omega
            · rw [← hs']; dsimp only; exact fun _ => f5b
            · intro hi
              obtain ⟨hd, hp, hv⟩ := hc hi
              rw [← hs']
              refine ⟨hd, ?_, hv⟩
              refine setA_forall hp ?_
              refine ⟨skipInlineSpaces t p1, by dsimp only; omega, ?_, ?_, ?_⟩
              · have hlen : name.length = p3 - skipInlineSpaces t p1 := by
                  rw [f2.2.2, sliceT_length]
                  omega
                dsimp only
                omega
              · dsimp only
                exact hs1len
              · have hlen : name.length = p3 - skipInlineSpaces t p1 := by
                  rw [f2.2.2, sliceT_length]
                  omega
                dsimp only
                have harg : skipInlineSpaces t p1 + name.length = p3 := by omega
                rw [harg, f2.2.2]

theorem parseNamedPipelineF_err {fuel : Nat} {t : Txt} {s e : PState}
    (h : parseNamedPipelineF fuel t s = some (.error e)) :
    SInv t s → SInv t e := by
  unfold parseNamedPipelineF at h
  cases h1 : matchTok t "pipeline".toList s.pos with
  | none =>
    rw [h1] at h
    have he : s = e := Except.error.inj (Option.some.inj h)
    exact he ▸ id
  | some p1 =>
    rw [h1] at h
    dsimp only at h
    cases h2 : parseIdentifier t (skipInlineSpaces t p1) with
    | none =>
      rw [h2] at h
      have he : s = e := Except.error.inj (Option.some.inj h)
      exact he ▸ id
    | some nmp =>
      obtain ⟨name, p3⟩ := nmp
      rw [h2] at h
      dsimp only at h
      cases h3 : matchTok t ['='] (skipInlineSpaces t p3) with
      | none =>
        rw [h3] at h
        have he : s = e := Except.error.inj (Option.some.inj h)
        exact he ▸ id
      | some p5 =>
        rw [h3] at h
        dsimp only at h
        cases h4 : parsePipelineStepsF fuel t { s with pos := skipInlineSpaces t p5 } [] with
        | none => rw [h4] at h; exact Option.noConfusion h
        | some r =>
          rw [h4] at h
          cases r with
          | error e' =>
            dsimp only at h
            have he : e' = e := Except.error.inj (Option.some.inj h)
            subst he
            intro hi
            exact (pipelineClusterFacts fuel t).2.1 _ _ _ h4 ⟨hi.1, hi.2.1, hi.2.2⟩
          | ok q =>
            obtain ⟨steps, s1⟩ := q
            dsimp only at h
            exact Except.noConfusion (Option.some.inj h)

theorem parseNamedPipelineF_suff {fuel : Nat} {t : Txt} {s : PState}
    (hs : s.pos ≤ t.length) (hfuel : 8 * (t.length + 1 - s.pos) + 4 ≤ fuel) :
    parseNamedPipelineF fuel t s ≠ none := by
  unfold parseNamedPipelineF
  cases h1 : matchTok t "pipeline".toList s.pos with
  | none => exact fun hc => Option.noConfusion hc
  | some p1 =>
    dsimp only
    cases h2 : parseIdentifier t (skipInlineSpaces t p1) with
    | none => exact fun hc => Option.noConfusion hc
    | some nmp =>
      obtain ⟨name, p3⟩ := nmp
      dsimp only
      cases h3 : matchTok t ['='] (skipInlineSpaces t p3) with
      | none => exact fun hc => Option.noConfusion hc
      | some p5 =>
        dsimp only
        have f1 := matchTok_lt h1 (by simp [String.toList])
        have f1' := (matchTok_bound h1 (by simp [String.toList])).2
        have f2a := skipInlineSpaces_ge t p1
        have f2b := skipInlineSpaces_le f1'
        have f2 := parseIdentifier_some h2
        have f3a := skipInlineSpaces_ge t p3
        have f3b := skipInlineSpaces_le f2.2.1
        have f3 := matchTok_ge h3
        have f3' := (matchTok_bound h3 (by simp)).2
        have f4a := skipInlineSpaces_ge t p5
        have f4b := skipInlineSpaces_le f3'
        cases h4 : parsePipelineStepsF fuel t { s with pos := skipInlineSpaces t p5 } [] with
        | none =>
          exact absurd h4 ((pipelineClusterSuff fuel t).1 _ _
            (by dsimp only; omega) (by dsimp only; omega))
        | some r =>
          cases r with
          | error e => exact fun hc => Option.noConfusion hc
          | ok q =>
            obtain ⟨steps, s1⟩ := q
            exact fun hc => Option.noConfusion hc

theorem parsePipelineRefF_ok {fuel : Nat} {t : Txt} {s s' : PState}
    {pref : PipelineRef} (h : parsePipelineRefF fuel t s = some (.ok (pref, s'))) :
    s.pos ≤ s'.pos ∧ (s.pos ≤ t.length → s'.pos ≤ t.length) ∧
    (SInv t s → SInv t s') := by
  unfold parsePipelineRefF at h
  cases h1 : parsePipelineStepsF fuel t s [] with
  | none => rw [h1] at h; exact Option.noConfusion h
  | some r =>
    rw [h1] at h
    cases r with
    | ok q =>
      obtain ⟨steps, s1⟩ := q
      dsimp only at h
      obtain ⟨ha, hb, hc⟩ := (pipelineClusterFacts fuel t).1 _ _ _ _ h1
      by_cases hlen : steps.length > 0
      · rw [if_pos hlen] at h
        have hinj := Except.ok.inj (Option.some.inj h)
        have hs' : s1 = s' := congrArg Prod.snd hinj
        subst hs'
        exact ⟨ha, hb, hc⟩
      · rw [if_neg hlen] at h
        cases h2 : parseNamedRefTail t s1.pos with
        | some q2 =>
          obtain ⟨name, p'⟩ := q2
          rw [h2] at h
          dsimp only at h
          have hinj := Except.ok.inj (Option.some.inj h)
          have hs' : ({ s1 with pos := p' } : PState) = s' := congrArg Prod.snd hinj
          obtain ⟨g1, g2⟩ := parseNamedRefTail_some h2
          refine ⟨?_, ?_, ?_⟩
          · rw [← hs']; dsimp only; omega
          · rw [← hs']; dsimp only; exact fun _ => g2
          · intro hi
            obtain ⟨hd, hp, hv⟩ := hc hi
            rw [← hs']
            exact ⟨hd, hp, hv⟩
        | none =>
          rw [h2] at h
          dsimp only at h
          exact Except.noConfusion (Option.some.inj h)
    | error e =>
      dsimp only at h
      cases h2 : parseNamedRefTail t s.pos with
      | some q2 =>
        obtain ⟨name, p'⟩ := q2
        rw [h2] at h
        dsimp only at h
        have hinj := Except.ok.inj (Option.some.inj h)
        have hs' : ({ e with pos := p' } : PState) = s' := congrArg Prod.snd hinj
        obtain ⟨g1, g2⟩ := parseNamedRefTail_some h2
        refine ⟨?_, ?_, ?_⟩
        · rw [← hs']; dsimp only; omega
        · rw [← hs']; dsimp only; exact fun _ => g2
        · intro hi
          obtain ⟨hd, hp, hv⟩ := (pipelineClusterFacts fuel t).2.1 _ _ _ h1 hi
          rw [← hs']
          exact ⟨hd, hp, hv⟩
      | none =>
        rw [h2] at h
        dsimp only at h
        exact Except.noConfusion (Option.some.inj h)

theorem parsePipelineRefF_err {fuel : Nat} {t : Txt} {s e : PState}
    (h : parsePipelineRefF fuel t s = some (.error e)) :
    SInv t s → SInv t e := by
  unfold parsePipelineRefF at h
  cases h1 : parsePipelineStepsF fuel t s [] with
  | none => rw [h1] at h; exact Option.noConfusion h
  | some r =>
    rw [h1] at h
    cases r with
    | ok q =>
      obtain ⟨steps, s1⟩ := q
      dsimp only at h
      by_cases hlen : steps.length > 0
      · rw [if_pos hlen] at h
        exact Except.noConfusion (Option.some.inj h)
      · rw [if_neg hlen] at h
        cases h2 : parseNamedRefTail t s1.pos with
        | some q2 =>
          obtain ⟨name, p'⟩ := q2
          rw [h2] at h
          dsimp only at h
          exact Except.noConfusion (Option.some.inj h)
        | none =>
          rw [h2] at h
          dsimp only at h
          have he : s1 = e := Except.error.inj (Option.some.inj h)
          subst he
          exact ((pipelineClusterFacts fuel t).1 _ _ _ _ h1).2.2
    | error e' =>
      dsimp only at h
      cases h2 : parseNamedRefTail t s.pos with
      | some q2 =>
        obtain ⟨name, p'⟩ := q2
        rw [h2] at h
        dsimp only at h
        exact Except.noConfusion (Option.some.inj h)
      | none =>
        rw [h2] at h
        dsimp only at h
        have he : ({ e' with pos := s.pos } : PState) = e := Except.error.inj (Option.some.inj h)
        intro hi
        obtain ⟨hd, hp, hv⟩ := (pipelineClusterFacts fuel t).2.1 _ _ _ h1 hi
        rw [← he]
        exact ⟨hd, hp, hv⟩

theorem parsePipelineRefF_suff {fuel : Nat} {t : Txt} {s : PState}
    (hs : s.pos ≤ t.length) (hfuel : 8 * (t.length + 1 - s.pos) + 4 ≤ fuel) :
    parsePipelineRefF fuel t s ≠ none := by
  unfold parsePipelineRefF
  cases h1 : parsePipelineStepsF fuel t s [] with
  | none => exact absurd h1 ((pipelineClusterSuff fuel t).1 _ _ hs (by omega))
  | some r =>
    cases r with
    | ok q =>
      obtain ⟨steps, s1⟩ := q
      dsimp only
      by_cases hlen : steps.length > 0
      · rw [if_pos hlen]
        exact fun hc => Option.noConfusion hc
      · rw [if_neg hlen]
        cases h2 : parseNamedRefTail t s1.pos with
        | some q2 =>
          obtain ⟨name, p'⟩ := q2
          exact fun hc => Option.noConfusion hc
        | none => exact fun hc => Option.noConfusion hc
    | error e =>
      dsimp only
      cases h2 : parseNamedRefTail t s.pos with
      | some q2 =>
        obtain ⟨name, p'⟩ := q2
        exact fun hc => Option.noConfusion hc
      | none => exact fun hc => Option.noConfusion hc

theorem parseRouteF_ok {fuel : Nat} {t : Txt} {s s' : PState} {rt : Route}
    (h : parseRouteF fuel t s = some (.ok (rt, s'))) :
    s.pos < s'.pos ∧ s'.pos ≤ t.length ∧ (SInv t s → SInv t s') := by
  unfold parseRouteF at h
  cases h1 : parseMethod t s.pos with
  | none => rw [h1] at h; exact Except.noConfusion (Option.some.inj h)
  | some mq =>
    obtain ⟨method, p1⟩ := mq
    rw [h1] at h
    dsimp only at h
    rw [pair_eta (takeRun (fun c => c ≠ ' ' && c ≠ '\n') t (skipInlineSpaces t p1))] at h
    dsimp only at h
    cases h2 : parsePipelineRefF fuel t
        { s with pos := skipSpaces t (takeRun (fun c => c ≠ ' ' && c ≠ '\n') t (skipInlineSpaces t p1)).2 } with
    | none => rw [h2] at h; exact Option.noConfusion h
    | some r =>
      rw [h2] at h
      cases r with
      | error e =>
        dsimp only at h
        exact Except.noConfusion (Option.some.inj h)
      | ok q =>
        obtain ⟨pref, s1⟩ := q
        dsimp only at h
        have hinj := Except.ok.inj (Option.some.inj h)
        have hs' : ({ s1 with pos := skipSpaces t s1.pos } : PState) = s' :=
          congrArg Prod.snd hinj
        obtain ⟨g1, g2⟩ := parseMethod_some h1
        have g3 := skipInlineSpaces_ge t p1
        have g3' := skipInlineSpaces_le g2
        have g4 := takeRun_ge (fun c => c ≠ ' ' && c ≠ '\n') t (skipInlineSpaces t p1)
        have g4' := takeRun_le (fun c => c ≠ ' ' && c ≠ '\n') g3'
        have g5 := skipSpaces_ge t
          (takeRun (fun c => c ≠ ' ' && c ≠ '\n') t (skipInlineSpaces t p1)).2
        have g5' := skipSpaces_le g4'
        obtain ⟨ha, hb, hc⟩ := parsePipelineRefF_ok h2
        dsimp only at ha hb
        have hs1len : s1.pos ≤ t.length := hb g5'
        have g6 := skipSpaces_ge t s1.pos
        have g6' := skipSpaces_le hs1len
        refine ⟨?_, ?_, ?_⟩
        · rw [← hs']; dsimp only; omega
        · rw [← hs']; dsimp only; exact g6'
        · intro hi
          obtain ⟨hd, hp, hv⟩ := hc hi
          rw [← hs']
          exact ⟨hd, hp, hv⟩

theorem parseRouteF_err {fuel : Nat} {t : Txt} {s e : PState}
    (h : parseRouteF fuel t s = some (.error e)) : SInv t s → SInv t e := by
  unfold parseRouteF at h
  cases h1 : parseMethod t s.pos with
  | none =>
    rw [h1] at h
    have he : s = e := Except.error.inj (Option.some.inj h)
    exact he ▸ id
  | some mq =>
    obtain ⟨method, p1⟩ := mq
    rw [h1] at h
    dsimp only at h
    rw [pair_eta (takeRun (fun c => c ≠ ' ' && c ≠ '\n') t (skipInlineSpaces t p1))] at h
    dsimp only at h
    cases h2 : parsePipelineRefF fuel t
        { s with pos := skipSpaces t (takeRun (fun c => c ≠ ' ' && c ≠ '\n') t (skipInlineSpaces t p1)).2 } with
    | none => rw [h2] at h; exact Option.noConfusion h
    | some r =>
      rw [h2] at h
      cases r with
      | error e' =>
        dsimp only at h
        have he : e' = e := Except.error.inj (Option.some.inj h)
        subst he
        intro hi
        exact parsePipelineRefF_err h2 ⟨hi.1, hi.2.1, hi.2.2⟩
      | ok q =>
        obtain ⟨pref, s1⟩ := q
        dsimp only at h
        exact Except.noConfusion (Option.some.inj h)

theorem parseRouteF_suff {fuel : Nat} {t : Txt} {s : PState}
    (hs : s.pos ≤ t.length) (hfuel : 8 * (t.length + 1 - s.pos) + 5 ≤ fuel) :
    parseRouteF fuel t s ≠ none := by
  unfold parseRouteF
  cases h1 : parseMethod t s.pos with
  | none => exact fun hc => Option.noConfusion hc
  | some mq =>
    obtain ⟨method, p1⟩ := mq
    dsimp only
    rw [pair_eta (takeRun (fun c => c ≠ ' ' && c ≠ '\n') t (skipInlineSpaces t p1))]
    dsimp only
    obtain ⟨g1, g2⟩ := parseMethod_some h1
    have g3 := skipInlineSpaces_ge t p1
    have g3' := skipInlineSpaces_le g2
    have g4 := takeRun_ge (fun c => c ≠ ' ' && c ≠ '\n') t (skipInlineSpaces t p1)
    have g4' := takeRun_le (fun c => c ≠ ' ' && c ≠ '\n') g3'
    have g5 := skipSpaces_ge t
      (takeRun (fun c => c ≠ ' ' && c ≠ '\n') t (skipInlineSpaces t p1)).2
    have g5' := skipSpaces_le g4'
    cases h2 : parsePipelineRefF fuel t
        { s with pos := skipSpaces t (takeRun (fun c => c ≠ ' ' && c ≠ '\n') t (skipInlineSpaces t p1)).2 } with
    | none =>
      exact absurd h2 (parsePipelineRefF_suff (by dsimp only; omega) (by dsimp only; omega))
    | some r =>
      cases r with
      | error e => exact fun hc => Option.noConfusion hc
      | ok q =>
        obtain ⟨pref, s1⟩ := q
        exact fun hc => Option.noConfusion hc

-- ==== Top-level loop facts ====

theorem parseTopF_inv : ∀ (fuel : Nat) (t : Txt) (s : PState) (acc : Program)
    {r : Program × PState}, parseTopF fuel t s acc = some r →
    s.pos ≤ t.length → SInv t s → SInv t r.2 := by
  intro fuel
  induction fuel with
  | zero =>
    intro t s acc r h _ _
    exact Option.noConfusion h
  | succ fuel ih =>
    intro t s acc r h hs hi
    rw [parseTopF] at h
    dsimp only at h
    by_cases hend : t.length ≤ skipSpaces t s.pos
    · rw [if_pos hend] at h
      have hr := Option.some.inj h
      rw [← hr]
      exact hi
    · rw [if_neg hend] at h
      have hp1 : skipSpaces t s.pos ≤ t.length := skipSpaces_le hs
      cases hcfg : parseConfig fuel t (skipSpaces t s.pos) with
      | none => rw [hcfg] at h; exact Option.noConfusion h
      | some o =>
        rw [hcfg] at h
        cases o with
        | some q =>
          obtain ⟨cfg, p'⟩ := q
          dsimp only at h
          have hf := parseConfig_facts hcfg
          exact ih t _ _ h (by dsimp only; exact hf.2) hi
        | none =>
        dsimp only at h
        cases hnp : parseNamedPipelineF fuel t { s with pos := skipSpaces t s.pos } with
        | none => rw [hnp] at h; exact Option.noConfusion h
        | some rnp =>
          rw [hnp] at h
          cases rnp with
          | ok q =>
            obtain ⟨np, s'⟩ := q
            dsimp only at h
            obtain ⟨ha, hb, hc⟩ := parseNamedPipelineF_ok hnp
            dsimp only at ha hb
            exact ih t _ _ h (hb hp1) (hc hi)
          | error e =>
            dsimp only at h
            have hie : SInv t e := parseNamedPipelineF_err hnp hi
            cases hvar : parseVariableS t { e with pos := skipSpaces t s.pos } with
            | ok q =>
              obtain ⟨v, s'⟩ := q
              rw [hvar] at h
              dsimp only at h
              obtain ⟨va, vb, vc, vd, -⟩ := parseVariableS_ok hvar
              have hvinv : SInv t s' := by
                refine ⟨vc ▸ hie.1, vd ▸ hie.2.1, ?_⟩
                exact parseVariableS_rangesOk hvar hie.2.2
              exact ih t _ _ h vb hvinv
            | error e2 =>
              rw [hvar] at h
              dsimp only at h
              have he2 := parseVariableS_err hvar
              have hie2 : SInv t e2 := by rw [he2]; exact hie
              cases hrt : parseRouteF fuel t { e2 with pos := skipSpaces t s.pos } with
              | none => rw [hrt] at h; exact Option.noConfusion h
              | some rrt =>
                rw [hrt] at h
                cases rrt with
                | ok q =>
                  obtain ⟨rt0, s'⟩ := q
                  dsimp only at h
                  obtain ⟨ra, rb, rc⟩ := parseRouteF_ok hrt
                  exact ih t _ _ h rb (rc hie2)
                | error e3 =>
                  dsimp only at h
                  have hie3 : SInv t e3 := parseRouteF_err hrt hie2
                  cases hdesc : parseDescribe fuel t (skipSpaces t s.pos) with
                  | none => rw [hdesc] at h; exact Option.noConfusion h
                  | some od =>
                    rw [hdesc] at h
                    cases od with
                    | some q =>
                      obtain ⟨d, p'⟩ := q
                      dsimp only at h
                      have hf := parseDescribe_facts hdesc
                      exact ih t _ _ h (by dsimp only; exact hf.2) hie3
                    | none =>
                      dsimp only at h
                      have hq : skipToEol t (skipSpaces t s.pos) +
                          countWhile (fun c => c = '\n') t
                            (skipToEol t (skipSpaces t s.pos)) ≤ t.length :=
                        add_countWhile_le (skipToEol_le hp1)
                      refine ih t _ _ h (by dsimp only; exact hq) ?_
                      refine ⟨?_, hie3.2.1, hie3.2.2⟩
                      intro d hd
                      simp only [report, List.mem_append, List.mem_singleton] at hd
                      rcases hd with hd | hd
                      · exact hie3.1 d hd
                      · subst hd
                        constructor
                        · exact le_trans (findLineStart_le t _)
                            (findLineEnd_ge t _)
                        · exact findLineEnd_le t _

theorem parseTopF_suff : ∀ (fuel : Nat) (t : Txt) (s : PState) (acc : Program),
    s.pos ≤ t.length → 8 * (t.length + 1 - s.pos) + 7 ≤ fuel →
    parseTopF fuel t s acc ≠ none := by
  intro fuel
  induction fuel with
  | zero =>
    intro t s acc hs hfuel
    omega
  | succ fuel ih =>
    intro t s acc hs hfuel
    rw [parseTopF]
    dsimp only
    by_cases hend : t.length ≤ skipSpaces t s.pos
    · rw [if_pos hend]
      exact fun hc => Option.noConfusion hc
    · rw [if_neg hend]
      have hp1a := skipSpaces_ge t s.pos
      have hp1 : skipSpaces t s.pos ≤ t.length := skipSpaces_le hs
      cases hcfg : parseConfig fuel t (skipSpaces t s.pos) with
      | none =>
        exact absurd hcfg (parseConfig_suff (by omega))
      | some o =>
        cases o with
        | some q =>
          obtain ⟨cfg, p'⟩ := q
          dsimp only
          have hf := parseConfig_facts hcfg
          exact ih t _ _ (by dsimp only; exact hf.2) (by dsimp only; omega)
        | none =>
        dsimp only
        cases hnp : parseNamedPipelineF fuel t { s with pos := skipSpaces t s.pos } with
        | none =>
          exact absurd hnp (parseNamedPipelineF_suff (by dsimp only; omega)
            (by dsimp only; omega))
        | some rnp =>
          cases rnp with
          | ok q =>
            obtain ⟨np, s'⟩ := q
            dsimp only
            obtain ⟨ha, hb, hc⟩ := parseNamedPipelineF_ok hnp
            dsimp only at ha hb
            exact ih t _ _ (hb hp1) (by omega)
          | error e =>
            dsimp only
            cases hvar : parseVariableS t { e with pos := skipSpaces t s.pos } with
            | ok q =>
              obtain ⟨v, s'⟩ := q
              dsimp only
              obtain ⟨va, vb, -, -, -⟩ := parseVariableS_ok hvar
              dsimp only at va
              exact ih t _ _ vb (by omega)
            | error e2 =>
              dsimp only
              cases hrt : parseRouteF fuel t { e2 with pos := skipSpaces t s.pos } with
              | none =>
                exact absurd hrt (parseRouteF_suff (by dsimp only; omega)
                  (by dsimp only; omega))
              | some rrt =>
                cases rrt with
                | ok q =>
                  obtain ⟨rt0, s'⟩ := q
                  dsimp only
                  obtain ⟨ra, rb, -⟩ := parseRouteF_ok hrt
                  dsimp only at ra
                  exact ih t _ _ rb (by omega)
                | error e3 =>
                  dsimp only
                  cases hdesc : parseDescribe fuel t (skipSpaces t s.pos) with
                  | none =>
                    exact absurd hdesc (parseDescribe_suff (by omega))
                  | some od =>
                    cases od with
                    | some q =>
                      obtain ⟨d, p'⟩ := q
                      dsimp only
                      have hf := parseDescribe_facts hdesc
                      exact ih t _ _ (by dsimp only; exact hf.2) (by dsimp only; omega)
                    | none =>
                      dsimp only
                      -- the character after the skipped whitespace is not
                      -- whitespace, so the fallback line skip advances
                      have hchar : ∃ c, charAt t (skipSpaces t s.pos) = some c := by
                        refine ⟨t.get ⟨skipSpaces t s.pos, by omega⟩, ?_⟩
                        unfold charAt
                        exact List.getElem?_eq_getElem (by omega)
                      obtain ⟨c, hc⟩ := hchar
                      have hnw : isSpaceC c = false := charAt_after_countWhile hc
                      have hcn : c ≠ '\n' := by
                        intro hcc
                        subst hcc
                        simp [isSpaceC] at hnw
                      have hone : 1 ≤ countWhile (fun ch => ch ≠ '\n') t
                          (skipSpaces t s.pos) :=
                        countWhile_pos hc (by simp [hcn])
                      have hq : skipToEol t (skipSpaces t s.pos) +
                          countWhile (fun ch => ch = '\n') t
                            (skipToEol t (skipSpaces t s.pos)) ≤ t.length :=
                        add_countWhile_le (skipToEol_le hp1)
                      have hq2 : skipSpaces t s.pos + 1 ≤
                          skipToEol t (skipSpaces t s.pos) := by
                        unfold skipToEol
                        omega
                      exact ih t _ _ (by dsimp only; exact hq) (by dsimp only; omega)

theorem backtickCheck_diagsOk {t : Txt} {s : PState} (h : DiagsOk t s.diags) :
    DiagsOk t (backtickCheck t s).diags := by
  unfold backtickCheck
  dsimp only
  split
  · next hodd =>
    have hmem : btick ∈ t := by
      by_contra hno
      have : t.filter (fun c => c = btick) = [] := by
        rw [List.filter_eq_nil_iff]
        intro a ha hab
        exact hno (by simpa using (by simpa using hab : a = btick) ▸ ha)
      rw [this] at hodd
      simp at hodd
    cases hidx : lastIdxOfChar t btick with
    | none => exact absurd hidx (lastIdxOfChar_of_mem hmem)
    | some i =>
      obtain ⟨hlt, -⟩ := lastIdxOfChar_spec hidx
      intro d hd
      simp only [report, hidx, Option.getD_some, List.mem_append,
        List.mem_singleton] at hd
      rcases hd with hd | hd
      · exact h d hd
      · subst hd
        exact ⟨Nat.le_succ i, hlt⟩
  · exact h

/-- Liveness and diagnostic-range safety of one full parser run: the fueled
top-level loop never runs out of fuel at `totalFuel`, and the resulting
diagnostics all lie within the text. -/
theorem parseProgramRun_total (t : Txt) :
    ∃ prog s, parseProgramRun t = some (prog, s) ∧ DiagsOk t s.diags := by
  unfold parseProgramRun
  cases htop : parseTopF (totalFuel t) t { emptyPState with pos := skipSpaces t 0 }
      emptyProgram with
  | none =>
    have hpos : skipSpaces t 0 ≤ t.length := skipSpaces_le (Nat.zero_le _)
    have hsp := skipSpaces_ge t 0
    exact absurd htop (parseTopF_suff _ t _ _ (by dsimp only; exact hpos)
      (by dsimp only; unfold totalFuel; omega))
  | some r =>
    obtain ⟨prog, s⟩ := r
    refine ⟨prog, backtickCheck t s, rfl, ?_⟩
    refine backtickCheck_diagsOk ?_
    have hpos : skipSpaces t 0 ≤ t.length := skipSpaces_le (Nat.zero_le _)
    have hinv := parseTopF_inv (totalFuel t) t _ _ htop (by dsimp only; exact hpos)
      ⟨fun d hd => absurd hd (List.not_mem_nil d),
       fun kv hkv => absurd hkv (List.not_mem_nil kv),
       fun kv hkv => absurd hkv (List.not_mem_nil kv)⟩
    exact hinv.1

/-- C1: for every input text, `parseProgram(text)` and
`parseProgramWithDiagnostics(text)` terminate without throwing (the
embedding's fueled run, given its always-sufficient fuel, never returns
`none` and never propagates an in-band exception), return a (possibly
partial) `Program`, and every reported diagnostic `d` satisfies
`0 ≤ d.start ≤ d.stop ≤ text.length`. -/
theorem C1_parser_totality_and_diag_ranges (t : Txt) :
    ∃ prog diags, parseProgramWithDiagnosticsF t = some (prog, diags) ∧
      parseProgramF t = some prog ∧
      ∀ d ∈ diags, 0 ≤ d.start ∧ d.start ≤ d.stop ∧ d.stop ≤ t.length := by
  obtain ⟨prog, s, hrun, hdg⟩ := parseProgramRun_total t
  refine ⟨prog, s.diags, ?_, ?_, ?_⟩
  · unfold parseProgramWithDiagnosticsF
    rw [hrun]
    rfl
  · unfold parseProgramF
    rw [hrun]
    rfl
  · intro d hd
    obtain ⟨h1, h2⟩ := hdg d hd
    exact ⟨Nat.zero_le _, h1, h2⟩

/-- C5: a result-branch status code outside `[100, 599]` yields exactly one
`error` diagnostic, of severity `error`, anchored at the status-code digits
(the range ending two positions before the cursor after `):`), appended to
the diagnostics already present; an in-range code yields no new diagnostic;
and in both cases the branch is still recorded in the returned AST: whenever
the branch's nested pipeline parses, `parseResultBranch` succeeds with the
branch `(type, code, pipeline)` in place. -/
theorem C5_status_code_diagnostic {t : Txt} {s s1 : PState}
    {bt : ResultBranchType} {code : Nat}
    (h : parseResultBranchHead t s = .ok ((bt, code), s1)) :
    ((code < 100 ∨ 599 < code) →
      ∃ p3, s1.pos = p3 + 2 ∧
        s1.diags = s.diags ++ [⟨"Invalid HTTP status code: " ++ Nat.repr code,
          p3 - (Nat.repr code).length, p3, Severity.error⟩]) ∧
    (100 ≤ code ∧ code ≤ 599 → s1.diags = s.diags) ∧
    (∀ fuel steps s2,
      parsePipelineStepsF fuel t { s1 with pos := skipSpaces t s1.pos } [] =
        some (.ok (steps, s2)) →
      parseResultBranchF (fuel + 1) t s =
        some (.ok (⟨bt, code, Pipeline.mk steps⟩, s2))) := by
  obtain ⟨-, -, -, -, p3, hp3, -, hout, hin⟩ := parseResultBranchHead_ok h
  refine ⟨fun hc => ⟨p3, hp3, hout hc⟩, hin, ?_⟩
  intro fuel steps s2 hsteps
  rw [parseResultBranchF, h]
  dsimp only
  rw [hsteps]

/-- Witness for C5 on the concrete branch `weird(999):`. -/
theorem C5_status_code_diagnostic_witness :
    (parseResultBranchHead tC5 emptyPState = .ok
      ((ResultBranchType.customB "weird".toList, 999), s1C5)) ∧
    (∃ p3, s1C5.pos = p3 + 2 ∧
      s1C5.diags = emptyPState.diags ++
        [⟨"Invalid HTTP status code: " ++ Nat.repr 999,
          p3 - (Nat.repr 999).length, p3, Severity.error⟩]) :=
  ⟨rfl, (@C5_status_code_diagnostic tC5 emptyPState s1C5
      (ResultBranchType.customB "weird".toList) 999 rfl).1 (by omega)⟩

/-- C9: `tryParse` restores only the saved cursor on a failed attempt — the
attempt reports `none`, the cursor of the resulting state is the saved one,
and the diagnostics list is the one from the moment of the throw (reported
diagnostics are not rolled back). -/
theorem C9_backtracking_frame {α : Type}
    {f : PState → Except PState (α × PState)} {s e : PState}
    (h : f s = .error e) :
    (tryParseS f s).1 = none ∧ (tryParseS f s).2.pos = s.pos ∧
    (tryParseS f s).2.diags = e.diags := by
  unfold tryParseS
  rw [h]
  exact ⟨rfl, rfl, rfl⟩

/-- Witness for C9: the branch `weird(999) z` of `tC9` reports the 999
diagnostic and then throws at the missing `:`; the attempt's rollback keeps
the diagnostic, and it survives into the output of
`parseProgramWithDiagnostics`. -/
theorem C9_backtracking_frame_witness :
    ((tryParseS (parseResultBranchHead tC9) sC9).1 =
        (none : Option (ResultBranchType × Nat)) ∧
      (tryParseS (parseResultBranchHead tC9) sC9).2.pos = sC9.pos ∧
      (tryParseS (parseResultBranchHead tC9) sC9).2.diags = eC9.diags) ∧
    (parseProgramWithDiagnosticsF tC9).map Prod.snd = some [dC9, dWarnC9] ∧
    dC9 ∈ eC9.diags :=
  ⟨@C9_backtracking_frame (ResultBranchType × Nat) (parseResultBranchHead tC9)
      sC9 eC9 rfl,
    by decide, by decide⟩

-- ==== Document-cache size facts ====

theorem delA_length_le {α : Type} : ∀ (m : List (Txt × α)) (k : Txt),
    (delA m k).length ≤ m.length
  | [], _ => le_refl _
  | (k', v') :: rest, k => by
    unfold delA
    split
    · simp
    · simp only [List.length_cons]
      have := delA_length_le rest k
      omega

theorem delA_eq_of_length {α : Type} : ∀ {m : List (Txt × α)} {k : Txt},
    (delA m k).length = m.length → delA m k = m
  | [], k, _ => rfl
  | (k', v') :: rest, k, h => by
    unfold delA at h ⊢
    split at h
    · simp at h
    · next hne =>
      rw [if_neg hne]
      simp only [List.length_cons, Nat.add_right_cancel_iff] at h
      rw [delA_eq_of_length h]

theorem delA_length_of_mem {α : Type} : ∀ {m : List (Txt × α)} {x : Txt × α},
    x ∈ m → (delA m x.1).length + 1 = m.length
  | [], x, h => absurd h (List.not_mem_nil x)
  | (k', v') :: rest, x, h => by
    unfold delA
    by_cases hk : k' = x.1
    · rw [if_pos hk]
      simp
    · rw [if_neg hk]
      rcases List.mem_cons.mp h with h | h
      · exact absurd (congrArg Prod.fst h.symm) hk
      · simp only [List.length_cons]
        rw [← delA_length_of_mem h]

theorem setA_length_le {α : Type} : ∀ (m : List (Txt × α)) (k : Txt) (v : α),
    (setA m k v).length ≤ m.length + 1
  | [], _, _ => le_refl _
  | (k', v') :: rest, k, v => by
    unfold setA
    split
    · simp
    · simp only [List.length_cons]
      have := setA_length_le rest k v
      omega

theorem setA_length_of_lookup {α : Type} :
    ∀ {m : List (Txt × α)} {k : Txt} (v : α) {w : α},
      lookupA m k = some w → (setA m k v).length = m.length
  | [], k, v, w, h => by simp [lookupA] at h
  | (k', v') :: rest, k, v, w, h => by
    unfold lookupA at h
    unfold setA
    split at h
    · next he => rw [if_pos he]; simp
    · next he =>
      rw [if_neg he]
      simp only [List.length_cons]
      rw [setA_length_of_lookup v h]

theorem insertTs_length (x : Txt × CachedDocument) :
    ∀ (l : CacheMap), (insertTs x l).length = l.length + 1
  | [] => rfl
  | y :: rest => by
    unfold insertTs
    split
    · simp only [List.length_cons, insertTs_length x rest]
    · simp

theorem insertTs_mem {x y : Txt × CachedDocument} :
    ∀ {l : CacheMap}, y ∈ insertTs x l → y = x ∨ y ∈ l
  | [], h => Or.inl (by simpa [insertTs] using h)
  | z :: rest, h => by
    unfold insertTs at h
    split at h
    · rcases List.mem_cons.mp h with h | h
      · exact Or.inr (h ▸ List.mem_cons_self _ _)
      · rcases insertTs_mem h with h | h
        · exact Or.inl h
        · exact Or.inr (List.mem_cons_of_mem _ h)
    · rcases List.mem_cons.mp h with h | h
      · exact Or.inl h
      · exact Or.inr h

theorem sortByTs_length : ∀ (c : CacheMap), (sortByTs c).length = c.length
  | [] => rfl
  | x :: rest => by
    unfold sortByTs
    rw [insertTs_length, sortByTs_length rest]
    rfl

theorem sortByTs_mem {y : Txt × CachedDocument} :
    ∀ {c : CacheMap}, y ∈ sortByTs c → y ∈ c
  | [], h => by simp [sortByTs] at h
  | x :: rest, h => by
    unfold sortByTs at h
    rcases insertTs_mem h with h | h
    · exact h ▸ List.mem_cons_self _ _
    · exact List.mem_cons_of_mem _ (sortByTs_mem h)

theorem cleanupFold_le (now : Nat) :
    ∀ (l acc : CacheMap),
      (l.foldl (fun acc kv =>
        if maxCacheAge < now - kv.2.timestamp then delA acc kv.1 else acc) acc).length ≤
      acc.length
  | [], acc => le_refl _
  | x :: xs, acc => by
    simp only [List.foldl_cons]
    refine le_trans (cleanupFold_le now xs _) ?_
    split
    · exact delA_length_le acc x.1
    · exact le_refl _

theorem cleanupFold_eq_of_length (now : Nat) :
    ∀ (l acc : CacheMap),
      (l.foldl (fun acc kv =>
        if maxCacheAge < now - kv.2.timestamp then delA acc kv.1 else acc) acc).length =
        acc.length →
      l.foldl (fun acc kv =>
        if maxCacheAge < now - kv.2.timestamp then delA acc kv.1 else acc) acc = acc
  | [], acc, _ => rfl
  | x :: xs, acc, h => by
    simp only [List.foldl_cons] at h ⊢
    by_cases hp : maxCacheAge < now - x.2.timestamp
    · rw [if_pos hp] at h ⊢
      have hle := cleanupFold_le now xs (delA acc x.1)
      have hdle := delA_length_le acc x.1
      have heq : (delA acc x.1).length = acc.length := by omega
      rw [delA_eq_of_length heq] at h ⊢
      exact cleanupFold_eq_of_length now xs acc h
    · rw [if_neg hp] at h ⊢
      exact cleanupFold_eq_of_length now xs acc h

/-- `cleanup` brings a cache that exceeds the bound by at most one entry
back within the bound. -/
theorem cleanup_bound {c : CacheMap} {now : Nat}
    (h : c.length ≤ maxCacheSize + 1) : (cleanup c now).length ≤ maxCacheSize := by
  unfold cleanup
  by_cases h0 : c.length ≤ maxCacheSize
  · rw [if_pos h0]
    exact h0
  · rw [if_neg h0]
    dsimp only
    by_cases h1 : maxCacheSize < (c.foldl (fun acc kv =>
        if maxCacheAge < now - kv.2.timestamp then delA acc kv.1 else acc) c).length
    · rw [if_pos h1]
      have hle := cleanupFold_le now c c
      have hlen : (c.foldl (fun acc kv =>
          if maxCacheAge < now - kv.2.timestamp then delA acc kv.1 else acc) c).length =
          c.length := by omega
      rw [cleanupFold_eq_of_length now c c hlen]
      have hc101 : c.length = maxCacheSize + 1 := by omega
      have hone : c.length - maxCacheSize = 1 := by omega
      rw [hone]
      cases hs : sortByTs c with
      | nil =>
        have := sortByTs_length c
        rw [hs] at this
        simp at this
        omega
      | cons x rest =>
        have hx : x ∈ c := sortByTs_mem (hs ▸ List.mem_cons_self x rest)
        simp only [List.take_succ_cons, List.take_zero, List.foldl_cons, List.foldl_nil]
        have := delA_length_of_mem hx
        omega
    · rw [if_neg h1]
      omega

/-- One `DocumentCache.get` keeps the cache within the size bound. -/
theorem cacheGet_bound {c : CacheMap} (uri : Txt) (version : Nat) (text : Txt)
    (now : Nat) (h : c.length ≤ maxCacheSize) :
    ((cacheGet c uri version text now).2).length ≤ maxCacheSize := by
  unfold cacheGet
  cases hl : lookupA c uri with
  | some cached =>
    dsimp only
    by_cases hv : cached.version = version
    · rw [if_pos hv]
      dsimp only
      rw [setA_length_of_lookup _ hl]
      exact h
    · rw [if_neg hv]
      dsimp only
      exact cleanup_bound (le_trans (setA_length_le _ _ _) (by omega))
  | none =>
    dsimp only
    exact cleanup_bound (le_trans (setA_length_le _ _ _) (by omega))

theorem foldOps_bound : ∀ (ops : List CacheOp) (c : CacheMap),
    c.length ≤ maxCacheSize → (ops.foldl applyOp c).length ≤ maxCacheSize
  | [], _, h => h
  | op :: ops, c, h => by
    simp only [List.foldl_cons]
    refine foldOps_bound ops _ ?_
    cases op with
    | get uri version text now => exact cacheGet_bound uri version text now h
    | invalidate uri => exact le_trans (delA_length_le c uri) h
    | clear => exact Nat.zero_le _

/-- C3: after every `DocumentCache.get` on a cache reached by any sequence of
operations from the empty cache, the number of cached entries is at most the
maximum cache size (100): the insertion adds at most one entry, and `cleanup`
(age pass, then oldest-by-timestamp deletions) restores the bound. -/
theorem C3_cache_size_bound (ops : List CacheOp) (uri : Txt) (version : Nat)
    (text : Txt) (now : Nat) :
    ((cacheGet (runOps ops) uri version text now).2).length ≤ maxCacheSize :=
  cacheGet_bound uri version text now (foldOps_bound ops [] (Nat.zero_le _))

-- ==== Handlebars definition-resolution facts ====

theorem hbInlineLookup_some_mem : ∀ {entries : List HbEntry} {offset : Nat}
    {name : Txt} {l : Nat × Nat},
    hbInlineLookup entries offset name = some l →
    ∃ e ∈ entries, posInRange offset e.range = true ∧
      lookupA e.inlineByName name = some l
  | [], _, _, _, h => by simp [hbInlineLookup] at h
  | e :: rest, offset, name, l, h => by
    unfold hbInlineLookup at h
    by_cases hin : posInRange offset e.range = true
    · rw [if_pos hin] at h
      cases hl : lookupA e.inlineByName name with
      | some l' =>
        rw [hl] at h
        dsimp only at h
        have := Option.some.inj h
        subst this
        exact ⟨e, List.mem_cons_self _ _, hin, hl⟩
      | none =>
        rw [hl] at h
        dsimp only at h
        obtain ⟨e', he', h1, h2⟩ := hbInlineLookup_some_mem h
        exact ⟨e', List.mem_cons_of_mem _ he', h1, h2⟩
    · rw [if_neg hin] at h
      obtain ⟨e', he', h1, h2⟩ := hbInlineLookup_some_mem h
      exact ⟨e', List.mem_cons_of_mem _ he', h1, h2⟩

theorem hbInlineLookup_none : ∀ {entries : List HbEntry} {offset : Nat} {name : Txt},
    hbInlineLookup entries offset name = none →
    ∀ e ∈ entries, posInRange offset e.range = true →
      lookupA e.inlineByName name = none
  | [], _, _, _, e, he, _ => absurd he (List.not_mem_nil e)
  | e0 :: rest, offset, name, h, e, he, hin => by
    unfold hbInlineLookup at h
    by_cases h0 : posInRange offset e0.range = true
    · rw [if_pos h0] at h
      cases hl : lookupA e0.inlineByName name with
      | some l' =>
        rw [hl] at h
        dsimp only at h
        exact Option.noConfusion h
      | none =>
        rw [hl] at h
        dsimp only at h
        rcases List.mem_cons.mp he with he' | he'
        · exact he' ▸ hl
        · exact hbInlineLookup_none h e he' hin
    · rw [if_neg h0] at h
      rcases List.mem_cons.mp he with he' | he'
      · exact absurd (he' ▸ hin) h0
      · exact hbInlineLookup_none h e he' hin

theorem hbResolveUses_inline {hb : HandlebarsSymbols} {offset : Nat} {name : Txt}
    {l : Nat × Nat}
    (hl : hbInlineLookup hb.inlineDefsByContent offset name = some l) :
    ∀ {uses : List (Nat × Nat)} {u : Nat × Nat}, u ∈ uses →
      posInRange offset u = true → hbResolveUses hb offset name uses = some l
  | [], u, hu, _ => absurd hu (List.not_mem_nil u)
  | u0 :: rest, u, hu, hhit => by
    unfold hbResolveUses
    by_cases h0 : posInRange offset u0 = true
    · rw [if_pos h0, hl]
    · rw [if_neg h0]
      rcases List.mem_cons.mp hu with h | h
      · exact absurd (h ▸ hhit) h0
      · exact hbResolveUses_inline hl h hhit

theorem hbResolveUses_global {hb : HandlebarsSymbols} {offset : Nat} {name : Txt}
    {decl : Nat × Nat}
    (hl : hbInlineLookup hb.inlineDefsByContent offset name = none)
    (hd : lookupA hb.declByName name = some decl) :
    ∀ {uses : List (Nat × Nat)} {u : Nat × Nat}, u ∈ uses →
      posInRange offset u = true → hbResolveUses hb offset name uses = some decl
  | [], u, hu, _ => absurd hu (List.not_mem_nil u)
  | u0 :: rest, u, hu, hhit => by
    unfold hbResolveUses
    by_cases h0 : posInRange offset u0 = true
    · rw [if_pos h0, hl, hd]
    · rw [if_neg h0]
      rcases List.mem_cons.mp hu with h | h
      · exact absurd (h ▸ hhit) h0
      · exact hbResolveUses_global hl hd h hhit

/-- C6: for a partial usage hit of `name` (some recorded usage span of `name`
contains the offset), resolution is lexically scoped: when the inner lookup
finds an inline definition — necessarily one held by a content entry whose
range contains the offset — that inline definition is the answer regardless
of any global declaration; the global `declByName` entry is used only when no
containing content entry defines `name` inline. -/
theorem C6_inline_shadows_global {hb : HandlebarsSymbols} {offset : Nat}
    {name : Txt} {uses : List (Nat × Nat)} {u : Nat × Nat}
    (hu : u ∈ uses) (hhit : posInRange offset u = true) :
    (∀ l, hbInlineLookup hb.inlineDefsByContent offset name = some l →
      hbResolveUses hb offset name uses = some l ∧
      ∃ e ∈ hb.inlineDefsByContent, posInRange offset e.range = true ∧
        lookupA e.inlineByName name = some l) ∧
    (hbInlineLookup hb.inlineDefsByContent offset name = none →
      (∀ e ∈ hb.inlineDefsByContent, posInRange offset e.range = true →
        lookupA e.inlineByName name = none) ∧
      ∀ decl, lookupA hb.declByName name = some decl →
        hbResolveUses hb offset name uses = some decl) := by
  refine ⟨fun l hl => ⟨hbResolveUses_inline hl hu hhit, hbInlineLookup_some_mem hl⟩,
    fun hl => ⟨hbInlineLookup_none hl, fun decl hd => hbResolveUses_global hl hd hu hhit⟩⟩

/-- Witness for C6 on `tC6` (inline definition shadows the global declaration
at offset 67, the `x` of the usage) and `tC6b` (no inline definition — the
global declaration at span `(11, 12)` is the answer). -/
theorem C6_inline_shadows_global_witness :
    collectHandlebarsSymbolsF tC6 = some hbC6 ∧
    hbResolveUses hbC6 67 "x".toList [(67, 68)] = some (47, 48) ∧
    getHandlebarsDefinition hbC6 67 = some (47, 48) ∧
    lookupA hbC6.declByName "x".toList = some (11, 12) ∧
    collectHandlebarsSymbolsF tC6b = some hbC6b ∧
    getHandlebarsDefinition hbC6b 39 = some (11, 12) :=
  ⟨by decide,
    ((@C6_inline_shadows_global hbC6 67 "x".toList [(67, 68)] (67, 68)
      (by decide) (by decide)).1 (47, 48) (by decide)).1,
    by decide, by decide, by decide, by decide⟩

-- ==== Duplicate-declaration facts ====

theorem addSet_nodup {l : List Txt} {x : Txt} (h : l.Nodup) : (addSet l x).Nodup := by
  unfold addSet
  split
  · exact h
  · next hc =>
    have hx : x ∉ l := by simpa using hc
    refine List.Nodup.append h (List.nodup_singleton x) ?_
    intro a ha hb
    simp only [List.mem_singleton] at hb
    subst hb
    exact hx ha

theorem addSet_mem (l : List Txt) (x : Txt) : x ∈ addSet l x := by
  unfold addSet
  split
  · next hc => simpa using hc
  · simp

theorem addTypeName_nodup {m : List (Txt × List Txt)} {ty nm : Txt}
    (h : ∀ kv ∈ m, kv.2.Nodup) : ∀ kv ∈ addTypeName m ty nm, kv.2.Nodup := by
  unfold addTypeName
  cases hl : lookupA m ty with
  | some s => exact setA_forall h (addSet_nodup (lookupA_forall h hl))
  | none => exact setA_forall h (addSet_nodup List.nodup_nil)

theorem foldTypeNames_nodup : ∀ (vars : List Variable) (m : List (Txt × List Txt)),
    (∀ kv ∈ m, kv.2.Nodup) →
    ∀ kv ∈ vars.foldl (fun m v => addTypeName m v.varType v.name) m, kv.2.Nodup
  | [], _, h => h
  | v :: vs, m, h => by
    simp only [List.foldl_cons]
    exact foldTypeNames_nodup vs _ (addTypeName_nodup h)

theorem dupVarFoldSeen_mem (t : Txt) : ∀ (ms : List VarDeclMatch) (seen : List Txt)
    (ws : List ParseDiagnostic) (k : Txt),
    k ∈ (ms.foldl (fun (acc : List Txt × List ParseDiagnostic) m =>
        let key := m.varType ++ [':', ':'] ++ m.varName
        if acc.1.contains key then (acc.1, acc.2 ++ [dupVarWarnOf t m])
        else (acc.1 ++ [key], acc.2)) (seen, ws)).1 ↔
      k ∈ seen ∨ k ∈ ms.map (fun m => m.varType ++ [':', ':'] ++ m.varName)
  | [], seen, ws, k => by simp
  | m :: ms, seen, ws, k => by
    simp only [List.foldl_cons, List.map_cons, List.mem_cons]
    by_cases hc : seen.contains (m.varType ++ [':', ':'] ++ m.varName) = true
    · rw [if_pos hc]
      rw [dupVarFoldSeen_mem t ms seen _ k]
      have hm : (m.varType ++ [':', ':'] ++ m.varName) ∈ seen := by simpa using hc
      constructor
      · rintro (h | h)
        · exact Or.inl h
        · exact Or.inr (Or.inr h)
      · rintro (h | h | h)
        · exact Or.inl h
        · exact Or.inl (h ▸ hm)
        · exact Or.inr h
    · rw [if_neg hc]
      rw [dupVarFoldSeen_mem t ms _ _ k]
      simp only [List.mem_append, List.mem_singleton]
      tauto

/-- C7: duplicate typed-variable declarations. (i) the per-type name sets of
`variablesByType` never hold a name twice (and a parsed variable's name is in
its type's set); (ii) re-parsing a declaration of an existing `type::name`
key overwrites the recorded range with the new declaration's — the last
declaration wins; (iii) appending a declaration match whose key is fresh adds
no duplicate warning (so first occurrences are never warned), while appending
one whose key already occurred appends exactly one `warning` diagnostic, on
that later occurrence. -/
theorem C7_duplicate_variable_declarations :
    (∀ (vars : List Variable) (ty : Txt) (s : List Txt),
      lookupA (vars.foldl (fun m v => addTypeName m v.varType v.name) []) ty =
        some s → s.Nodup) ∧
    (∀ (t : Txt) (s s' : PState) (v : Variable),
      parseVariableS t s = .ok (v, s') →
      ∃ e, lookupA s'.variableRanges (v.varType ++ [':', ':'] ++ v.name) =
        some (s.pos, e)) ∧
    (∀ (t : Txt) (ms : List VarDeclMatch) (m : VarDeclMatch),
      (m.varType ++ [':', ':'] ++ m.varName) ∉
        ms.map (fun m' => m'.varType ++ [':', ':'] ++ m'.varName) →
      dupVarFold t (ms ++ [m]) = dupVarFold t ms) ∧
    (∀ (t : Txt) (ms : List VarDeclMatch) (m : VarDeclMatch),
      (m.varType ++ [':', ':'] ++ m.varName) ∈
        ms.map (fun m' => m'.varType ++ [':', ':'] ++ m'.varName) →
      dupVarFold t (ms ++ [m]) = dupVarFold t ms ++
        [dupVarWarnOf t m] ∧ (dupVarWarnOf t m).severity = Severity.warning) := by
  refine ⟨?_, ?_, ?_, ?_⟩
  · intro vars ty s h
    have := lookupA_forall (foldTypeNames_nodup vars []
      (fun kv hkv => absurd hkv (List.not_mem_nil kv))) h
    exact this
  · intro t s s' v h
    obtain ⟨-, -, -, -, e, hset, -, -, -⟩ := parseVariableS_ok h
    exact ⟨e, by rw [hset]; exact lookupA_setA_self _ _ _⟩
  · intro t ms m hfresh
    unfold dupVarFold
    rw [List.foldl_append]
    simp only [List.foldl_cons, List.foldl_nil]
    have hc : ((ms.foldl (fun (acc : List Txt × List ParseDiagnostic) m =>
        let key := m.varType ++ [':', ':'] ++ m.varName
        if acc.1.contains key then (acc.1, acc.2 ++ [dupVarWarnOf t m])
        else (acc.1 ++ [key], acc.2)) ([], [])).1.contains
          (m.varType ++ [':', ':'] ++ m.varName)) = false := by
      rw [Bool.eq_false_iff]
      intro hcc
      have := (dupVarFoldSeen_mem t ms [] [] _).mp (by simpa using hcc)
      simp only [List.not_mem_nil, false_or] at this
      rw [List.append_assoc] at hfresh
      exact hfresh this
    rw [hc]
    simp
  · intro t ms m hdup
    refine ⟨?_, rfl⟩
    unfold dupVarFold
    rw [List.foldl_append]
    simp only [List.foldl_cons, List.foldl_nil]
    have hc : ((ms.foldl (fun (acc : List Txt × List ParseDiagnostic) m =>
        let key := m.varType ++ [':', ':'] ++ m.varName
        if acc.1.contains key then (acc.1, acc.2 ++ [dupVarWarnOf t m])
        else (acc.1 ++ [key], acc.2)) ([], [])).1.contains
          (m.varType ++ [':', ':'] ++ m.varName)) = true := by
      have := (dupVarFoldSeen_mem t ms [] [] (m.varType ++ [':', ':'] ++ m.varName)).mpr
        (Or.inr hdup)
      simpa using this
    rw [hc]
    simp

/-- Witness for C7 on `pg q` declared twice (`tC7`): the regex scan finds the
two matches, the duplicate fold warns exactly on the second, the document
model keeps one `variablesByType` entry, and the recorded range for `pg::q`
is the second declaration's. -/
theorem C7_duplicate_variable_declarations_witness :
    scanAll matchVarDeclAt tC7 = some [m1C7, m2C7] ∧
    (dupVarFold tC7 ([m1C7] ++ [m2C7]) = dupVarFold tC7 [m1C7] ++
      [dupVarWarnOf tC7 m2C7] ∧ (dupVarWarnOf tC7 m2C7).severity = Severity.warning) ∧
    dupVarWarnings tC7 = some [⟨"Duplicate pg variable: q", 14, 15, .warning⟩] ∧
    (createDocumentModelF tC7).map (fun dm => dm.variablesByType) =
      some [("pg".toList, ["q".toList])] ∧
    (getVariableRangesF tC7).map (fun vr => lookupA vr "pg::q".toList) =
      some (some (11, 21)) :=
  ⟨by decide,
    C7_duplicate_variable_declarations.2.2.2 tC7 [m1C7] m2C7 (by decide),
    by decide, by decide, by decide⟩

/-- C8: the validation boundary never propagates an exception. For every
document and every behaviour of the remaining validation steps, the parse
underneath succeeds, and `validateDocument` publishes a diagnostic set: the
diagnostics accumulated up to the throw when the steps throw (the failing
pass surfaces as no further diagnostics), the completed set when they run to
completion. -/
theorem C8_exceptions_swallowed (t : Txt)
    (rest : List ParseDiagnostic → TryOutcome (List ParseDiagnostic)) :
    ∃ prog parseDiags, parseProgramWithDiagnosticsF t = some (prog, parseDiags) ∧
      (∀ d, rest (validateTrailingNewline t ++ parseDiags) = .thrown d →
        validateDocumentF t rest = d) ∧
      (∀ d, rest (validateTrailingNewline t ++ parseDiags) = .ok d →
        validateDocumentF t rest = d) := by
  obtain ⟨prog, s, hrun, -⟩ := parseProgramRun_total t
  have hp : parseProgramWithDiagnosticsF t = some (prog, s.diags) := by
    unfold parseProgramWithDiagnosticsF
    rw [hrun]
    rfl
  refine ⟨prog, s.diags, hp, ?_, ?_⟩
  · intro d hd
    unfold validateDocumentF validateReferencesF
    rw [hp]
    dsimp only
    rw [hd]
  · intro d hd
    unfold validateDocumentF validateReferencesF
    rw [hp]
    dsimp only
    rw [hd]

/-- Witness for C8: on the empty document with an immediately-throwing
remaining pass, validation still publishes (the empty set). -/
theorem C8_exceptions_swallowed_witness : validateDocumentF [] restC8 = [] := by
  obtain ⟨prog, pd, h1, hthr, -⟩ := C8_exceptions_swallowed [] restC8
  have h2 : parseProgramWithDiagnosticsF ([] : Txt) = some (emptyProgram, []) := rfl
  rw [h2] at h1
  have hpd : pd = [] := (congrArg Prod.snd (Option.some.inj h1)).symm
  subst hpd
  have := hthr (validateTrailingNewline [] ++ []) rfl
  rw [this]
  rfl

-- ==== Reference-scanner anchoring facts ====

theorem countWhile_chars {pred : Char → Bool} {t : Txt} {p m : Nat}
    (h1 : p ≤ m) (h2 : m < p + countWhile pred t p) :
    ∃ c, charAt t m = some c ∧ pred c = true := by
  unfold countWhile at h2
  have hk : m - p < ((t.drop p).takeWhile pred).length := by omega
  have htake := take_takeWhile_length pred (t.drop p)
  have hel : ((t.drop p).takeWhile pred)[m - p]? = (t.drop p)[m - p]? := by
    rw [← htake]
    exact List.getElem?_take_of_lt hk
  have hsome := List.getElem?_eq_getElem hk
  have hmem : ((t.drop p).takeWhile pred)[m - p] ∈ (t.drop p).takeWhile pred :=
    List.getElem?_mem hsome
  refine ⟨((t.drop p).takeWhile pred)[m - p], ?_, List.mem_takeWhile_imp hmem⟩
  unfold charAt
  have : (t.drop p)[m - p]? = t[m]? := by
    rw [List.getElem?_drop]
    congr 1
    omega
  rw [← this, ← hel, hsome]

theorem wsPlus_ge {t : Txt} {p q : Nat} (h : wsPlus t p = some q) : p ≤ q := by
  unfold wsPlus at h
  dsimp only at h
  split at h
  · exact Option.noConfusion h
  · cases h; omega

theorem anchorAt_some {t : Txt} {i j : Nat} (h : anchorAt t i = some j) :
    (i = 0 ∧ j = 0) ∨ (charAt t i = some '\n' ∧ j = i + 1) := by
  unfold anchorAt at h
  split at h
  · next hi =>
    cases h
    exact Or.inl ⟨hi, rfl⟩
  · split at h
    · next hc =>
      cases h
      exact Or.inr ⟨hc, rfl⟩
    · exact Option.noConfusion h

theorem charAt_of_matchTok {t rest : Txt} {c : Char} {p p' : Nat}
    (h : matchTok t (c :: rest) p = some p') : charAt t p = some c := by
  obtain ⟨-, hpre⟩ := matchTok_some h
  obtain ⟨tail, htail⟩ := hpre
  unfold charAt
  have : (t.drop p)[0]? = some c := by rw [← htail]; simp
  rw [List.getElem?_drop] at this
  simpa using this

/-- The anchoring property every scanner matcher establishes for a recorded
occurrence: the match's shape starts at the first non-whitespace position
after the match's own anchor point (the start of the text, or just past the
newline at the match index), at or before the occurrence. -/
theorem anchored_of_parts {t : Txt} {i j n : Nat} {c : Char}
    (ha : anchorAt t i = some j) (hc : charAt t (wsStar t j) = some c)
    (hws : isJsWs c = false) (hle : wsStar t j ≤ n) :
    AnchoredShapeAt t i n :=
  ⟨j, wsStar t j, anchorAt_some ha, wsStar_ge t j, hle,
    fun m h1 h2 => countWhile_chars h1 (by unfold wsStar at h2; omega),
    c, hc, hws⟩

theorem matchPipeRefAt_anchored {t : Txt} {i e : Nat} {occ : RefOcc}
    (h : matchPipeRefAt t i = some (e, occ)) :
    AnchoredShapeAt t i occ.start := by
  unfold matchPipeRefAt at h
  cases ha : anchorAt t i with
  | none => rw [ha] at h; exact Option.noConfusion h
  | some j =>
    rw [ha] at h
    dsimp only at h
    cases h1 : matchTok t ['|', '>'] (wsStar t j) with
    | none => rw [h1] at h; exact Option.noConfusion h
    | some j2 =>
      rw [h1] at h
      dsimp only at h
      cases h2 : matchTok t "pipeline".toList (wsStar t j2) with
      | none => rw [h2] at h; exact Option.noConfusion h
      | some j4 =>
        rw [h2] at h
        dsimp only at h
        cases h3 : matchTok t [':'] (wsStar t j4) with
        | none => rw [h3] at h; exact Option.noConfusion h
        | some j6 =>
          rw [h3] at h
          dsimp only at h
          cases h4 : parseIdentifier t (wsStar t j6) with
          | none => rw [h4] at h; exact Option.noConfusion h
          | some nmp =>
            obtain ⟨name, j8⟩ := nmp
            rw [h4] at h
            dsimp only at h
            have hocc : occ = ⟨[], [], name, wsStar t j6⟩ :=
              (congrArg Prod.snd (Option.some.inj h)).symm
            refine anchored_of_parts ha (charAt_of_matchTok h1) (by decide) ?_
            rw [hocc]
            have g1 := matchTok_ge h1
            have g2 := wsStar_ge t j2
            have g3 := matchTok_ge h2
            have g4 := wsStar_ge t j4
            have g5 := matchTok_ge h3
            have g6 := wsStar_ge t j6
            dsimp only
            omega

theorem matchWhenPipeAt_anchored {t : Txt} {i e : Nat} {occ : RefOcc}
    (h : matchWhenPipeAt t i = some (e, occ)) :
    AnchoredShapeAt t i occ.start := by
  unfold matchWhenPipeAt at h
  cases ha : anchorAt t i with
  | none => rw [ha] at h; exact Option.noConfusion h
  | some j =>
    rw [ha] at h
    dsimp only at h
    cases h1 : matchTok t "when".toList (wsStar t j) with
    | none => rw [h1] at h; exact Option.noConfusion h
    | some j2 =>
      rw [h1] at h
      dsimp only at h
      cases h2 : wsPlus t j2 with
      | none => rw [h2] at h; exact Option.noConfusion h
      | some j3 =>
        rw [h2] at h
        dsimp only at h
        cases h3 : matchTok t "executing".toList j3 with
        | none => rw [h3] at h; exact Option.noConfusion h
        | some j4 =>
          rw [h3] at h
          dsimp only at h
          cases h4 : wsPlus t j4 with
          | none => rw [h4] at h; exact Option.noConfusion h
          | some j5 =>
            rw [h4] at h
            dsimp only at h
            cases h5 : matchTok t "pipeline".toList j5 with
            | none => rw [h5] at h; exact Option.noConfusion h
            | some j6 =>
              rw [h5] at h
              dsimp only at h
              cases h6 : wsPlus t j6 with
              | none => rw [h6] at h; exact Option.noConfusion h
              | some j7 =>
                rw [h6] at h
                dsimp only at h
                cases h7 : parseIdentifier t j7 with
                | none => rw [h7] at h; exact Option.noConfusion h
                | some nmp =>
                  obtain ⟨name, j8⟩ := nmp
                  rw [h7] at h
                  dsimp only at h
                  have hocc : occ = ⟨[], [], name, j7⟩ :=
                    (congrArg Prod.snd (Option.some.inj h)).symm
                  refine anchored_of_parts ha
                    (charAt_of_matchTok (by exact h1)) (by decide) ?_
                  rw [hocc]
                  have g1 := matchTok_ge h1
                  have g2 := wsPlus_ge h2
                  have g3 := matchTok_ge h3
                  have g4 := wsPlus_ge h4
                  have g5 := matchTok_ge h5
                  have g6 := wsPlus_ge h6
                  dsimp only
                  omega

theorem matchMockPipeAt_anchored {t : Txt} {i e : Nat} {occ : RefOcc}
    (h : matchMockPipeAt t i = some (e, occ)) :
    AnchoredShapeAt t i occ.start := by
  unfold matchMockPipeAt at h
  cases ha : anchorAt t i with
  | none => rw [ha] at h; exact Option.noConfusion h
  | some j =>
    rw [ha] at h
    dsimp only at h
    cases h1 : withOrAnd t (wsStar t j) with
    | none => rw [h1] at h; exact Option.noConfusion h
    | some j2 =>
      rw [h1] at h
      dsimp only at h
      have hchar : ∃ c, charAt t (wsStar t j) = some c ∧ isJsWs c = false := by
        unfold withOrAnd at h1
        cases hw : matchTok t "with".toList (wsStar t j) with
        | some jw => exact ⟨'w', charAt_of_matchTok (by exact hw), by decide⟩
        | none =>
          rw [hw] at h1
          exact ⟨'a', charAt_of_matchTok (by exact h1), by decide⟩
      cases h2 : wsPlus t j2 with
      | none => rw [h2] at h; exact Option.noConfusion h
      | some j3 =>
        rw [h2] at h
        dsimp only at h
        cases h3 : matchTok t "mock".toList j3 with
        | none => rw [h3] at h; exact Option.noConfusion h
        | some j4 =>
          rw [h3] at h
          dsimp only at h
          cases h4 : wsPlus t j4 with
          | none => rw [h4] at h; exact Option.noConfusion h
          | some j5 =>
            rw [h4] at h
            dsimp only at h
            cases h5 : matchTok t "pipeline".toList j5 with
            | none => rw [h5] at h; exact Option.noConfusion h
            | some j6 =>
              rw [h5] at h
              dsimp only at h
              cases h6 : wsPlus t j6 with
              | none => rw [h6] at h; exact Option.noConfusion h
              | some j7 =>
                rw [h6] at h
                dsimp only at h
                cases h7 : parseIdentifier t j7 with
                | none => rw [h7] at h; exact Option.noConfusion h
                | some nmp =>
                  obtain ⟨name, j8⟩ := nmp
                  rw [h7] at h
                  dsimp only at h
                  cases h8 : wsPlus t j8 with
                  | none => rw [h8] at h; exact Option.noConfusion h
                  | some j9 =>
                    rw [h8] at h
                    dsimp only at h
                    cases h9 : matchTok t "returning".toList j9 with
                    | none => rw [h9] at h; exact Option.noConfusion h
                    | some j10 =>
                      rw [h9] at h
                      dsimp only at h
                      cases h10 : wsPlus t j10 with
                      | none => rw [h10] at h; exact Option.noConfusion h
                      | some j11 =>
                        rw [h10] at h
                        dsimp only at h
                        cases h11 : matchTok t [btick] j11 with
                        | none => rw [h11] at h; exact Option.noConfusion h
                        | some j12 =>
                          rw [h11] at h
                          dsimp only at h
                          have hocc : occ = ⟨[], [], name, j7⟩ :=
                            (congrArg Prod.snd (Option.some.inj h)).symm
                          obtain ⟨c, hc, hcw⟩ := hchar
                          refine anchored_of_parts ha hc hcw ?_
                          rw [hocc]
                          have hwa : wsStar t j ≤ j2 := by
                            unfold withOrAnd at h1
                            cases hw : matchTok t "with".toList (wsStar t j) with
                            | some jw =>
                              rw [hw] at h1
                              cases h1
                              exact matchTok_ge hw
                            | none =>
                              rw [hw] at h1
                              exact matchTok_ge h1
                          have g2 := wsPlus_ge h2
                          have g3 := matchTok_ge h3
                          have g4 := wsPlus_ge h4
                          have g5 := matchTok_ge h5
                          have g6 := wsPlus_ge h6
                          dsimp only
                          omega

theorem matchStepVarAt_anchored {t : Txt} {i e : Nat} {occ : RefOcc}
    (h : matchStepVarAt t i = some (e, occ)) :
    AnchoredShapeAt t i occ.start := by
  unfold matchStepVarAt at h
  cases ha : anchorAt t i with
  | none => rw [ha] at h; exact Option.noConfusion h
  | some j =>
    rw [ha] at h
    dsimp only at h
    cases h1 : matchTok t ['|', '>'] (wsStar t j) with
    | none => rw [h1] at h; exact Option.noConfusion h
    | some j2 =>
      rw [h1] at h
      dsimp only at h
      cases h2 : parseIdentifier t (wsStar t j2) with
      | none => rw [h2] at h; exact Option.noConfusion h
      | some stp =>
        obtain ⟨stepType, j4⟩ := stp
        rw [h2] at h
        dsimp only at h
        cases h3 : matchTok t [':'] (wsStar t j4) with
        | none => rw [h3] at h; exact Option.noConfusion h
        | some j6 =>
          rw [h3] at h
          dsimp only at h
          cases h4 : parseIdentifier t (wsStar t j6) with
          | none => rw [h4] at h; exact Option.noConfusion h
          | some nmp =>
            obtain ⟨varName, j8⟩ := nmp
            rw [h4] at h
            dsimp only at h
            have hocc : occ = ⟨stepType, [], varName, wsStar t j6⟩ :=
              (congrArg Prod.snd (Option.some.inj h)).symm
            refine anchored_of_parts ha (charAt_of_matchTok h1) (by decide) ?_
            rw [hocc]
            have g1 := matchTok_ge h1
            have g2 := wsStar_ge t j2
            have g3 := (parseIdentifier_some h2).1
            have g4 := wsStar_ge t j4
            have g5 := matchTok_ge h3
            have g6 := wsStar_ge t j6
            dsimp only
            omega

theorem matchWhenVarAt_anchored {t : Txt} {i e : Nat} {occ : RefOcc}
    (h : matchWhenVarAt t i = some (e, occ)) :
    AnchoredShapeAt t i occ.start := by
  unfold matchWhenVarAt at h
  cases ha : anchorAt t i with
  | none => rw [ha] at h; exact Option.noConfusion h
  | some j =>
    rw [ha] at h
    dsimp only at h
    cases h1 : matchTok t "when".toList (wsStar t j) with
    | none => rw [h1] at h; exact Option.noConfusion h
    | some j2 =>
      rw [h1] at h
      dsimp only at h
      cases h2 : wsPlus t j2 with
      | none => rw [h2] at h; exact Option.noConfusion h
      | some j3 =>
        rw [h2] at h
        dsimp only at h
        cases h3 : matchTok t "executing".toList j3 with
        | none => rw [h3] at h; exact Option.noConfusion h
        | some j4 =>
          rw [h3] at h
          dsimp only at h
          cases h4 : wsPlus t j4 with
          | none => rw [h4] at h; exact Option.noConfusion h
          | some j5 =>
            rw [h4] at h
            dsimp only at h
            cases h5 : matchTok t "variable".toList j5 with
            | none => rw [h5] at h; exact Option.noConfusion h
            | some j6 =>
              rw [h5] at h
              dsimp only at h
              cases h6 : wsPlus t j6 with
              | none => rw [h6] at h; exact Option.noConfusion h
              | some j7 =>
                rw [h6] at h
                dsimp only at h
                cases h7 : parseIdentifier t j7 with
                | none => rw [h7] at h; exact Option.noConfusion h
                | some vtp =>
                  obtain ⟨varType, j8⟩ := vtp
                  rw [h7] at h
                  dsimp only at h
                  cases h8 : wsPlus t j8 with
                  | none => rw [h8] at h; exact Option.noConfusion h
                  | some j9 =>
                    rw [h8] at h
                    dsimp only at h
                    cases h9 : parseIdentifier t j9 with
                    | none => rw [h9] at h; exact Option.noConfusion h
                    | some vnp =>
                      obtain ⟨varName, j10⟩ := vnp
                      rw [h9] at h
                      dsimp only at h
                      have hocc : occ = ⟨varType, [], varName, j9⟩ :=
                        (congrArg Prod.snd (Option.some.inj h)).symm
                      refine anchored_of_parts ha
                        (charAt_of_matchTok (by exact h1)) (by decide) ?_
                      rw [hocc]
                      have g1 := matchTok_ge h1
                      have g2 := wsPlus_ge h2
                      have g3 := matchTok_ge h3
                      have g4 := wsPlus_ge h4
                      have g5 := matchTok_ge h5
                      have g6 := wsPlus_ge h6
                      have g7 := (parseIdentifier_some h7).1
                      have g8 := wsPlus_ge h8
                      dsimp only
                      omega

theorem matchMockVarAt_anchored {t : Txt} {i e : Nat} {occ : RefOcc}
    (h : matchMockVarAt t i = some (e, occ)) :
    AnchoredShapeAt t i occ.start := by
  unfold matchMockVarAt at h
  cases ha : anchorAt t i with
  | none => rw [ha] at h; exact Option.noConfusion h
  | some j =>
    rw [ha] at h
    dsimp only at h
    cases h1 : withOrAnd t (wsStar t j) with
    | none => rw [h1] at h; exact Option.noConfusion h
    | some j2 =>
      rw [h1] at h
      dsimp only at h
      have hchar : ∃ c, charAt t (wsStar t j) = some c ∧ isJsWs c = false := by
        unfold withOrAnd at h1
        cases hw : matchTok t "with".toList (wsStar t j) with
        | some jw => exact ⟨'w', charAt_of_matchTok (by exact hw), by decide⟩
        | none =>
          rw [hw] at h1
          exact ⟨'a', charAt_of_matchTok (by exact h1), by decide⟩
      have hwa : wsStar t j ≤ j2 := by
        unfold withOrAnd at h1
        cases hw : matchTok t "with".toList (wsStar t j) with
        | some jw =>
          rw [hw] at h1
          cases h1
          exact matchTok_ge hw
        | none =>
          rw [hw] at h1
          exact matchTok_ge h1
      cases h2 : wsPlus t j2 with
      | none => rw [h2] at h; exact Option.noConfusion h
      | some j3 =>
        rw [h2] at h
        dsimp only at h
        cases h3 : matchTok t "mock".toList j3 with
        | none => rw [h3] at h; exact Option.noConfusion h
        | some j4 =>
          rw [h3] at h
          dsimp only at h
          cases h4 : wsPlus t j4 with
          | none => rw [h4] at h; exact Option.noConfusion h
          | some j5 =>
            rw [h4] at h
            dsimp only at h
            cases h5 : parseIdentifier t j5 with
            | none => rw [h5] at h; exact Option.noConfusion h
            | some vtp =>
              obtain ⟨varType, j6⟩ := vtp
              rw [h5] at h
              dsimp only at h
              cases h6 : matchTok t ['.'] j6 with
              | none => rw [h6] at h; exact Option.noConfusion h
              | some j7 =>
                rw [h6] at h
                dsimp only at h
                cases h7 : parseIdentifier t j7 with
                | none => rw [h7] at h; exact Option.noConfusion h
                | some vnp =>
                  obtain ⟨varName, j8⟩ := vnp
                  rw [h7] at h
                  dsimp only at h
                  cases h8 : wsPlus t j8 with
                  | none => rw [h8] at h; exact Option.noConfusion h
                  | some j9 =>
                    rw [h8] at h
                    dsimp only at h
                    cases h9 : matchTok t "returning".toList j9 with
                    | none => rw [h9] at h; exact Option.noConfusion h
                    | some j10 =>
                      rw [h9] at h
                      dsimp only at h
                      cases h10 : wsPlus t j10 with
                      | none => rw [h10] at h; exact Option.noConfusion h
                      | some j11 =>
                        rw [h10] at h
                        dsimp only at h
                        cases h11 : matchTok t [btick] j11 with
                        | none => rw [h11] at h; exact Option.noConfusion h
                        | some j12 =>
                          rw [h11] at h
                          dsimp only at h
                          have hocc : occ = ⟨varType, [], varName, j7⟩ :=
                            (congrArg Prod.snd (Option.some.inj h)).symm
                          obtain ⟨c, hc, hcw⟩ := hchar
                          refine anchored_of_parts ha hc hcw ?_
                          rw [hocc]
                          have g2 := wsPlus_ge h2
                          have g3 := matchTok_ge h3
                          have g4 := wsPlus_ge h4
                          have g5 := (parseIdentifier_some h5).1
                          have g6 := matchTok_ge h6
                          dsimp only
                          omega

-- ==== Scan-loop and reference-map membership facts ====

theorem scanMatchesF_sound {β : Type} (matcher : Txt → Nat → Option (Nat × β)) :
    ∀ (fuel : Nat) (t : Txt) (i : Nat) (acc out : List β),
      scanMatchesF matcher fuel t i acc = some out →
      ∀ b ∈ out, b ∈ acc ∨ ∃ k e, matcher t k = some (e, b)
  | 0, _, _, _, _, h => Option.noConfusion h
  | fuel + 1, t, i, acc, out, h => by
    rw [scanMatchesF] at h
    by_cases hlen : t.length < i
    · rw [if_pos hlen] at h
      have : acc = out := Option.some.inj h
      subst this
      exact fun b hb => Or.inl hb
    · rw [if_neg hlen] at h
      cases hm : matcher t i with
      | some r =>
        obtain ⟨e, b0⟩ := r
        rw [hm] at h
        intro b hb
        rcases scanMatchesF_sound matcher fuel t e (acc ++ [b0]) out h b hb with h' | h'
        · rcases List.mem_append.mp h' with h'' | h''
          · exact Or.inl h''
          · simp only [List.mem_singleton] at h''
            subst h''
            exact Or.inr ⟨i, e, hm⟩
        · exact Or.inr h'
      | none =>
        rw [hm] at h
        exact scanMatchesF_sound matcher fuel t (i + 1) acc out h

theorem scanAll_sound {β : Type} {matcher : Txt → Nat → Option (Nat × β)}
    {t : Txt} {out : List β} (h : scanAll matcher t = some out) :
    ∀ b ∈ out, ∃ k e, matcher t k = some (e, b) := by
  intro b hb
  rcases scanMatchesF_sound matcher (t.length + 2) t 0 [] out h b hb with h' | h'
  · exact absurd h' (List.not_mem_nil b)
  · exact h'

theorem lookupA_mem {α : Type} : ∀ {m : List (Txt × α)} {k : Txt} {v : α},
    lookupA m k = some v → (k, v) ∈ m
  | [], k, v, h => by simp [lookupA] at h
  | (k', v') :: rest, k, v, h => by
    unfold lookupA at h
    split at h
    · next he =>
      cases h
      rw [← he]
      exact List.mem_cons_self _ _
    · exact List.mem_cons_of_mem _ (lookupA_mem h)

theorem pushRef_mem {m : List (Txt × List PositionInfo)} {k : Txt} {pi : PositionInfo} :
    ∀ kv ∈ pushRef m k pi, ∀ q ∈ kv.2, (∃ kv' ∈ m, q ∈ kv'.2) ∨ q = pi := by
  unfold pushRef
  cases hl : lookupA m k with
  | some l =>
    refine setA_forall ?_ ?_
    · intro kv hkv q hq
      exact Or.inl ⟨kv, hkv, hq⟩
    · intro q hq
      rcases List.mem_append.mp hq with h | h
      · exact Or.inl ⟨(k, l), lookupA_mem hl, h⟩
      · simp only [List.mem_singleton] at h
        exact Or.inr h
  | none =>
    refine setA_forall ?_ ?_
    · intro kv hkv q hq
      exact Or.inl ⟨kv, hkv, hq⟩
    · intro q hq
      simp only [List.mem_singleton] at hq
      exact Or.inr hq

theorem foldRef_mem
    {f : List (Txt × List PositionInfo) → RefOcc → List (Txt × List PositionInfo)}
    (hf : ∀ m r, f m r = m ∨ ∃ k, f m r = pushRef m k ⟨r.start, r.name.length⟩) :
    ∀ (ms : List RefOcc) (m : List (Txt × List PositionInfo)),
      ∀ kv ∈ ms.foldl f m, ∀ q ∈ kv.2,
        (∃ kv' ∈ m, q ∈ kv'.2) ∨ ∃ r ∈ ms, q = ⟨r.start, r.name.length⟩
  | [], m, kv, hkv, q, hq => Or.inl ⟨kv, hkv, hq⟩
  | r0 :: ms, m, kv, hkv, q, hq => by
    simp only [List.foldl_cons] at hkv
    rcases foldRef_mem hf ms (f m r0) kv hkv q hq with h | h
    · obtain ⟨kv', hkv', hq'⟩ := h
      rcases hf m r0 with he | ⟨k, he⟩
      · rw [he] at hkv'
        exact Or.inl ⟨kv', hkv', hq'⟩
      · rw [he] at hkv'
        rcases pushRef_mem kv' hkv' q hq' with h2 | h2
        · exact Or.inl h2
        · exact Or.inr ⟨r0, List.mem_cons_self _ _, h2⟩
    · obtain ⟨r, hr, he⟩ := h
      exact Or.inr ⟨r, List.mem_cons_of_mem _ hr, he⟩

theorem foldPipeOccs_mem {ms : List RefOcc} {m : List (Txt × List PositionInfo)} :
    ∀ kv ∈ foldPipeOccs m ms, ∀ q ∈ kv.2,
      (∃ kv' ∈ m, q ∈ kv'.2) ∨ ∃ r ∈ ms, q = ⟨r.start, r.name.length⟩ :=
  foldRef_mem (fun _ r => Or.inr ⟨r.name, rfl⟩) ms m

theorem foldStepVarOccs_mem {ms : List RefOcc} {m : List (Txt × List PositionInfo)} :
    ∀ kv ∈ foldStepVarOccs m ms, ∀ q ∈ kv.2,
      (∃ kv' ∈ m, q ∈ kv'.2) ∨ ∃ r ∈ ms, q = ⟨r.start, r.name.length⟩ := by
  refine foldRef_mem (fun m r => ?_) ms m
  by_cases hp : r.key1 = "pipeline".toList
  · exact Or.inl (if_pos hp)
  · exact Or.inr ⟨r.key1 ++ [':', ':'] ++ r.name, if_neg hp⟩

theorem foldTypedVarOccs_mem {ms : List RefOcc} {m : List (Txt × List PositionInfo)} :
    ∀ kv ∈ foldTypedVarOccs m ms, ∀ q ∈ kv.2,
      (∃ kv' ∈ m, q ∈ kv'.2) ∨ ∃ r ∈ ms, q = ⟨r.start, r.name.length⟩ :=
  foldRef_mem (fun _ r => Or.inr ⟨r.key1 ++ [':', ':'] ++ r.name, rfl⟩) ms m

/-- C10: every reference the scanner records is line-anchored. Every
recorded occurrence is the output of one of the six reference matchers at
some match index `i` that is the start of the text or holds a newline
(`(^|\n)` in every pattern), and between that match's anchor point and the
first non-whitespace character — the start of this match's shape, at or
before the occurrence — there is whitespace only. So an occurrence of a
reference shape preceded by other non-whitespace text on its line is never
recorded: no anchored match can produce it. -/
theorem C10_references_line_anchored {t : Txt} {rp : ReferencePositions}
    (h : collectReferencePositionsF t = some rp) :
    ∀ kv ∈ rp.variableRefs ++ rp.pipelineRefs, ∀ pi ∈ kv.2,
      ∃ i e occ, pi = ⟨occ.start, occ.name.length⟩ ∧
        (matchPipeRefAt t i = some (e, occ) ∨ matchWhenPipeAt t i = some (e, occ) ∨
         matchMockPipeAt t i = some (e, occ) ∨ matchStepVarAt t i = some (e, occ) ∨
         matchWhenVarAt t i = some (e, occ) ∨ matchMockVarAt t i = some (e, occ)) ∧
        AnchoredShapeAt t i occ.start := by
  simp only [collectReferencePositionsF, bind, Option.bind_eq_some, Option.pure_def,
    Option.some.injEq] at h
  obtain ⟨p1, hp1, p2, hp2, p3, hp3, sv, hsv, wv, hwv, mv, hmv, hrp⟩ := h
  intro kv hkv pi hpi
  rcases List.mem_append.mp hkv with hkv | hkv
  · -- variable references: step, when, mock scans
    have hkv' : kv ∈ foldTypedVarOccs
        (foldTypedVarOccs (foldStepVarOccs [] sv) wv) mv := by
      rw [← hrp] at hkv
      exact hkv
    rcases foldTypedVarOccs_mem kv hkv' pi hpi with hmem | hr
    · obtain ⟨kv2, hkv2, hpi2⟩ := hmem
      rcases foldTypedVarOccs_mem kv2 hkv2 pi hpi2 with hmem | hr
      · obtain ⟨kv3, hkv3, hpi3⟩ := hmem
        rcases foldStepVarOccs_mem kv3 hkv3 pi hpi3 with hmem | hr
        · obtain ⟨kv4, hkv4, -⟩ := hmem
          exact absurd hkv4 (List.not_mem_nil kv4)
        · obtain ⟨r, hrm, he⟩ := hr
          obtain ⟨k, e, hk⟩ := scanAll_sound hsv r hrm
          exact ⟨k, e, r, he, Or.inr (Or.inr (Or.inr (Or.inl hk))),
            matchStepVarAt_anchored hk⟩
      · obtain ⟨r, hrm, he⟩ := hr
        obtain ⟨k, e, hk⟩ := scanAll_sound hwv r hrm
        exact ⟨k, e, r, he, Or.inr (Or.inr (Or.inr (Or.inr (Or.inl hk)))),
          matchWhenVarAt_anchored hk⟩
    · obtain ⟨r, hrm, he⟩ := hr
      obtain ⟨k, e, hk⟩ := scanAll_sound hmv r hrm
      exact ⟨k, e, r, he, Or.inr (Or.inr (Or.inr (Or.inr (Or.inr hk)))),
        matchMockVarAt_anchored hk⟩
  · -- pipeline references: pipe, when, mock scans
    have hkv' : kv ∈ foldPipeOccs (foldPipeOccs (foldPipeOccs [] p1) p2) p3 := by
      rw [← hrp] at hkv
      exact hkv
    rcases foldPipeOccs_mem kv hkv' pi hpi with hmem | hr
    · obtain ⟨kv2, hkv2, hpi2⟩ := hmem
      rcases foldPipeOccs_mem kv2 hkv2 pi hpi2 with hmem | hr
      · obtain ⟨kv3, hkv3, hpi3⟩ := hmem
        rcases foldPipeOccs_mem kv3 hkv3 pi hpi3 with hmem | hr
        · obtain ⟨kv4, hkv4, -⟩ := hmem
          exact absurd hkv4 (List.not_mem_nil kv4)
        · obtain ⟨r, hrm, he⟩ := hr
          obtain ⟨k, e, hk⟩ := scanAll_sound hp1 r hrm
          exact ⟨k, e, r, he, Or.inl hk, matchPipeRefAt_anchored hk⟩
      · obtain ⟨r, hrm, he⟩ := hr
        obtain ⟨k, e, hk⟩ := scanAll_sound hp2 r hrm
        exact ⟨k, e, r, he, Or.inr (Or.inl hk), matchWhenPipeAt_anchored hk⟩
    · obtain ⟨r, hrm, he⟩ := hr
      obtain ⟨k, e, hk⟩ := scanAll_sound hp3 r hrm
      exact ⟨k, e, r, he, Or.inr (Or.inr (Or.inl hk)), matchMockPipeAt_anchored hk⟩

/-- Witness for C10 on `tC10`: the single recorded reference (the `q` of a
whitespace-indented `|> pg: q`) is a matcher output at an anchored index. -/
theorem C10_references_line_anchored_witness :
    ∃ i e occ, (⟨9, 1⟩ : PositionInfo) = ⟨occ.start, occ.name.length⟩ ∧
      (matchPipeRefAt tC10 i = some (e, occ) ∨ matchWhenPipeAt tC10 i = some (e, occ) ∨
       matchMockPipeAt tC10 i = some (e, occ) ∨ matchStepVarAt tC10 i = some (e, occ) ∨
       matchWhenVarAt tC10 i = some (e, occ) ∨ matchMockVarAt tC10 i = some (e, occ)) ∧
      AnchoredShapeAt tC10 i occ.start :=
  @C10_references_line_anchored tC10 rpC10 (by decide)
    ("pg::q".toList, [⟨9, 1⟩]) (by decide) ⟨9, 1⟩ (by decide)

theorem parseIdentifier_head {t : Txt} {p p' : Nat} {nm : Txt}
    (h : parseIdentifier t p = some (nm, p')) :
    ∃ c, charAt t p = some c ∧ isIdentStart c = true := by
  unfold parseIdentifier at h
  cases hc : charAt t p with
  | none => rw [hc] at h; exact Option.noConfusion h
  | some c =>
    rw [hc] at h
    dsimp only at h
    split at h
    · next hs => exact ⟨c, rfl, hs⟩
    · exact Option.noConfusion h

/-- C4 (corrected): a `|> stepType: value` line is recorded as a variable
reference keyed `stepType::name` exactly when the value begins with a bare
identifier `name` and `stepType` is not `pipeline`; the recorded span is
exactly the identifier's (so a backtick or quoted value, which does not begin
with an identifier character, is never recorded — but a multi-token value
beginning with an identifier is recorded, keyed by that first token). -/
theorem C4_step_variable_reference_span {t : Txt} {i e : Nat} {occ : RefOcc}
    (h : matchStepVarAt t i = some (e, occ)) :
    occ.start + occ.name.length ≤ t.length ∧
    sliceT t occ.start (occ.start + occ.name.length) = occ.name ∧
    occ.name ≠ [] ∧
    (∃ c, charAt t occ.start = some c ∧ isIdentStart c = true) ∧
    (∀ c ∈ occ.name, isIdentCont c = true) ∧
    (∀ m, occ.key1 = "pipeline".toList → foldStepVarOccs m [occ] = m) ∧
    (∀ m, occ.key1 ≠ "pipeline".toList →
      foldStepVarOccs m [occ] =
        pushRef m (occ.key1 ++ [':', ':'] ++ occ.name) ⟨occ.start, occ.name.length⟩) := by
  unfold matchStepVarAt at h
  cases ha : anchorAt t i with
  | none => rw [ha] at h; exact Option.noConfusion h
  | some j =>
    rw [ha] at h
    dsimp only at h
    cases h1 : matchTok t ['|', '>'] (wsStar t j) with
    | none => rw [h1] at h; exact Option.noConfusion h
    | some j2 =>
      rw [h1] at h
      dsimp only at h
      cases h2 : parseIdentifier t (wsStar t j2) with
      | none => rw [h2] at h; exact Option.noConfusion h
      | some stp =>
        obtain ⟨stepType, j4⟩ := stp
        rw [h2] at h
        dsimp only at h
        cases h3 : matchTok t [':'] (wsStar t j4) with
        | none => rw [h3] at h; exact Option.noConfusion h
        | some j6 =>
          rw [h3] at h
          dsimp only at h
          cases h4 : parseIdentifier t (wsStar t j6) with
          | none => rw [h4] at h; exact Option.noConfusion h
          | some nmp =>
            obtain ⟨varName, j8⟩ := nmp
            rw [h4] at h
            dsimp only at h
            have hocc : occ = ⟨stepType, [], varName, wsStar t j6⟩ :=
              (congrArg Prod.snd (Option.some.inj h)).symm
            obtain ⟨g1, g2, g3⟩ := parseIdentifier_some h4
            have hlen : varName.length = j8 - wsStar t j6 := by
              rw [g3, sliceT_length]
              omega
            subst hocc
            dsimp only
            refine ⟨by omega, ?_, ?_, parseIdentifier_head h4,
              parseIdentifier_chars h4, ?_, ?_⟩
            · have harg : wsStar t j6 + varName.length = j8 := by omega
              rw [harg, g3]
            · intro hnil
              rw [hnil] at hlen
              simp at hlen
              omega
            · intro m hp
              unfold foldStepVarOccs
              simp only [List.foldl_cons, List.foldl_nil]
              rw [if_pos hp]
            · intro m hp
              unfold foldStepVarOccs
              simp only [List.foldl_cons, List.foldl_nil]
              rw [if_neg hp]

/-- Counterexample to the original C4: on `tC4` the value `users extra` is
not a single bare identifier — non-whitespace text follows on the value —
yet the scanner records a `pg::users` reference for its first token. -/
theorem C4_multitoken_value_recorded :
    (collectReferencePositionsF tC4).map (fun rp => rp.variableRefs) =
      some [("pg::users".toList, [⟨7, 5⟩])] ∧
    sliceT tC4 7 12 = "users".toList ∧
    charAt tC4 12 = some ' ' ∧ charAt tC4 13 = some 'e' :=
  ⟨by decide, by decide, by decide, by decide⟩

/-- Witness for C4 on the `tC4` match. -/
theorem C4_step_variable_reference_span_witness :
    occC4.start + occC4.name.length ≤ tC4.length ∧
    sliceT tC4 occC4.start (occC4.start + occC4.name.length) = occC4.name ∧
    occC4.name ≠ [] ∧
    (∃ c, charAt tC4 occC4.start = some c ∧ isIdentStart c = true) ∧
    (∀ c ∈ occC4.name, isIdentCont c = true) ∧
    (∀ m, occC4.key1 = "pipeline".toList → foldStepVarOccs m [occC4] = m) ∧
    (∀ m, occC4.key1 ≠ "pipeline".toList →
      foldStepVarOccs m [occC4] =
        pushRef m (occC4.key1 ++ [':', ':'] ++ occC4.name)
          ⟨occC4.start, occC4.name.length⟩) :=
  @C4_step_variable_reference_span tC4 0 12 occC4 (by decide)

-- ==== Name-position facts (`document-model.ts`, `symbol-table.ts`) ====

theorem subIdx_starts_slice {t : Txt} {a b idx : Nat} {nm : Txt}
    (hst : startsWithAt (sliceT t a b) nm idx = true) :
    sliceT t (a + idx) (a + idx + nm.length) = nm := by
  have hpre : nm <+: (sliceT t a b).drop idx := by
    unfold startsWithAt at hst
    exact List.isPrefixOf_iff_prefix.mp hst
  have hd : (sliceT t a b).drop idx = (t.drop (a + idx)).take (b - a - idx) := by
    unfold sliceT
    rw [List.drop_take, List.drop_drop]
  rw [hd] at hpre
  have hpre2 : nm <+: t.drop (a + idx) :=
    hpre.trans (List.take_prefix _ _)
  have hnm := List.prefix_iff_eq_take.mp hpre2
  unfold sliceT
  have harg : a + idx + nm.length - (a + idx) = nm.length := by omega
  rw [harg]
  exact hnm.symm

theorem slice_starts_rel {t : Txt} {a b i : Nat} {nm : Txt}
    (h1 : a ≤ i) (h2 : i + nm.length ≤ b)
    (h4 : sliceT t i (i + nm.length) = nm) :
    startsWithAt (sliceT t a b) nm (i - a) = true := by
  unfold startsWithAt
  rw [List.isPrefixOf_iff_prefix]
  have hd : (sliceT t a b).drop (i - a) = (t.drop i).take (b - i) := by
    unfold sliceT
    rw [List.drop_take, List.drop_drop]
    congr 1
    · omega
    · congr 1
      omega
  rw [hd]
  have hnm : (t.drop i).take nm.length = nm := by
    have harg : i + nm.length - i = nm.length := by omega
    have h5 := h4
    unfold sliceT at h5
    rwa [harg] at h5
  rw [List.prefix_iff_eq_take, List.take_take]
  have hmin : min nm.length (b - i) = nm.length := by omega
  rw [hmin]
  exact hnm.symm

theorem findVariableNamePosition_slice {t : Txt} {r : Nat × Nat} {nm : Txt}
    (h : RangeHasName t nm r) :
    (findVariableNamePosition t r nm).length = nm.length ∧
    sliceT t (findVariableNamePosition t r nm).start
      ((findVariableNamePosition t r nm).start + nm.length) = nm := by
  obtain ⟨i, hi1, hi2, hi3, hi4⟩ := h
  unfold findVariableNamePosition
  have hrel : startsWithAt (sliceT t r.1 r.2) nm (i - r.1) = true :=
    slice_starts_rel hi1 hi2 hi4
  have hmemf : (i - r.1) ∈ (List.range ((sliceT t r.1 r.2).length + 1)).filter
      (fun k => startsWithAt (sliceT t r.1 r.2) nm k) := by
    refine List.mem_filter.mpr ⟨List.mem_range.mpr ?_, hrel⟩
    rw [sliceT_length]
    omega
  cases hlast : lastSubIdx (sliceT t r.1 r.2) nm with
  | none =>
    unfold lastSubIdx at hlast
    rw [List.getLast?_eq_none_iff] at hlast
    rw [hlast] at hmemf
    exact absurd hmemf (List.not_mem_nil _)
  | some idx =>
    have hidx : startsWithAt (sliceT t r.1 r.2) nm idx = true := by
      unfold lastSubIdx at hlast
      have hmem := List.mem_of_mem_getLast? hlast
      exact (List.mem_filter.mp hmem).2
    dsimp only
    rw [hlast]
    dsimp only
    exact ⟨rfl, subIdx_starts_slice hidx⟩

theorem findPipelineNamePosition_slice {t : Txt} {r : Nat × Nat} {nm : Txt}
    (h : RangeHasName t nm r) :
    (findPipelineNamePosition t r nm).length = nm.length ∧
    sliceT t (findPipelineNamePosition t r nm).start
      ((findPipelineNamePosition t r nm).start + nm.length) = nm := by
  obtain ⟨i, hi1, hi2, hi3, hi4⟩ := h
  unfold findPipelineNamePosition
  have hrel : startsWithAt (sliceT t r.1 r.2) nm (i - r.1) = true :=
    slice_starts_rel hi1 hi2 hi4
  cases hfirst : firstSubIdx (sliceT t r.1 r.2) nm with
  | none =>
    unfold firstSubIdx at hfirst
    have := List.find?_eq_none.mp hfirst (i - r.1) (List.mem_range.mpr (by
      rw [sliceT_length]; omega))
    exact absurd hrel (by simpa using this)
  | some idx =>
    have hidx : startsWithAt (sliceT t r.1 r.2) nm idx = true := by
      unfold firstSubIdx at hfirst
      exact List.find?_some hfirst
    dsimp only
    rw [hfirst]
    dsimp only
    exact ⟨rfl, subIdx_starts_slice hidx⟩

theorem parseProgramRun_rangesOk {t : Txt} {prog : Program} {s : PState}
    (h : parseProgramRun t = some (prog, s)) :
    PipeRangesOk t s.pipelineRanges ∧ VarRangesOk t s.variableRanges := by
  unfold parseProgramRun at h
  cases htop : parseTopF (totalFuel t) t { emptyPState with pos := skipSpaces t 0 }
      emptyProgram with
  | none => rw [htop] at h; exact Option.noConfusion h
  | some r =>
    obtain ⟨prog0, s0⟩ := r
    rw [htop] at h
    dsimp only at h
    have hs : backtickCheck t s0 = s := congrArg Prod.snd (Option.some.inj h)
    have hinv := parseTopF_inv (totalFuel t) t _ _ htop
      (by dsimp only; exact skipSpaces_le (Nat.zero_le _))
      ⟨fun d hd => absurd hd (List.not_mem_nil d),
       fun kv hkv => absurd hkv (List.not_mem_nil kv),
       fun kv hkv => absurd hkv (List.not_mem_nil kv)⟩
    have hpr : (backtickCheck t s0).pipelineRanges = s0.pipelineRanges := by
      unfold backtickCheck
      dsimp only
      split <;> rfl
    have hvr : (backtickCheck t s0).variableRanges = s0.variableRanges := by
      unfold backtickCheck
      dsimp only
      split <;> rfl
    rw [← hs, hpr, hvr]
    exact ⟨hinv.2.1, hinv.2.2⟩

theorem foldSetA_forall {α β : Type} (P : Txt × β → Prop) (f : Txt × α → β) :
    ∀ (l : List (Txt × α)) (acc : List (Txt × β)),
      (∀ kv ∈ acc, P kv) → (∀ x ∈ l, P (x.1, f x)) →
      ∀ kv ∈ l.foldl (fun acc kv => setA acc kv.1 (f kv)) acc, P kv
  | [], _, hacc, _ => hacc
  | x :: xs, acc, hacc, hl => by
    simp only [List.foldl_cons]
    exact foldSetA_forall P f xs _
      (setA_forall hacc (hl x (List.mem_cons_self _ _)))
      (fun y hy => hl y (List.mem_cons_of_mem _ hy))

/-- C2 (corrected): the document model's `findVariableNamePosition` and
`findPipelineNamePosition` do return positions whose substring equals the
name (given the parser's range invariant, which every parsed range
satisfies) — but `findVariableNamePosition` takes the last occurrence inside
the declaration, which can lie inside the value rather than at the name
token; and `buildSymbolTable`'s `variablePositions`/`pipelinePositions`
record the whole declaration span `(start, end - start)`, not the name
token's span. -/
theorem C2_recorded_name_positions :
    (∀ (t : Txt) (r : Nat × Nat) (nm : Txt), RangeHasName t nm r →
      (findVariableNamePosition t r nm).length = nm.length ∧
      sliceT t (findVariableNamePosition t r nm).start
        ((findVariableNamePosition t r nm).start + nm.length) = nm) ∧
    (∀ (t : Txt) (r : Nat × Nat) (nm : Txt), RangeHasName t nm r →
      (findPipelineNamePosition t r nm).length = nm.length ∧
      sliceT t (findPipelineNamePosition t r nm).start
        ((findPipelineNamePosition t r nm).start + nm.length) = nm) ∧
    (∀ (t : Txt) (prog : Program) (s : PState), parseProgramRun t = some (prog, s) →
      (∀ kv ∈ s.pipelineRanges, RangeHasName t kv.1 kv.2) ∧
      (∀ kv ∈ s.variableRanges, RangeHasName t (splitOn2Colons kv.1).2 kv.2)) ∧
    (∀ (t : Txt) (program : Program) (st : SymbolTable),
      buildSymbolTableF program t = some st →
      (∀ kv ∈ st.variablePositions, ∃ ranges r,
        getVariableRangesF t = some ranges ∧ (kv.1, r) ∈ ranges ∧
        kv.2 = ⟨r.1, r.2 - r.1⟩) ∧
      (∀ kv ∈ st.pipelinePositions, ∃ ranges r,
        getPipelineRangesF t = some ranges ∧ (kv.1, r) ∈ ranges ∧
        kv.2 = ⟨r.1, r.2 - r.1⟩)) := by
  refine ⟨fun t r nm h => findVariableNamePosition_slice h,
    fun t r nm h => findPipelineNamePosition_slice h,
    fun t prog s h =>
      ⟨(parseProgramRun_rangesOk h).1, (parseProgramRun_rangesOk h).2⟩, ?_⟩
  intro t program st h
  simp only [buildSymbolTableF, bind, Option.bind_eq_some, Option.pure_def,
    Option.some.injEq] at h
  obtain ⟨vr, hvr, pr, hpr, refs, hrefs, hb, hhb, hst⟩ := h
  constructor
  · intro kv hkv
    have hkv' : kv ∈ vr.foldl
        (fun acc kv => setA acc kv.1 (⟨kv.2.1, kv.2.2 - kv.2.1⟩ : PositionInfo)) [] := by
      rw [← hst] at hkv
      exact hkv
    have := foldSetA_forall
      (fun kv => ∃ r, (kv.1, r) ∈ vr ∧ kv.2 = ⟨r.1, r.2 - r.1⟩)
      (fun kv => (⟨kv.2.1, kv.2.2 - kv.2.1⟩ : PositionInfo)) vr []
      (fun kv hkv => absurd hkv (List.not_mem_nil kv))
      (fun x hx => ⟨x.2, by simpa using hx, rfl⟩) kv hkv'
    obtain ⟨r, hr, he⟩ := this
    exact ⟨vr, r, hvr, hr, he⟩
  · intro kv hkv
    have hkv' : kv ∈ pr.foldl
        (fun acc kv => setA acc kv.1 (⟨kv.2.1, kv.2.2 - kv.2.1⟩ : PositionInfo)) [] := by
      rw [← hst] at hkv
      exact hkv
    have := foldSetA_forall
      (fun kv => ∃ r, (kv.1, r) ∈ pr ∧ kv.2 = ⟨r.1, r.2 - r.1⟩)
      (fun kv => (⟨kv.2.1, kv.2.2 - kv.2.1⟩ : PositionInfo)) pr []
      (fun kv hkv => absurd hkv (List.not_mem_nil kv))
      (fun x hx => ⟨x.2, by simpa using hx, rfl⟩) kv hkv'
    obtain ⟨r, hr, he⟩ := this
    exact ⟨pr, r, hpr, hr, he⟩

/-- Counterexample to the original C2: on `tC2p`, `buildSymbolTable` records
the pipeline position of `foo` as the whole declaration span `(0, 24)`, whose
substring is the entire declaration, not `foo`; and on `tC2v`, the document
model records `pg::q` at offset 10 — the `q` inside the backtick value — not
at the name token (offset 3). -/
theorem C2_full_span_counterexample :
    (buildSymbolTableF progC2p tC2p).map (fun st => st.pipelinePositions) =
      some [("foo".toList, ⟨0, 24⟩)] ∧
    sliceT tC2p 0 (0 + "foo".toList.length) ≠ "foo".toList ∧
    sliceT tC2p 0 24 ≠ "foo".toList ∧
    (createDocumentModelF tC2v).map (fun dm => dm.variablePositions) =
      some [("pg::q".toList, ⟨10, 1⟩)] ∧
    charAt tC2v 7 = some btick ∧ sliceT tC2v 3 4 = "q".toList ∧ (10 : Nat) ≠ 3 :=
  ⟨by decide, by decide, by decide, by decide, by decide, by decide, by decide⟩

/-- Witness for C2 on `tC2v`: the name `q` occurs in its declaration range
`(0, 14)`, and the document-model position's substring is `q`. -/
theorem C2_recorded_name_positions_witness :
    (findVariableNamePosition tC2v (0, 14) "q".toList).length = "q".toList.length ∧
    sliceT tC2v (findVariableNamePosition tC2v (0, 14) "q".toList).start
      ((findVariableNamePosition tC2v (0, 14) "q".toList).start +
        "q".toList.length) = "q".toList :=
  C2_recorded_name_positions.1 tC2v (0, 14) "q".toList
    ⟨3, by decide, by decide, by decide, by decide⟩

end WebpipeLSP
